import Mathlib

/-!
# hosa (Header Only String & Array): a shallow embedding

The development follows the C++ headers

* `utility/hosa_Utility.h` (`isPositiveAndBelow`, `eon_assert`),
* `utility/hosa_DynamicMemoryBlock.h` (`DynamicMemoryBlock`),
* `array/hosa_Array.h` (`Array`),
* `string/hosa_StringHelpers.h` (`CharHelpers`, `StringHelpers`),
* `string/hosa_String.h` (`String`).

Conventions of the embedding.

* `int` values are mathematical integers (`Int`); signed arithmetic is assumed not to
  overflow.  The one place where the source itself converts between integer types, the
  growth expression `((uint32_t)(min + min / 2 + 8)) & ~7u` handed to an `int` parameter,
  is modelled with the explicit reduction modulo `2 ^ 32`, the bit mask and the conversion
  back to `int`.
* A heap block of element slots is a list of slots; a slot is `some v` when it holds the
  value `v` and `none` when it holds no value (raw, destroyed or moved-from storage).
  The null pointer is `none` at the level of the block.
* An operation that can hit `eon_assert` returns an `Outcome`: `done s` when it runs to
  completion, `fatal s` when an assertion fails (`std::terminate`) in state `s`, and
  `undefined` when it would access storage outside its block, read an object from a slot
  that holds none, or release a block in a way that C++ leaves undefined (undefined
  behaviour, for which the embedding invents no result).
* The allocation calls `malloc`, `calloc` and `realloc` are modelled by their effect on the
  slots of the block: a fresh block of raw slots, a block that keeps the common part of the
  slots.  A block is released by `delete[]`, although none comes from `new[]`: for an element
  type with a destructor the release of a block has no result (undefined behaviour), for a
  trivially destructible type it leaves no block, and `delete[]` of `nullptr` does nothing.
* The SFINAE overloads selected by `std::is_trivially_copyable` and
  `std::is_move_assignable` are selected here by the two flags of `ElemTraits`.
* A character is the value it has as `char`, an integer; the embedding fixes neither the
  signedness nor the range of `char`, and a comparison of characters compares these values.
  Where `char` is signed, a byte above `0x7F` is a negative value (`0xE9` is `-23`);
  `byteValue` gives the byte back.
* An argument passed as `const ContainedType&` is given by the value of the object it refers
  to when that object lies outside the block of the array; the call of `insert` with a
  reference to an element of the array itself is modelled on its own (`insertElement`).
* A `const char*` is the list of characters found in memory from the pointer on; the
  allocation ends with the terminator `0` right after them.  A buffer under construction is
  a list of optional characters, `none` for a character not yet written; `memcpy` outside
  an allocation has no result.
* A loop whose number of iterations is fixed when it starts is a recursion over that number.
  The loop of `String::split`, which does not end for an empty separator, takes the number
  of iterations it may use as an argument and has no result when they do not suffice.
-/

namespace hosa

/-! ## Outcomes of operations guarded by `eon_assert` -/

/-- Result of running an operation on a state of type `σ` with a result of type `ρ`:
completion with a result, a failed `eon_assert` in the given state, or undefined behaviour. -/
inductive Outcome (σ ρ : Type) where
  | done (r : ρ)
  | fatal (s : σ)
  | undefined
deriving DecidableEq, Repr

/-- Sequencing: a failed assertion or undefined behaviour ends the run. -/
def Outcome.bind {σ ρ τ : Type} (o : Outcome σ ρ) (f : ρ → Outcome σ τ) : Outcome σ τ :=
  match o with
  | .done r => f r
  | .fatal s => .fatal s
  | .undefined => .undefined

/-! ## `hosa_Utility.h` -/

/-- The function `isPositiveAndBelow`: `numToCheck >= 0 && numToCheck < limit`. -/
def isPositiveAndBelow (numToCheck limit : Int) : Bool :=
  decide (numToCheck ≥ 0) && decide (numToCheck < limit)

/-- Compile-time facts about `ContainedType` that choose between the SFINAE overloads. -/
structure ElemTraits where
  triviallyCopyable : Bool
  moveAssignable : Bool
deriving DecidableEq, Repr

/-- Whether `delete[]` on a block of `ContainedType` has no destructor to run.  A trivially
copyable type has a trivial destructor; a type that is not trivially copyable is taken to have
a destructor of its own, as `String` has. -/
def ElemTraits.triviallyDestructible (tr : ElemTraits) : Bool :=
  tr.triviallyCopyable

/-! ## `hosa_DynamicMemoryBlock.h` -/

/-- The class `DynamicMemoryBlock`: the owned pointer `data`, `none` for `nullptr`,
otherwise the slots of the heap block it points to. -/
structure DynamicMemoryBlock (α : Type) where
  data : Option (List (Option α))
deriving DecidableEq, Repr

namespace DynamicMemoryBlock

variable {α : Type}

/-- The slots reachable through the pointer (none through `nullptr`). -/
def slots (m : DynamicMemoryBlock α) : List (Option α) :=
  m.data.getD []

/-- Reading the object `data[i]`: undefined outside the block or on a slot without value. -/
def read (m : DynamicMemoryBlock α) (i : Int) : Option α :=
  match m.data with
  | none => none
  | some s => if 0 ≤ i ∧ i < (s.length : Int) then s.getD i.toNat none else none

/-- Overwriting the slot `data[i]`: undefined outside the block. -/
def write (m : DynamicMemoryBlock α) (i : Int) (v : Option α) : Option (DynamicMemoryBlock α) :=
  match m.data with
  | none => none
  | some s => if 0 ≤ i ∧ i < (s.length : Int) then some ⟨some (s.set i.toNat v)⟩ else none

/-- The call `memmove (data + dst, data + src, n * sizeof (ContainedType))`: the `n` slots from
`src` on are copied to `dst` on as if through a temporary buffer.  Moving nothing touches no
storage; a negative `n` becomes a huge `size_t`. -/
def memmove (m : DynamicMemoryBlock α) (dst src n : Int) : Option (DynamicMemoryBlock α) :=
  if n = 0 then some m
  else
    match m.data with
    | none => none
    | some s =>
      if 0 < n ∧ 0 ≤ src ∧ src + n ≤ (s.length : Int) ∧ 0 ≤ dst ∧ dst + n ≤ (s.length : Int) then
        some ⟨some (s.take dst.toNat ++ (s.drop src.toNat).take n.toNat ++ s.drop (dst + n).toNat)⟩
      else none

/-- The method `reallocate (numElements)`: `malloc` from `nullptr`, `realloc` otherwise; the
common prefix of the old and the new block is kept, new slots are raw. -/
def reallocate (m : DynamicMemoryBlock α) (numElements : Int) : DynamicMemoryBlock α :=
  ⟨some (m.slots.take numElements.toNat ++
    List.replicate (numElements.toNat - m.slots.length) none)⟩

/-- The constructor `DynamicMemoryBlock (numElements)`: a fresh block of raw slots. -/
def allocate (numElements : Int) : DynamicMemoryBlock α :=
  ⟨some (List.replicate numElements.toNat none)⟩

/-- The method `free`: `delete[] data; data = nullptr;`.  The storage of a block comes from
`malloc`, `calloc` or `realloc`, never from `new[]`.  For an element type with a destructor,
`delete[]` runs the destructor over an element count that nothing stored in front of the block
and releases a pointer that `malloc` did not return: undefined behaviour, no result.  For a
trivially destructible type it releases the storage.  `delete[]` of `nullptr` does nothing. -/
def free (tr : ElemTraits) (m : DynamicMemoryBlock α) : Option (DynamicMemoryBlock α) :=
  match m.data with
  | none => some ⟨none⟩
  | some _ => if tr.triviallyDestructible then some ⟨none⟩ else none

end DynamicMemoryBlock

/-! ## `hosa_Array.h` -/

/-- The class `Array`: `numElements`, `allocatedSpace` and the owned block `elements`. -/
structure Array (α : Type) where
  numElements : Int
  allocatedSpace : Int
  elements : DynamicMemoryBlock α
deriving DecidableEq, Repr

namespace Array

variable {α : Type}

/-- The defaulted constructor `Array()`: no elements, no capacity, `nullptr`. -/
def empty : Array α :=
  { numElements := 0, allocatedSpace := 0, elements := ⟨none⟩ }

/-- The getter `getNumItems`. -/
def getNumItems (a : Array α) : Int := a.numElements

/-- The getter `getAllocatedSize`. -/
def getAllocatedSize (a : Array α) : Int := a.allocatedSpace

/-- Loop of `indexOf`: `for (i; i < numElements; ++i) if (item == elements[i]) return i;`
with `k` iterations left; `-1` when the loop ends. -/
def indexOfLoop [BEq α] (a : Array α) (item : α) : Nat → Int → Option Int
  | 0, _ => some (-1)
  | k + 1, i =>
    match a.elements.read i with
    | none => none
    | some e => if item == e then some i else indexOfLoop a item k (i + 1)

/-- The method `indexOf`; `none` when an element read is undefined. -/
def indexOf [BEq α] (a : Array α) (item : α) : Option Int :=
  indexOfLoop a item a.numElements.toNat 0

/-- Loop of `contains`: the range-based `for` over `begin() .. end()`. -/
def containsLoop [BEq α] (a : Array α) (itemToCheck : α) : Nat → Int → Option Bool
  | 0, _ => some false
  | k + 1, i =>
    match a.elements.read i with
    | none => none
    | some e => if e == itemToCheck then some true else containsLoop a itemToCheck k (i + 1)

/-- The method `contains`. -/
def contains [BEq α] (a : Array α) (itemToCheck : α) : Option Bool :=
  containsLoop a itemToCheck a.numElements.toNat 0

/-- Loop of the element-wise `setAllocatedSizeInternal`: each element is move-constructed
into the new block and destroyed in the old one. -/
def relocateLoop (old new : DynamicMemoryBlock α) :
    Nat → Int → Option (DynamicMemoryBlock α × DynamicMemoryBlock α)
  | 0, _ => some (old, new)
  | k + 1, i =>
    match old.read i with
    | none => none
    | some v =>
      match new.write i (some v) with
      | none => none
      | some new1 =>
        match old.write i none with
        | none => none
        | some old1 => relocateLoop old1 new1 k (i + 1)

/-- The two overloads of `setAllocatedSizeInternal`: `elements.reallocate` for trivially
copyable elements; otherwise a fresh block `newElements`, the move loop, and
`elements = std::move (newElements)`, which swaps the two pointers, so that the destructor of
`newElements` calls `free` on the old block when the function returns. -/
def setAllocatedSizeInternal (tr : ElemTraits) (a : Array α) (newNumElements : Int) :
    Option (Array α) :=
  if tr.triviallyCopyable then
    some { a with elements := a.elements.reallocate newNumElements }
  else
    match relocateLoop a.elements (DynamicMemoryBlock.allocate newNumElements)
        a.numElements.toNat 0 with
    | none => none
    | some (oldElements, newElements) =>
      match oldElements.free tr with
      | none => none
      | some _ => some { a with elements := newElements }

/-- The method `setAllocatedSize`. -/
def setAllocatedSize (tr : ElemTraits) (a : Array α) (newNumElements : Int) :
    Outcome (Array α) (Array α) :=
  if ¬ (newNumElements ≥ a.numElements) then .fatal a
  else
    let resized : Option (Array α) :=
      if a.allocatedSpace ≠ newNumElements then
        if newNumElements > 0 then setAllocatedSizeInternal tr a newNumElements
        else
          match a.elements.free tr with
          | none => none
          | some m => some { a with elements := m }
      else some a
    match resized with
    | none => .undefined
    | some a1 => .done { a1 with allocatedSpace := newNumElements }

/-- The argument `((uint32_t)(minNumElements + minNumElements / 2 + 8)) & ~7u` as received by
the `int` parameter of `setAllocatedSize`: the sum (C division truncates), reduced modulo
`2 ^ 32`, masked with `~7u = 4294967288`, and read back as `int`. -/
def growthSize (minNumElements : Int) : Int :=
  let u : Nat := ((minNumElements + minNumElements.tdiv 2 + 8) % 4294967296).toNat
  let masked : Nat := u &&& 4294967288
  if masked < 2147483648 then (masked : Int) else (masked : Int) - 4294967296

/-- The method `ensureAllocatedSpace`. -/
def ensureAllocatedSpace (tr : ElemTraits) (a : Array α) (minNumElements : Int) :
    Outcome (Array α) (Array α) :=
  (if minNumElements > a.allocatedSpace then
      setAllocatedSize tr a (growthSize minNumElements)
    else .done a).bind fun a1 =>
  if ¬ (a1.allocatedSpace ≤ 0 ∨ a1.elements.data.isSome = true) then .fatal a1 else .done a1

/-- The method `addAssumingMemoryAllocated` for one element:
`new (elements + numElements++) ContainedType (element)`. -/
def addAssumingMemoryAllocated (a : Array α) (element : α) : Outcome (Array α) (Array α) :=
  match a.elements.write a.numElements (some element) with
  | none => .undefined
  | some m => .done { a with numElements := a.numElements + 1, elements := m }

/-- The variadic `addAssumingMemoryAllocated`: first element, then the rest. -/
def addAssumingMemoryAllocatedAll (a : Array α) : List α → Outcome (Array α) (Array α)
  | [] => .done a
  | first :: rest =>
    (addAssumingMemoryAllocated a first).bind fun a1 => addAssumingMemoryAllocatedAll a1 rest

/-- The method `add` for one element, an object outside the block of the array (the copying
and the moving overload agree). -/
def add (tr : ElemTraits) (a : Array α) (newElement : α) : Outcome (Array α) (Array α) :=
  (ensureAllocatedSpace tr a (a.numElements + 1)).bind fun a1 =>
  addAssumingMemoryAllocated a1 newElement

/-- The variadic `add (first, others...)`: one `ensureAllocatedSpace` for all elements. -/
def addAll (tr : ElemTraits) (a : Array α) (firstNewElement : α) (otherElements : List α) :
    Outcome (Array α) (Array α) :=
  (ensureAllocatedSpace tr a (a.numElements + 1 + (otherElements.length : Int))).bind fun a1 =>
  addAssumingMemoryAllocatedAll a1 (firstNewElement :: otherElements)

/-- Loop of `addFromBuffer`: `addAssumingMemoryAllocated (buffer[i])`; reading `buffer[i]`
outside the buffer or from a slot without value is undefined. -/
def addFromBufferLoop (buffer : List (Option α)) : Nat → Nat → Array α → Outcome (Array α) (Array α)
  | 0, _, a => .done a
  | k + 1, i, a =>
    match buffer.getD i none with
    | none => .undefined
    | some v => (addAssumingMemoryAllocated a v).bind fun a1 => addFromBufferLoop buffer k (i + 1) a1

/-- The method `addFromBuffer`. -/
def addFromBuffer (tr : ElemTraits) (a : Array α) (buffer : List (Option α))
    (numElementsToAdd : Int) : Outcome (Array α) (Array α) :=
  (ensureAllocatedSpace tr a (a.numElements + numElementsToAdd)).bind fun a1 =>
  addFromBufferLoop buffer numElementsToAdd.toNat 0 a1

/-- One iteration of the element-wise `createInsertSpaceInternal`:
`new (--newEnd) ContainedType (std::move (*(--end))); end->~ContainedType();`
with `newEnd` and `endp` already decremented. -/
def moveConstructAndDestroy (m : DynamicMemoryBlock α) (newEnd endp : Int) :
    Option (DynamicMemoryBlock α) :=
  match m.read endp with
  | none => none
  | some v =>
    match m.write newEnd (some v) with
    | none => none
    | some m1 => m1.write endp none

/-- Loop of the element-wise `createInsertSpaceInternal`, right to left. -/
def shiftBackLoop (m : DynamicMemoryBlock α) : Nat → Int → Int → Option (DynamicMemoryBlock α)
  | 0, _, _ => some m
  | k + 1, newEnd, endp =>
    match moveConstructAndDestroy m (newEnd - 1) (endp - 1) with
    | none => none
    | some m1 => shiftBackLoop m1 k (newEnd - 1) (endp - 1)

/-- The two overloads of `createInsertSpaceInternal`. -/
def createInsertSpaceInternal (tr : ElemTraits) (a : Array α) (indexToInsertAt numToAdd : Int) :
    Option (Array α) :=
  let numElementsToShift := a.numElements - indexToInsertAt
  if tr.triviallyCopyable then
    match a.elements.memmove (indexToInsertAt + numToAdd) indexToInsertAt numElementsToShift with
    | none => none
    | some m => some { a with elements := m }
  else
    match shiftBackLoop a.elements numElementsToShift.toNat
        (a.numElements + numToAdd) a.numElements with
    | none => none
    | some m => some { a with elements := m }

/-- The method `createInsertSpace`; the returned pointer is given as its index in the block. -/
def createInsertSpace (tr : ElemTraits) (a : Array α) (indexToInsertAt numToAdd : Int) :
    Outcome (Array α) (Array α × Int) :=
  match ensureAllocatedSpace tr a (a.numElements + numToAdd) with
  | .fatal s => .fatal s
  | .undefined => .undefined
  | .done a1 =>
    if ¬ isPositiveAndBelow indexToInsertAt a1.numElements then .done (a1, a1.numElements)
    else
      match createInsertSpaceInternal tr a1 indexToInsertAt numToAdd with
      | none => .undefined
      | some a2 => .done (a2, indexToInsertAt)

/-- The method `insert (index, toInsert)` called with a reference to an object outside the
block of the array, whose value is `toInsert`: `createInsertSpace` leaves that object as it
is, and `new (insertSpace) ContainedType {toInsert}` copies it afterwards. -/
def insert (tr : ElemTraits) (a : Array α) (index : Int) (toInsert : α) : Outcome (Array α) (Array α) :=
  match createInsertSpace tr a index 1 with
  | .fatal s => .fatal s
  | .undefined => .undefined
  | .done (a1, insertSpace) =>
    match a1.elements.write insertSpace (some toInsert) with
    | none => .undefined
    | some m => .done { a1 with numElements := a1.numElements + 1, elements := m }

/-- The call `insert (index, (*this)[source])`, whose `const ContainedType&` argument refers to
the element `elements[source]` of the array itself (`operator[]` asserts the index).  The
object is read through the reference in `new (insertSpace) ContainedType {toInsert}`, after
`createInsertSpace` has shifted the tail; when the block has been reallocated on the way the
reference points into the old block and the read is undefined. -/
def insertElement (tr : ElemTraits) (a : Array α) (index source : Int) :
    Outcome (Array α) (Array α) :=
  if ¬ isPositiveAndBelow source a.numElements then .fatal a
  else
    match createInsertSpace tr a index 1 with
    | .fatal s => .fatal s
    | .undefined => .undefined
    | .done (a1, insertSpace) =>
      if a1.allocatedSpace ≠ a.allocatedSpace then .undefined
      else
        match a1.elements.read source with
        | none => .undefined
        | some toInsert =>
          match a1.elements.write insertSpace (some toInsert) with
          | none => .undefined
          | some m => .done { a1 with numElements := a1.numElements + 1, elements := m }

/-- Loop of `insertFromBuffer`: `new (insertSpace + i) ContainedType {buffer[i]}`. -/
def insertFromBufferLoop (buffer : List (Option α)) (insertSpace : Int) :
    Nat → Nat → DynamicMemoryBlock α → Option (DynamicMemoryBlock α)
  | 0, _, m => some m
  | k + 1, i, m =>
    match buffer.getD i none with
    | none => none
    | some v =>
      match m.write (insertSpace + (i : Int)) (some v) with
      | none => none
      | some m1 => insertFromBufferLoop buffer insertSpace k (i + 1) m1

/-- The method `insertFromBuffer`. -/
def insertFromBuffer (tr : ElemTraits) (a : Array α) (index : Int) (buffer : List (Option α))
    (numElementsToAdd : Int) : Outcome (Array α) (Array α) :=
  match createInsertSpace tr a index numElementsToAdd with
  | .fatal s => .fatal s
  | .undefined => .undefined
  | .done (a1, insertSpace) =>
    match insertFromBufferLoop buffer insertSpace numElementsToAdd.toNat 0 a1.elements with
    | none => .undefined
    | some m => .done { a1 with numElements := a1.numElements + numElementsToAdd, elements := m }

/-- The two overloads of `moveAssignElement`: `*destination = std::move (source)` for a
move-assignable type, otherwise the destructor followed by the placement move-construction. -/
def moveAssignElement (tr : ElemTraits) (m : DynamicMemoryBlock α) (destination source : Int) :
    Option (DynamicMemoryBlock α) :=
  if tr.moveAssignable then
    match m.read source with
    | none => none
    | some v =>
      match m.write destination (some v) with
      | none => none
      | some m1 => m1.write source none
  else
    match m.write destination none with
    | none => none
    | some m0 =>
      match m0.read source with
      | none => none
      | some v =>
        match m0.write destination (some v) with
        | none => none
        | some m1 => m1.write source none

/-- First loop of the element-wise `removeElementsInternal`:
`moveAssignElement (destination++, std::move (*(source++)))`. -/
def moveAssignLoop (tr : ElemTraits) (m : DynamicMemoryBlock α) :
    Nat → Int → Int → Option (DynamicMemoryBlock α × Int)
  | 0, destination, _ => some (m, destination)
  | k + 1, destination, source =>
    match moveAssignElement tr m destination source with
    | none => none
    | some m1 => moveAssignLoop tr m1 k (destination + 1) (source + 1)

/-- Second loop of the element-wise `removeElementsInternal`:
`(destination++)->~ContainedType()`. -/
def destroyLoop (m : DynamicMemoryBlock α) : Nat → Int → Option (DynamicMemoryBlock α)
  | 0, _ => some m
  | k + 1, destination =>
    match m.write destination none with
    | none => none
    | some m1 => destroyLoop m1 k (destination + 1)

/-- The two overloads of `removeElementsInternal`. -/
def removeElementsInternal (tr : ElemTraits) (a : Array α)
    (indexToRemoveAt numElementsToRemove : Int) : Option (Array α) :=
  let numElementsToShift := a.numElements - (indexToRemoveAt + numElementsToRemove)
  if tr.triviallyCopyable then
    match a.elements.memmove indexToRemoveAt (indexToRemoveAt + numElementsToRemove)
        numElementsToShift with
    | none => none
    | some m => some { a with elements := m }
  else
    match moveAssignLoop tr a.elements numElementsToShift.toNat indexToRemoveAt
        (indexToRemoveAt + numElementsToRemove) with
    | none => none
    | some (m1, destination) =>
      match destroyLoop m1 numElementsToRemove.toNat destination with
      | none => none
      | some m2 => some { a with elements := m2 }

/-- The method `remove (index, num)`. -/
def remove (tr : ElemTraits) (a : Array α) (index : Int) (num : Int) : Outcome (Array α) (Array α) :=
  if ¬ isPositiveAndBelow (index + num - 1) a.numElements then .fatal a
  else
    match removeElementsInternal tr a index num with
    | none => .undefined
    | some a1 => .done { a1 with numElements := a1.numElements - num }

/-- The method `removeItem`: `remove (indexOf (itemToRemove))` with the default `num = 1`. -/
def removeItem [BEq α] (tr : ElemTraits) (a : Array α) (itemToRemove : α) : Outcome (Array α) (Array α) :=
  match indexOf a itemToRemove with
  | none => .undefined
  | some i => remove tr a i 1

/-- The method `clear`: every live element is destroyed, `numElements = 0`. -/
def clear (a : Array α) : Option (Array α) :=
  match destroyLoop a.elements a.numElements.toNat 0 with
  | none => none
  | some m => some { a with numElements := 0, elements := m }

/-- The copy assignment `operator= (const Array& other)` for distinct objects:
`clear(); addFromBuffer (other.elements, other.numElements);` and then both counters are
taken from `other`. -/
def copyAssign (tr : ElemTraits) (a other : Array α) : Outcome (Array α) (Array α) :=
  match clear a with
  | none => .undefined
  | some a0 =>
    (addFromBuffer tr a0 other.elements.slots other.numElements).bind fun a1 =>
    .done { a1 with numElements := other.numElements, allocatedSpace := other.allocatedSpace }

/-- The copy constructor `Array (const Array& other)`. -/
def copyConstruct (tr : ElemTraits) (other : Array α) : Outcome (Array α) (Array α) :=
  addFromBuffer tr empty other.elements.slots other.numElements

/-- The move assignment `operator= (Array&& other)` for distinct objects: the blocks are
swapped, the counters taken over and those of `other` reset.  Result: `(this, other)`. -/
def moveAssign (a other : Array α) : Array α × Array α :=
  ({ numElements := other.numElements, allocatedSpace := other.allocatedSpace,
     elements := other.elements },
   { numElements := 0, allocatedSpace := 0, elements := a.elements })

/-- The subscript `operator[] (index)`: `eon_assert (isPositiveAndBelow (index, numElements))`,
then the element `elements[index]`. -/
def get (a : Array α) (index : Int) : Outcome (Array α) α :=
  if ¬ isPositiveAndBelow index a.numElements then .fatal a
  else
    match a.elements.read index with
    | none => .undefined
    | some v => .done v

/-- The constructor from `std::initializer_list`: `for (auto& item : toAdd) add (item);`. -/
def ofInitializerList (tr : ElemTraits) (toAdd : List α) : Outcome (Array α) (Array α) :=
  toAdd.foldl (fun o item => o.bind fun a => add tr a item) (.done empty)

/-- The data-model invariant on the counters: `0 ≤ count ≤ capacity`. -/
def CountInv (a : Array α) : Prop :=
  0 ≤ a.numElements ∧ a.numElements ≤ a.allocatedSpace

instance (a : Array α) : Decidable a.CountInv := by
  unfold CountInv
  infer_instance

/-- The sequence `a` is well formed and holds exactly the values `S`: the count is the length
of `S`, the first slots of the block hold the values of `S` in order, and the block has
exactly `allocatedSpace` slots. -/
def Holds (a : Array α) (S : List α) : Prop :=
  a.numElements = (S.length : Int) ∧
  ∃ rest : List (Option α), a.elements.slots = S.map some ++ rest ∧
    a.allocatedSpace = (S.length : Int) + (rest.length : Int)

/-- The abc example of the specification: count 3 in a block of 8 slots. -/
def abc : Array Char :=
  { numElements := 3, allocatedSpace := 8,
    elements := ⟨some [some 'a', some 'b', some 'c', none, none, none, none, none]⟩ }

/-- The sequence `[a, b, c, d]` in the same block of 8 slots. -/
def abcd : Array Char :=
  { numElements := 4, allocatedSpace := 8,
    elements := ⟨some [some 'a', some 'b', some 'c', some 'd', none, none, none, none]⟩ }

/-- The sequence `[a, b, c]` with its capacity raised to 16, as `setAllocatedSize (16)`
leaves `abc`. -/
def abcWide : Array Char :=
  { numElements := 3, allocatedSpace := 16,
    elements := ⟨some ([some 'a', some 'b', some 'c'] ++ List.replicate 13 none)⟩ }

/-- The empty sequence with capacity 8, as `setAllocatedSize (8)` leaves `empty`. -/
def emptyWide : Array Char :=
  { numElements := 0, allocatedSpace := 8, elements := ⟨some (List.replicate 8 none)⟩ }

/-- The sequence `[a, b, c, d, e, f, g, h]` of `char`, which fills its block of 8 slots. -/
def eightChars : Array Char :=
  { numElements := 8, allocatedSpace := 8, elements := ⟨some ("abcdefgh".toList.map some)⟩ }

end Array

/-! ## `hosa_StringHelpers.h` -/

/-- The value of a `char`. -/
abbrev CChar := Int

/-- A `const char*`: the characters in memory from the pointer on.  The allocation ends with
the terminator `0` right after the listed characters. -/
abbrev CString := List CChar

/-- A freshly allocated `char*` buffer; a character not yet written is `none`. -/
abbrev CharBuffer := List (Option CChar)

namespace CharHelpers

/-- The function `CharHelpers::compare`: `lhs == rhs ? 0 : (lhs > rhs ? 1 : -1)`. -/
def compare (lhs rhs : CChar) : Int :=
  if lhs = rhs then 0 else if lhs > rhs then 1 else -1

/-- The function `CharHelpers::isWhiteSpace`: `c == ' ' || (c <= 13 && c >= 9)`. -/
def isWhiteSpace (c : CChar) : Bool :=
  c == 32 || (decide (c ≤ 13) && decide (c ≥ 9))

end CharHelpers

namespace StringHelpers

/-- The character `p[i]`; the terminator and the memory behind it read as `0`. -/
def charAt (p : CString) (i : Nat) : CChar :=
  p.getD i 0

/-- The function `stringLength`: `while (*(charPointer++) != 0) ++len;`. -/
def stringLength : CString → Int
  | [] => 0
  | c :: rest => if c ≠ 0 then stringLength rest + 1 else 0

/-- The function `nullTerminatedEmptyStringOfLength`: `new char [numAvailableChars + 1]` with
the last character set to the terminator; no block for a negative length. -/
def nullTerminatedEmptyStringOfLength (numAvailableChars : Int) : Option CharBuffer :=
  if 0 ≤ numAvailableChars then
    some (List.replicate numAvailableChars.toNat none ++ [some 0])
  else none

/-- The call `memcpy (buffer + offset, source, numChars)`.  Copying nothing touches no
storage; otherwise the source range (terminator included at most) and the destination range
must lie inside their allocations. -/
def memcpy (buffer : CharBuffer) (offset : Int) (source : CString) (numChars : Int) :
    Option CharBuffer :=
  if numChars = 0 then some buffer
  else if 0 < numChars ∧ numChars ≤ (source.length : Int) + 1 ∧ 0 ≤ offset ∧
      offset + numChars ≤ (buffer.length : Int) then
    some (buffer.take offset.toNat ++ ((source ++ [0]).take numChars.toNat).map some ++
      buffer.drop (offset + numChars).toNat)
  else none

/-- The text read through a pointer to a buffer: the characters up to the terminator; no
result when an unwritten character is met. -/
def readBuffer : CharBuffer → Option CString
  | [] => none
  | none :: _ => none
  | some c :: rest => if c = 0 then some [] else (readBuffer rest).map fun r => c :: r

/-- The function `buildStringFromPointers`. -/
def buildStringFromPointers (first second : CString) : Option CharBuffer :=
  let firstLen := stringLength first
  let secondLen := stringLength second
  (nullTerminatedEmptyStringOfLength (firstLen + secondLen)).bind fun temp =>
  (memcpy temp 0 first firstLen).bind fun temp1 =>
  memcpy temp1 firstLen second secondLen

/-- The function `allocateAndCopy`. -/
def allocateAndCopy (src : CString) : Option CharBuffer :=
  let len := stringLength src
  (nullTerminatedEmptyStringOfLength len).bind fun dest =>
  memcpy dest 0 src len

/-- The function `allocateAndCopyNumChars`. -/
def allocateAndCopyNumChars (start : CString) (numChars : Int) : Option CharBuffer :=
  (nullTerminatedEmptyStringOfLength numChars).bind fun temp =>
  memcpy temp 0 start numChars

/-- Loop of `compareNumChars`: `while (--numChars >= 0) if (auto diff = compare (*(s1++),
*(s2++))) return diff;`. -/
def compareNumCharsLoop : Nat → CString → CString → Int
  | 0, _, _ => 0
  | k + 1, s1, s2 =>
    let diff := CharHelpers.compare (charAt s1 0) (charAt s2 0)
    if diff ≠ 0 then diff else compareNumCharsLoop k (s1.drop 1) (s2.drop 1)

/-- The function `compareNumChars`. -/
def compareNumChars (s1 s2 : CString) (numChars : Int) : Int :=
  compareNumCharsLoop numChars.toNat s1 s2

/-- Loop of `stringContains`: `while (lenRemaining-- >= len) if (compareNumChars (toSearch++,
toFind, len) == 0) return true;` with `k` iterations left. -/
def stringContainsLoop (toFind : CString) (len : Int) : Nat → CString → Bool
  | 0, _ => false
  | k + 1, toSearch =>
    if compareNumChars toSearch toFind len = 0 then true
    else stringContainsLoop toFind len k (toSearch.drop 1)

/-- The function `stringContains`: the loop runs for `lenRemaining = stringLength (toSearch)`
down to `len`. -/
def stringContains (toSearch toFind : CString) : Bool :=
  let len := stringLength toFind
  let lenRemaining := stringLength toSearch
  stringContainsLoop toFind len (lenRemaining - len + 1).toNat toSearch

/-- Loop of `indexOfSubString`: `while (index <= stringLength (source) - len)` with `k`
iterations left. -/
def indexOfSubStringLoop (source toFind : CString) (len : Int) : Nat → Int → Int
  | 0, _ => -1
  | k + 1, index =>
    if compareNumChars (source.drop index.toNat) toFind len = 0 then index
    else indexOfSubStringLoop source toFind len k (index + 1)

/-- The function `indexOfSubString`. -/
def indexOfSubString (source toFind : CString) : Int :=
  let len := stringLength toFind
  indexOfSubStringLoop source toFind len (stringLength source - len + 1).toNat 0

/-- The function `replace (source, toReplace, replaceWith)`. -/
def replace (source toReplace replaceWith : CString) : Option CharBuffer :=
  let srcLen := stringLength source
  let toRepLen := stringLength toReplace
  let repWithLen := stringLength replaceWith
  (nullTerminatedEmptyStringOfLength (srcLen - toRepLen + repWithLen)).bind fun temp =>
  let index := indexOfSubString source toReplace
  (memcpy temp 0 source index).bind fun temp1 =>
  (memcpy temp1 index replaceWith repWithLen).bind fun temp2 =>
  memcpy temp2 (index + repWithLen) (source.drop (index + toRepLen).toNat)
    (srcLen - index - toRepLen)

/-- Reading `string[pos]` with the bounds of the allocation: the characters, then the
terminator; nothing before the first character or behind the terminator. -/
def readAt (string : CString) (pos : Int) : Option CChar :=
  if 0 ≤ pos ∧ pos ≤ (string.length : Int) then some (charAt string pos.toNat) else none

/-- First loop of `clipOffWhiteSpace`: `while (isWhiteSpace (*(begin))) ++begin;`. -/
def clipBeginLoop (string : CString) : Nat → Int → Option Int
  | 0, _ => none
  | k + 1, begin =>
    match readAt string begin with
    | none => none
    | some c => if CharHelpers.isWhiteSpace c then clipBeginLoop string k (begin + 1) else some begin

/-- Second loop of `clipOffWhiteSpace`: `while (isWhiteSpace (*(end - 1))) --end;`. -/
def clipEndLoop (string : CString) : Nat → Int → Option Int
  | 0, _ => none
  | k + 1, endp =>
    match readAt string (endp - 1) with
    | none => none
    | some c => if CharHelpers.isWhiteSpace c then clipEndLoop string k (endp - 1) else some endp

/-- Third loop of `clipOffWhiteSpace`: `while (begin != end) temp[index++] = *(begin++);`
with `k = end - begin` iterations. -/
def clipCopyLoop (string : CString) : Nat → Int → Int → CharBuffer → Option CharBuffer
  | 0, _, _, temp => some temp
  | k + 1, begin, index, temp =>
    match readAt string begin with
    | none => none
    | some c =>
      if 0 ≤ index ∧ index < (temp.length : Int) then
        clipCopyLoop string k (begin + 1) (index + 1) (temp.set index.toNat (some c))
      else none

/-- The function `clipOffWhiteSpace`.  Both scans stop within `stringLength + 1` steps or
leave the allocation. -/
def clipOffWhiteSpace (string : CString) : Option CharBuffer :=
  let oldLen := stringLength string
  (clipBeginLoop string (string.length + 1) 0).bind fun begin =>
  (clipEndLoop string (string.length + 2) oldLen).bind fun endp =>
  (nullTerminatedEmptyStringOfLength (endp - begin)).bind fun temp =>
  clipCopyLoop string (endp - begin).toNat begin 0 temp

/-- The function `isFormatPlace`: `toCheck[0] == '{' && toCheck[1] == '}'`. -/
def isFormatPlace (toCheck : CString) : Bool :=
  charAt toCheck 0 == 123 && charAt toCheck 1 == 125

/-- Loop of `findInterpolationPlaces`, with the pointer `findIn` given as the remaining
characters and as its offset `pos` in the template; `found` holds `startPointers[0 .. index)`.
The first argument bounds the number of iterations. -/
def findInterpolationPlacesLoop (numSubsToLookFor : Nat) :
    Nat → CString → Int → List Int → List Int
  | 0, _, _, found => found
  | fuel + 1, findIn, pos, found =>
    if found.length < numSubsToLookFor ∧ charAt findIn 0 ≠ 0 then
      if isFormatPlace findIn then
        findInterpolationPlacesLoop numSubsToLookFor fuel (findIn.drop 2) (pos + 2) (found ++ [pos])
      else
        findInterpolationPlacesLoop numSubsToLookFor fuel (findIn.drop 1) (pos + 1) found
    else found

/-- The function `findInterpolationPlaces<NumSubsToLookFor>`: the offsets of the markers
found, at most `NumSubsToLookFor`; the entries of the returned `std::array` behind them are
not initialised.  Every iteration consumes a character, so `length + 1` iterations suffice. -/
def findInterpolationPlaces (numSubsToLookFor : Nat) (findIn : CString) : List Int :=
  findInterpolationPlacesLoop numSubsToLookFor (findIn.length + 1) findIn 0 []

/-- The function `writeAndAdvanceSourceAndDestination`, for a source pointer at offset
`sourcePos` of `source`: the new buffer, destination offset and source offset. -/
def writeAndAdvanceSourceAndDestination (buffer : CharBuffer) (destination : Int)
    (source : CString) (sourcePos : Int) (numChars : Int) : Option (CharBuffer × Int × Int) :=
  if 0 ≤ sourcePos ∧ sourcePos ≤ (source.length : Int) + 1 then
    (memcpy buffer destination (source.drop sourcePos.toNat) numChars).map fun b =>
      (b, destination + numChars, sourcePos + numChars)
  else none

/-- Loop of `format`: `for (i = 0; i < numSubstitutions; ++i, toFormat += 2)`. -/
def formatLoop (toFormat : CString) :
    List CString → List Int → CharBuffer × Int × Int → Option (CharBuffer × Int × Int)
  | [], _, st => some st
  | _ :: _, [], _ => none
  | subStr :: substitutions, subIndex :: interpolationIndices, (buffer, destination, pos) =>
    (writeAndAdvanceSourceAndDestination buffer destination toFormat pos (subIndex - pos)).bind
      fun st1 =>
    (writeAndAdvanceSourceAndDestination st1.1 st1.2.1 subStr 0 (stringLength subStr)).bind
      fun st2 =>
    formatLoop toFormat substitutions interpolationIndices (st2.1, st2.2.1, st1.2.2 + 2)

/-- The function template `format (toFormat, inserts...)`.  The fold expression over the
lengths of the replacements compiles for at least one replacement; the sum over no
replacement is `0` here. -/
def format (toFormat : CString) (inserts : List CString) : Option CharBuffer :=
  let newStringLength : Int :=
    (inserts.map stringLength).sum + stringLength toFormat - (inserts.length : Int) * 2
  (nullTerminatedEmptyStringOfLength newStringLength).bind fun buffer =>
  let interpolationIndices := findInterpolationPlaces inserts.length toFormat
  (formatLoop toFormat inserts interpolationIndices (buffer, 0, 0)).bind fun st =>
  if 0 ≤ st.2.2 ∧ st.2.2 ≤ (toFormat.length : Int) then
    (writeAndAdvanceSourceAndDestination st.1 st.2.1 toFormat st.2.2
      (stringLength (toFormat.drop st.2.2.toNat))).map fun st1 => st1.1
  else none

end StringHelpers

/-! ## `hosa_String.h`

A `String` owns one buffer `text`; it is represented by the text read through that pointer. -/

namespace String

open StringHelpers

/-- Traits of `String` as element of `Array<String>`: it has user-provided copy operations
and destructor (not trivially copyable) and a move assignment operator. -/
def elemTraits : ElemTraits :=
  { triviallyCopyable := false, moveAssignable := true }

/-- The method `moveFromString` applied to a fresh buffer: the text now owned. -/
def moveFromString (string : Option CharBuffer) : Option CString :=
  string.bind readBuffer

/-- The method `copyFrom`, also the constructor `String (const char*)`. -/
def copyFrom (string : CString) : Option CString :=
  moveFromString (allocateAndCopy string)

/-- The method `length`. -/
def length (text : CString) : Int :=
  stringLength text

/-- The method `contains`. -/
def contains (text string : CString) : Bool :=
  stringContains text string

/-- The method `containsStartingAt`. -/
def containsStartingAt (text : CString) (index : Int) (string : CString) : Bool :=
  let len := stringLength string
  compareNumChars (text.drop index.toNat) string len = 0

/-- The method `append (const char*)`, also `append (const String&)`. -/
def append (text string : CString) : Option CString :=
  moveFromString (buildStringFromPointers text string)

/-- The method `clipOffWhiteSpace`. -/
def clipOffWhiteSpace (text : CString) : Option CString :=
  moveFromString (StringHelpers.clipOffWhiteSpace text)

/-- The method `replace (const char*, const char*)`. -/
def replace (text toReplace replaceWith : CString) : Option CString :=
  if contains text toReplace then
    moveFromString (StringHelpers.replace text toReplace replaceWith)
  else some text

/-- The method `substring`. -/
def substring (text : CString) (startIndex numChars : Int) (clip : Bool) : Option CString :=
  let numChars1 :=
    if startIndex + numChars ≥ length text then length text - startIndex else numChars
  if 0 ≤ startIndex ∧ startIndex ≤ (text.length : Int) + 1 then
    ((allocateAndCopyNumChars (text.drop startIndex.toNat) numChars1).bind readBuffer).bind
      fun src =>
    (copyFrom src).bind fun result =>
    if clip then clipOffWhiteSpace result else some result
  else none

/-- The single-argument `format (substitution)`: `replace ("{}", String (substitution))`. -/
def formatOne (text substitution : CString) : Option CString :=
  (copyFrom substitution).bind fun sub => replace text [123, 125] sub

/-- The variadic `format (firstSub, restSubs...)`: `format (firstSub); return format
(restSubs...);`. -/
def format (text : CString) (firstSub : CString) : List CString → Option CString
  | [] => formatOne text firstSub
  | nextSub :: restSubs => (formatOne text firstSub).bind fun t => format t nextSub restSubs

/-- Loop of `split`: `while (index + lenToFind <= len)`; no result when the given number of
iterations does not reach the end of the loop. -/
def splitLoop (text splitAt : CString) (clip : Bool) (len lenToFind : Int) :
    Nat → Int → Int → Array CString → Option (Outcome (Array CString) (Array CString × Int))
  | 0, _, _, _ => none
  | fuel + 1, index, lastIndex, result =>
    if index + lenToFind ≤ len then
      if containsStartingAt text index splitAt then
        match substring text lastIndex (index - lastIndex) clip with
        | none => some .undefined
        | some piece =>
          match Array.add elemTraits result piece with
          | .fatal s => some (.fatal s)
          | .undefined => some .undefined
          | .done result1 =>
            splitLoop text splitAt clip len lenToFind fuel (index + lenToFind)
              (index + lenToFind) result1
      else splitLoop text splitAt clip len lenToFind fuel (index + 1) lastIndex result
    else some (.done (result, lastIndex))

/-- The method `split`, run for at most `fuel` iterations of its loop. -/
def split (fuel : Nat) (text splitAt : CString) (clip : Bool) :
    Option (Outcome (Array CString) (Array CString)) :=
  if ¬ contains text splitAt then
    some (Array.ofInitializerList elemTraits [text])
  else
    let len := length text
    let lenToFind := length splitAt
    match splitLoop text splitAt clip len lenToFind fuel 0 0 Array.empty with
    | none => none
    | some (.fatal s) => some (.fatal s)
    | some .undefined => some .undefined
    | some (.done (result, lastIndex)) =>
      match substring text lastIndex len clip with
      | none => some .undefined
      | some piece => some (Array.add elemTraits result piece)

/-- Loop of `joinFromArray`: `result.append (array[i]); if (i < num - 1) result.append
(separator);`. -/
def joinFromArrayLoop (array : Array CString) (separator : CString) (num : Int) :
    Nat → Int → CString → Outcome (Array CString) CString
  | 0, _, result => .done result
  | k + 1, i, result =>
    (Array.get array i).bind fun piece =>
    match append result piece with
    | none => .undefined
    | some result1 =>
      if i < num - 1 then
        match append result1 separator with
        | none => .undefined
        | some result2 => joinFromArrayLoop array separator num k (i + 1) result2
      else joinFromArrayLoop array separator num k (i + 1) result1

/-- The static method `joinFromArray`. -/
def joinFromArray (array : Array CString) (separator : CString) :
    Outcome (Array CString) CString :=
  let num := array.getNumItems
  joinFromArrayLoop array separator num num.toNat 0 []

end String

/-! ## Comparison, reversal, removal and swapping -/

namespace StringHelpers

/-- Loop of `fullStringCompare`: `while (--num >= 0) if (auto diff = compare (*(s1++),
*(s2++))) return diff;` with `k` iterations left, then `return len1 == len2 ? 0 : (len1 >
len2 ? 1 : -1);`. -/
def fullStringCompareLoop (len1 len2 : Int) : Nat → CString → CString → Int
  | 0, _, _ => if len1 = len2 then 0 else if len1 > len2 then 1 else -1
  | k + 1, s1, s2 =>
    let diff := CharHelpers.compare (charAt s1 0) (charAt s2 0)
    if diff ≠ 0 then diff else fullStringCompareLoop len1 len2 k (s1.drop 1) (s2.drop 1)

/-- The function `fullStringCompare`. -/
def fullStringCompare (s1 s2 : CString) : Int :=
  let len1 := stringLength s1
  let len2 := stringLength s2
  let num := min len1 len2
  fullStringCompareLoop len1 len2 num.toNat s1 s2

/-- The function `remove (source, toRemove)`. -/
def remove (source toRemove : CString) : Option CharBuffer :=
  let srcLen := stringLength source
  let rmLen := stringLength toRemove
  (nullTerminatedEmptyStringOfLength (srcLen - rmLen)).bind fun temp =>
  let index := indexOfSubString source toRemove
  (memcpy temp 0 source index).bind fun temp1 =>
  memcpy temp1 index (source.drop (index + rmLen).toNat) (srcLen - index - rmLen)

/-- The function `swap (source, one, two)`; `std::swap` exchanges the indices and the
lengths when `indexOne > indexTwo`. -/
def swap (source one two : CString) : Option CharBuffer :=
  let len := stringLength source
  let indexOne0 := indexOfSubString source one
  let indexTwo0 := indexOfSubString source two
  let lenOne0 := stringLength one
  let lenTwo0 := stringLength two
  let indexOne := if indexOne0 > indexTwo0 then indexTwo0 else indexOne0
  let indexTwo := if indexOne0 > indexTwo0 then indexOne0 else indexTwo0
  let lenOne := if indexOne0 > indexTwo0 then lenTwo0 else lenOne0
  let lenTwo := if indexOne0 > indexTwo0 then lenOne0 else lenTwo0
  (nullTerminatedEmptyStringOfLength (stringLength source)).bind fun temp =>
  (memcpy temp 0 source indexOne).bind fun temp1 =>
  (memcpy temp1 indexOne (source.drop indexTwo.toNat) lenTwo).bind fun temp2 =>
  (memcpy temp2 (indexOne + lenTwo) (source.drop (indexOne + lenOne).toNat)
    (indexTwo - indexOne)).bind fun temp3 =>
  (memcpy temp3 (lenTwo + indexTwo - lenOne) (source.drop indexOne.toNat) lenOne).bind
    fun temp4 =>
  memcpy temp4 (indexTwo + lenTwo) (source.drop (indexTwo + lenTwo).toNat)
    (len - (indexTwo + lenTwo))

/-- Loop of `reverse`: `while (--remaining >= 0) temp [len - remaining] = toReverse
[remaining];` with `k` iterations left; `remaining` is the value before the decrement. -/
def reverseLoop (toReverse : CString) (len : Int) : Nat → Int → CharBuffer → Option CharBuffer
  | 0, _, temp => some temp
  | k + 1, remaining, temp =>
    match readAt toReverse (remaining - 1) with
    | none => none
    | some c =>
      if 0 ≤ len - (remaining - 1) ∧ len - (remaining - 1) < (temp.length : Int) then
        reverseLoop toReverse len k (remaining - 1)
          (temp.set (len - (remaining - 1)).toNat (some c))
      else none

/-- The function `reverse`: after `auto remaining = len--;` the loop runs with `len - 1`. -/
def reverse (toReverse : CString) : Option CharBuffer :=
  let len := stringLength toReverse
  (nullTerminatedEmptyStringOfLength len).bind fun temp =>
  reverseLoop toReverse (len - 1) len.toNat len temp

end StringHelpers

namespace String

open StringHelpers

/-- The method `compare (const char*)`, also `compare (const String&)`. -/
def compare (text string : CString) : Int :=
  fullStringCompare text string

/-- The method `equals`. -/
def equals (text string : CString) : Bool :=
  compare text string == 0

/-- The operator `==`: `compare (other) == 0`. -/
def eq (text other : CString) : Bool :=
  compare text other == 0

/-- The operator `!=`: `compare (other) != 0`. -/
def ne (text other : CString) : Bool :=
  compare text other != 0

/-- The operator `>`: `compare (other) > 0`. -/
def gt (text other : CString) : Bool :=
  decide (compare text other > 0)

/-- The operator `>=`: `compare (other) >= 0`. -/
def ge (text other : CString) : Bool :=
  decide (compare text other ≥ 0)

/-- The operator `<`: `compare (other) < 0`. -/
def lt (text other : CString) : Bool :=
  decide (compare text other < 0)

/-- The operator `<=`: `compare (other) <= 0`. -/
def le (text other : CString) : Bool :=
  decide (compare text other ≤ 0)

/-- The method `swap (const char*, const char*)`, also `swap (const String&, const
String&)`. -/
def swap (text one two : CString) : Option CString :=
  if (contains text one && contains text two) && fullStringCompare one two != 0 then
    moveFromString (StringHelpers.swap text one two)
  else some text

/-- The method `reverse`. -/
def reverse (text : CString) : Option CString :=
  moveFromString (StringHelpers.reverse text)

/-- The method `reversed`: `return String (*this).reverse();`, the reversed copy copied
into the returned value. -/
def reversed (text : CString) : Option CString :=
  ((copyFrom text).bind reverse).bind copyFrom

/-- The method `remove (const char*)`, also `remove (const String&)`. -/
def remove (text string : CString) : Option CString :=
  if contains text string then moveFromString (StringHelpers.remove text string)
  else some text

/-- The method `without`: `String (remove (text, toRemove.text))`, or a copy of this
`String`. -/
def without (text toRemove : CString) : Option CString :=
  if contains text toRemove then
    ((StringHelpers.remove text toRemove).bind readBuffer).bind copyFrom
  else copyFrom text

/-- The operator `[]`: `index < 0 ? text[length() - index - 1] : text[index]`. -/
def get (text : CString) (index : Int) : Option CChar :=
  if index < 0 then readAt text (length text - index - 1) else readAt text index

end String

/-! ## Case conversion, comparison without case, search from an index -/

namespace CharHelpers

/-- The function `CharHelpers::isAlpha`: `(c > 0x40 && c < 0x5b) || (c > 0x60 && c < 0x7b)`. -/
def isAlpha (c : CChar) : Bool :=
  (decide (c > 0x40) && decide (c < 0x5b)) || (decide (c > 0x60) && decide (c < 0x7b))

/-- The function `CharHelpers::toggleCase`: `isAlpha (c) ? c ^ 0x20 : c`; for a letter the
result of `^` is a letter again and fits `char`. -/
def toggleCase (c : CChar) : CChar :=
  if isAlpha c then Int.xor c 0x20 else c

/-- The function `CharHelpers::isLowerCase`: `((c & 0x20) >> 0x5) == 0x1`, on `c` promoted to
`int`. -/
def isLowerCase (c : CChar) : Bool :=
  (Int.land c 0x20) >>> 0x5 == 0x1

/-- The function `CharHelpers::isUpperCase`: `! isLowerCase (c)`. -/
def isUpperCase (c : CChar) : Bool :=
  !isLowerCase c

/-- The function `CharHelpers::toUpperCase`: `isUpperCase (c) ? c : toggleCase (c)`. -/
def toUpperCase (c : CChar) : CChar :=
  if isUpperCase c then c else toggleCase c

/-- The function `CharHelpers::toLowerCase`: `isLowerCase (c) ? c : toggleCase (c)`. -/
def toLowerCase (c : CChar) : CChar :=
  if isLowerCase c then c else toggleCase c

/-- The function `CharHelpers::compareIgnoreCase`. -/
def compareIgnoreCase (lhs rhs : CChar) : Int :=
  compare (toLowerCase lhs) (toLowerCase rhs)

/-- The function `CharHelpers::equalsIgnoreCase`. -/
def equalsIgnoreCase (lhs rhs : CChar) : Bool :=
  toLowerCase lhs == toLowerCase rhs

end CharHelpers

namespace StringHelpers

/-- Loop of `fullStringCompareIgnoreCase`: the loop of `fullStringCompare` with
`CharHelpers::compareIgnoreCase`. -/
def fullStringCompareIgnoreCaseLoop (len1 len2 : Int) : Nat → CString → CString → Int
  | 0, _, _ => if len1 = len2 then 0 else if len1 > len2 then 1 else -1
  | k + 1, s1, s2 =>
    let diff := CharHelpers.compareIgnoreCase (charAt s1 0) (charAt s2 0)
    if diff ≠ 0 then diff
    else fullStringCompareIgnoreCaseLoop len1 len2 k (s1.drop 1) (s2.drop 1)

/-- The function `fullStringCompareIgnoreCase`. -/
def fullStringCompareIgnoreCase (s1 s2 : CString) : Int :=
  let len1 := stringLength s1
  let len2 := stringLength s2
  let num := min len1 len2
  fullStringCompareIgnoreCaseLoop len1 len2 num.toNat s1 s2

/-- Loop of `toUpperCase` and of `toLowerCase`, which differ in the conversion only:
`for (auto i = 0; i < stringLength (string); ++i) string[i] = convert (string[i]);`.  The
length is taken anew in every iteration; it never exceeds the number of characters listed,
so `k` iterations, `k` the number of characters from `i` on, reach the end of the loop. -/
def convertInPlaceLoop (convert : CChar → CChar) : Nat → Int → CString → CString
  | 0, _, string => string
  | k + 1, i, string =>
    if i < stringLength string then
      convertInPlaceLoop convert k (i + 1) (string.set i.toNat (convert (charAt string i.toNat)))
    else string

/-- The function `toUpperCase (char*)`, which writes into the given buffer; the result is the
buffer afterwards. -/
def toUpperCase (string : CString) : CString :=
  convertInPlaceLoop CharHelpers.toUpperCase string.length 0 string

/-- The function `toLowerCase (char*)`, which writes into the given buffer; the result is the
buffer afterwards. -/
def toLowerCase (string : CString) : CString :=
  convertInPlaceLoop CharHelpers.toLowerCase string.length 0 string

/-- Loop of `lowerCased` and of `upperCased`, which differ in the conversion only:
`while (--len >= 0) temp[len] = convert (string[len]);` with `k` iterations left; `len` is
the value before the decrement. -/
def convertCopyLoop (convert : CChar → CChar) (string : CString) :
    Nat → Int → CharBuffer → Option CharBuffer
  | 0, _, temp => some temp
  | k + 1, len, temp =>
    match readAt string (len - 1) with
    | none => none
    | some c =>
      if 0 ≤ len - 1 ∧ len - 1 < (temp.length : Int) then
        convertCopyLoop convert string k (len - 1) (temp.set (len - 1).toNat (some (convert c)))
      else none

/-- The function `lowerCased`. -/
def lowerCased (string : CString) : Option CharBuffer :=
  let len := stringLength string
  (nullTerminatedEmptyStringOfLength len).bind fun temp =>
  convertCopyLoop CharHelpers.toLowerCase string len.toNat len temp

/-- The function `upperCased`. -/
def upperCased (string : CString) : Option CharBuffer :=
  let len := stringLength string
  (nullTerminatedEmptyStringOfLength len).bind fun temp =>
  convertCopyLoop CharHelpers.toUpperCase string len.toNat len temp

end StringHelpers

namespace String

open StringHelpers

/-- The method `compareIgnoreCase`. -/
def compareIgnoreCase (text string : CString) : Int :=
  fullStringCompareIgnoreCase text string

/-- The method `equalsIgnoreCase`. -/
def equalsIgnoreCase (text string : CString) : Bool :=
  compareIgnoreCase text string == 0

/-- The method `indexOfSubString (subString, startFrom)`:
`StringHelpers::indexOfSubString (text + startFrom, subString)`; the pointer has to point
into the text or at its terminator. -/
def indexOfSubString (text subString : CString) (startFrom : Int) : Option Int :=
  if 0 ≤ startFrom ∧ startFrom ≤ (text.length : Int) then
    some (StringHelpers.indexOfSubString (text.drop startFrom.toNat) subString)
  else none

/-- The method `toUpperCase`: the text after the conversion in place. -/
def toUpperCase (text : CString) : CString :=
  StringHelpers.toUpperCase text

/-- The method `toLowerCase`: the text after the conversion in place. -/
def toLowerCase (text : CString) : CString :=
  StringHelpers.toLowerCase text

/-- The method `lowerCased`: `String (StringHelpers::lowerCased (text))`. -/
def lowerCased (text : CString) : Option CString :=
  ((StringHelpers.lowerCased text).bind readBuffer).bind copyFrom

/-- The method `upperCased`: `String (StringHelpers::upperCased (text))`. -/
def upperCased (text : CString) : Option CString :=
  ((StringHelpers.upperCased text).bind readBuffer).bind copyFrom

end String

/-- A text: the characters of a C string, none of them the terminator. -/
def IsText (s : CString) : Prop :=
  ∀ c ∈ s, c ≠ 0

instance (s : CString) : Decidable (IsText s) := by
  unfold IsText
  infer_instance

/-! ## Notion used to state the claim on comparison by bytes -/

/-- The byte that stores a character: its value read as `unsigned char`. -/
def byteValue (c : CChar) : Int :=
  c % 256

/-! ## Notion used to state the claims on searching, replacing and removing -/

/-- The text `a` occurs in `T` at index `i`: the `len (a)` characters of `T` from index `i`
on exist and are those of `a`. -/
def OccursAt (T a : CString) (i : Nat) : Prop :=
  i + a.length ≤ T.length ∧ (T.drop i).take a.length = a

instance (T a : CString) (i : Nat) : Decidable (OccursAt T a i) := by
  unfold OccursAt
  infer_instance

/-- The number of occurrences of the non-empty text `D` that the scan from left to right
finds in a text when it goes on behind each occurrence found, so that occurrences counted do
not overlap; `skip` is the number of characters still to pass behind the last occurrence. -/
def greedyCount (D : CString) : Nat → CString → Nat
  | _, [] => 0
  | skip + 1, _ :: rest => greedyCount D skip rest
  | 0, c :: rest =>
    if D <+: c :: rest then greedyCount D (D.length - 1) rest + 1 else greedyCount D 0 rest

/-! ## Notions used to state the interpolation claims

`countFormatPlaces` and `substitute` say what a template with at least `n` markers and its
interpolation are.  In the proofs such a template is written as `n` pieces, each free of
markers and followed by a marker, and a tail that is copied as it is. -/

/-- The number of markers `{}` of a template, located left to right without overlap. -/
def countFormatPlaces : CString → Nat
  | [] => 0
  | [_] => 0
  | c :: d :: rest =>
    if c = 123 ∧ d = 125 then countFormatPlaces rest + 1 else countFormatPlaces (d :: rest)

/-- The template with its first markers, located left to right without overlap, replaced by
the replacements in their order, one marker for each, and every other character (markers
left when the replacements are used up included) kept. -/
def substitute : CString → List CString → CString
  | [], _ => []
  | [c], _ => [c]
  | c :: d :: rest, [] => c :: d :: rest
  | c :: d :: rest, r :: rs =>
    if c = 123 ∧ d = 125 then r ++ substitute rest rs
    else c :: substitute (d :: rest) (r :: rs)

/-- No position of `p` starts a marker: `isFormatPlace` fails on every suffix of `p`. -/
def hasNoFormatPlace : CString → Bool
  | [] => true
  | c :: rest => !StringHelpers.isFormatPlace (c :: rest) && hasNoFormatPlace rest

/-- The template made of the pieces, a marker `{}` after each, and the tail; the second
component of a pair is the replacement meant for the marker after the piece. -/
def markedTemplate : List (CString × CString) → CString → CString
  | [], tail => tail
  | (piece, _) :: rest, tail => piece ++ 123 :: 125 :: markedTemplate rest tail

/-- The template with the marker after each piece replaced by the replacement paired with
the piece, and the tail unchanged. -/
def substituted : List (CString × CString) → CString → CString
  | [], tail => tail
  | (piece, replacement) :: rest, tail => piece ++ (replacement ++ substituted rest tail)

/-- The offsets of the markers of `markedTemplate`, the template starting at offset `pos`. -/
def markerOffsets : Int → List (CString × CString) → List Int
  | _, [] => []
  | pos, (piece, _) :: rest =>
    (pos + (piece.length : Int)) :: markerOffsets (pos + (piece.length : Int) + 2) rest

/-! ## Notions used to state the claims on `joinFromArray` and `split` -/

/-- The pieces with the separator between consecutive pieces and none after the last. -/
def joined : List CString → CString → CString
  | [], _ => []
  | [piece], _ => piece
  | piece :: next :: rest, separator => piece ++ (separator ++ joined (next :: rest) separator)

/-- The characters of a literal as `char` values. -/
def cstr (s : String) : CString :=
  s.toList.map fun c => (c.toNat : Int)

/-! ## Sequences of texts used as examples -/

namespace Array

/-- The texts `a`, `b`, ..., `h`. -/
def aToH : List CString :=
  [cstr "a", cstr "b", cstr "c", cstr "d", cstr "e", cstr "f", cstr "g", cstr "h"]

/-- The `Array<String>` of the texts `a` to `h`: count 8 in a block of 8 slots, as eight calls
of `add` leave the empty array. -/
def eightTexts : Array CString :=
  { numElements := 8, allocatedSpace := 8, elements := ⟨some (aToH.map some)⟩ }

/-- The `Array<String>` of the one text `x`: count 1 in a block of 8 slots, as one call of
`add` leaves the empty array. -/
def oneText : Array CString :=
  { numElements := 1, allocatedSpace := 8,
    elements := ⟨some (some (cstr "x") :: List.replicate 7 none)⟩ }

/-- The `Array<String>` of the texts `a` to `i`: count 9 in a block of 16 slots, as the
variadic `add` with the nine texts leaves the empty array. -/
def nineTexts : Array CString :=
  { numElements := 9, allocatedSpace := 16,
    elements := ⟨some ((aToH ++ [cstr "i"]).map some ++ List.replicate 7 none)⟩ }

end Array

end hosa

/-! # Verification -/

namespace hosa

/-! ## Slots of a block -/

namespace DynamicMemoryBlock

variable {α : Type}

theorem data_of_slots {m : DynamicMemoryBlock α} {l : List (Option α)}
    (h : m.slots = l) (hne : l ≠ []) : m.data = some l := by
  cases m with
  | mk d =>
    cases d with
    | none => simp [slots] at h; exact absurd h hne
    | some s => simp [slots] at h; simp [h]

theorem eq_mk_of_data {m : DynamicMemoryBlock α} {l : List (Option α)}
    (h : m.data = some l) : m = ⟨some l⟩ := by
  cases m; simp_all

@[simp] theorem slots_mk_some (l : List (Option α)) :
    (⟨some l⟩ : DynamicMemoryBlock α).slots = l := rfl

theorem read_at (A R : List (Option α)) (x : Option α) {i : Int} (hi : i = (A.length : Int)) :
    (⟨some (A ++ x :: R)⟩ : DynamicMemoryBlock α).read i = x := by
  subst hi
  have hb : 0 ≤ (A.length : Int) ∧ (A.length : Int) < ((A ++ x :: R).length : Int) := by
    constructor
    · omega
    · simp
  simp only [read, if_pos hb, Int.toNat_natCast]
  rw [List.getD_append_right _ _ _ _ (le_refl _)]
  simp

theorem write_at (A R : List (Option α)) (x y : Option α) {i : Int}
    (hi : i = (A.length : Int)) :
    (⟨some (A ++ x :: R)⟩ : DynamicMemoryBlock α).write i y
      = some ⟨some (A ++ y :: R)⟩ := by
  subst hi
  simp [write, List.set_append_right]

end DynamicMemoryBlock

namespace Array

variable {α : Type}

open DynamicMemoryBlock

/-! ## Removal: the element-wise loops -/

theorem moveAssignElement_at (tr : ElemTraits) (A X R : List (Option α)) (x : Option α) (v : α)
    {d s : Int} (hd : d = (A.length : Int)) (hs : s = (A.length : Int) + 1 + (X.length : Int)) :
    moveAssignElement tr ⟨some (A ++ x :: (X ++ some v :: R))⟩ d s
      = some ⟨some (A ++ some v :: (X ++ none :: R))⟩ := by
  have e1 : ∀ (y z : Option α), A ++ y :: (X ++ z :: R) = (A ++ y :: X) ++ z :: R := by
    intro y z; simp
  have hs' : s = ((A ++ x :: X).length : Int) := by simp [hs]; omega
  have hs'' : ∀ y : Option α, s = ((A ++ y :: X).length : Int) := by
    intro y; simp [hs]; omega
  have r1 : ∀ y : Option α,
      (⟨some (A ++ y :: (X ++ some v :: R))⟩ : DynamicMemoryBlock α).read s = some v := by
    intro y; rw [e1]; exact read_at _ _ _ (hs'' y)
  have w1 : ∀ y z : Option α,
      (⟨some (A ++ y :: (X ++ some v :: R))⟩ : DynamicMemoryBlock α).write d z
        = some ⟨some (A ++ z :: (X ++ some v :: R))⟩ := by
    intro y z; exact write_at _ _ _ _ hd
  have w2 : ∀ y : Option α,
      (⟨some (A ++ y :: (X ++ some v :: R))⟩ : DynamicMemoryBlock α).write s none
        = some ⟨some (A ++ y :: (X ++ none :: R))⟩ := by
    intro y; rw [e1, write_at _ _ _ _ (hs'' y), ← e1]
  unfold moveAssignElement
  by_cases hma : tr.moveAssignable = true
  · simp only [hma, if_true, r1, w1, w2]
  · simp only [hma, Bool.false_eq_true, if_false, r1, w1, w2]

theorem moveAssignLoop_spec (tr : ElemTraits) (L : List α) :
    ∀ (A X R : List (Option α)) (d s : Int), X ≠ [] → d = (A.length : Int) →
      s = (A.length : Int) + (X.length : Int) →
      ∃ X1 : List (Option α), X1.length = X.length ∧
        moveAssignLoop tr ⟨some (A ++ (X ++ (L.map some ++ R)))⟩ L.length d s
          = some (⟨some (A ++ (L.map some ++ (X1 ++ R)))⟩, d + (L.length : Int)) := by
  induction L with
  | nil =>
    intro A X R d s _ _ _
    exact ⟨X, rfl, by simp [moveAssignLoop]⟩
  | cons v L ih =>
    intro A X R d s hX hd hs
    cases X with
    | nil => exact absurd rfl hX
    | cons x X0 =>
      have hstep := moveAssignElement_at tr A X0 (L.map some ++ R) x v hd
        (by simp at hs; omega : s = (A.length : Int) + 1 + (X0.length : Int))
      obtain ⟨X1, hlen, hloop⟩ := ih (A ++ [some v]) (X0 ++ [none]) R (d + 1) (s + 1)
        (by simp) (by simp [hd]) (by simp [hs]; omega)
      refine ⟨X1, by simpa using hlen, ?_⟩
      simp only [List.length_cons, moveAssignLoop, List.map_cons, List.cons_append,
        List.append_assoc]
      simp only [List.append_assoc, List.cons_append, List.nil_append] at hstep hloop
      rw [hstep]
      simp only [hloop]
      simp
      omega

theorem destroyLoop_spec (X : List (Option α)) :
    ∀ (A R : List (Option α)) (d : Int), d = (A.length : Int) →
      destroyLoop ⟨some (A ++ (X ++ R))⟩ X.length d
        = some ⟨some (A ++ (List.replicate X.length none ++ R))⟩ := by
  induction X with
  | nil => intro A R d _; simp [destroyLoop]
  | cons x X ih =>
    intro A R d hd
    have h := ih (A ++ [none]) R (d + 1) (by simp [hd])
    simp only [List.length_cons, destroyLoop, List.cons_append]
    rw [write_at _ _ _ _ hd]
    simp only [List.append_assoc, List.cons_append, List.nil_append] at h
    simp only [h, List.replicate_succ, List.cons_append]

theorem isPositiveAndBelow_iff (n limit : Int) :
    isPositiveAndBelow n limit = true ↔ 0 ≤ n ∧ n < limit := by
  simp [isPositiveAndBelow]

theorem remove_parts (tr : ElemTraits) (a : Array α) (S1 S2 S3 : List α)
    (hS : a.Holds (S1 ++ (S2 ++ S3))) (h2 : S2 ≠ []) :
    ∃ a1 : Array α, remove tr a (S1.length : Int) (S2.length : Int) = .done a1 ∧
      a1.Holds (S1 ++ S3) ∧ a1.allocatedSpace = a.allocatedSpace := by
  obtain ⟨hn, rest, hslots, hcap⟩ := hS
  have hlen2 : 0 < S2.length := List.length_pos.mpr h2
  have hdata : a.elements.data
      = some (S1.map some ++ (S2.map some ++ (S3.map some ++ rest))) := by
    apply data_of_slots
    · simpa using hslots
    · cases S2 with
      | nil => exact absurd rfl h2
      | cons x X => simp
  have hmk := eq_mk_of_data hdata
  have hassert : isPositiveAndBelow ((S1.length : Int) + (S2.length : Int) - 1) a.numElements
      = true := by
    rw [isPositiveAndBelow_iff, hn]
    simp only [List.length_append, Nat.cast_add]
    omega
  have hshift : a.numElements - ((S1.length : Int) + (S2.length : Int)) = (S3.length : Int) := by
    rw [hn]; simp only [List.length_append, Nat.cast_add]; omega
  unfold remove
  simp only [hassert, not_true_eq_false, if_false]
  unfold removeElementsInternal
  simp only [hshift, Int.toNat_natCast]
  by_cases htc : tr.triviallyCopyable = true
  · simp only [htc, if_true]
    by_cases h3 : S3 = []
    · subst h3
      simp only [memmove, List.length_nil, Nat.cast_zero, if_true]
      refine ⟨_, rfl, ⟨?_, S2.map some ++ rest, ?_, ?_⟩, rfl⟩
      · simp [hn]
      · simpa using hslots
      · simp [hcap]; omega
    · have hlen3 : 0 < S3.length := List.length_pos.mpr h3
      have hne : ¬ ((S3.length : Int) = 0) := by omega
      have hbounds : 0 < (S3.length : Int) ∧ 0 ≤ (S1.length : Int) + (S2.length : Int) ∧
          (S1.length : Int) + (S2.length : Int) + (S3.length : Int)
            ≤ ((S1.map some ++ (S2.map some ++ (S3.map some ++ rest))).length : Int) ∧
          0 ≤ (S1.length : Int) ∧
          (S1.length : Int) + (S3.length : Int)
            ≤ ((S1.map some ++ (S2.map some ++ (S3.map some ++ rest))).length : Int) := by
        simp only [List.length_append, List.length_map, Nat.cast_add]
        omega
      simp only [memmove, hne, if_false, hdata, hbounds, and_self, if_true]
      refine ⟨_, rfl, ⟨?_, List.drop S3.length (S2.map some ++ (S3.map some ++ rest)), ?_, ?_⟩, rfl⟩
      · simp [hn]; omega
      · have e1 : ((S1.length : Int) + (S2.length : Int)).toNat = S1.length + S2.length := by
          omega
        have e2 : ((S1.length : Int) + (S3.length : Int)).toNat = S1.length + S3.length := by
          omega
        have t1 : List.take S1.length (S1.map some ++ (S2.map some ++ (S3.map some ++ rest)))
            = S1.map some := by
          have := List.take_left (S1.map some) (S2.map some ++ (S3.map some ++ rest))
          rwa [List.length_map] at this
        have t2 : List.drop (S1.length + S2.length)
            (S1.map some ++ (S2.map some ++ (S3.map some ++ rest))) = S3.map some ++ rest := by
          have := List.drop_left (S1.map some ++ S2.map some) (S3.map some ++ rest)
          simpa using this
        have t3 : List.take S3.length (S3.map some ++ rest) = S3.map some := by
          have := List.take_left (S3.map some) rest
          rwa [List.length_map] at this
        have t4 : List.drop (S1.length + S3.length)
            (S1.map some ++ (S2.map some ++ (S3.map some ++ rest)))
            = List.drop S3.length (S2.map some ++ (S3.map some ++ rest)) := by
          have := @List.drop_append _ (S1.map some) (S2.map some ++ (S3.map some ++ rest))
            S3.length
          simpa using this
        simp only [slots_mk_some, Int.toNat_natCast, e1, e2, t1, t2, t3, t4, List.map_append,
          List.append_assoc]
      · simp only [hcap, List.length_append, List.length_drop, List.length_map, Nat.cast_add]
        omega
  · simp only [htc, Bool.false_eq_true, if_false]
    obtain ⟨X1, hX1, hloop⟩ := moveAssignLoop_spec tr S3 (S1.map some) (S2.map some) rest
      (S1.length : Int) ((S1.length : Int) + (S2.length : Int))
      (by simpa using h2) (by simp) (by simp)
    have hdestroy := destroyLoop_spec X1 (S1.map some ++ S3.map some) rest
      ((S1.length : Int) + (S3.length : Int)) (by simp)
    rw [hmk, hloop]
    simp only [List.length_map] at hX1
    simp only [hX1, List.append_assoc] at hdestroy
    simp only [hdestroy]
    refine ⟨_, rfl, ⟨?_, List.replicate S2.length none ++ rest, ?_, ?_⟩, rfl⟩
    · simp [hn]; omega
    · simp
    · simp [hcap]; omega

theorem split_three (S : List α) (i n : Nat) (h : i + n ≤ S.length) :
    S = S.take i ++ ((S.drop i).take n ++ S.drop (i + n)) ∧
      (S.take i).length = i ∧ ((S.drop i).take n).length = n := by
  refine ⟨?_, ?_, ?_⟩
  · have h1 := List.take_append_drop n (S.drop i)
    rw [List.drop_drop] at h1
    rw [h1, List.take_append_drop]
  · simp; omega
  · simp; omega

/-- C1. For a sequence holding `S`, an index `0 ≤ index` and a number `1 ≤ num` of elements
with `index + num ≤ count`, `remove (index, num)` completes, under the bulk-move strategy as
under the element-wise one (with either `moveAssignElement`); the count becomes
`count - num`, the elements are those of `S` before `index` followed by those from
`index + num` on in their order (so the element formerly at `index + num + k` is now at
`index + k`), and the capacity is unchanged. -/
theorem remove_keeps_order (tr : ElemTraits) (a : Array α) (S : List α) (index num : Int)
    (hS : a.Holds S) (hindex : 0 ≤ index) (hnum : 1 ≤ num)
    (hle : index + num ≤ (S.length : Int)) :
    ∃ a1 : Array α, remove tr a index num = .done a1 ∧
      a1.numElements = (S.length : Int) - num ∧
      a1.Holds (S.take index.toNat ++ S.drop (index + num).toNat) ∧
      (∀ k : Nat, (S.take index.toNat ++ S.drop (index + num).toNat)[index.toNat + k]?
        = S[(index + num).toNat + k]?) ∧
      a1.allocatedSpace = a.allocatedSpace := by
  lift index to ℕ using hindex with i
  lift num to ℕ using (by omega : 0 ≤ num) with n
  have hin : i + n ≤ S.length := by omega
  obtain ⟨hsplit, hl1, hl2⟩ := split_three S i n hin
  have hne : (S.drop i).take n ≠ [] := by
    intro h0
    rw [h0] at hl2
    simp at hl2
    omega
  rw [hsplit] at hS
  obtain ⟨a1, hrun, hholds, hcap⟩ := remove_parts tr a _ _ _ hS hne
  rw [hl1, hl2] at hrun
  have hto : ((i : Int) + (n : Int)).toNat = i + n := by omega
  refine ⟨a1, hrun, ?_, ?_, ?_, hcap⟩
  · rw [hholds.1]
    simp only [List.length_append, List.length_take, List.length_drop, Nat.cast_add]
    omega
  · simpa [hto] using hholds
  · intro k
    simp only [Int.toNat_natCast, hto]
    rw [List.getElem?_append_right (by simp)]
    simp only [List.length_take, List.getElem?_drop]
    congr 1
    omega

/-- C1, the example of the specification: `[a, b, c]` after `remove (1)` is `[a, c]` with
count 2 (element-wise strategy). -/
theorem remove_keeps_order_witness :
    ∃ a1 : Array Char, remove ⟨false, true⟩ abc 1 1 = .done a1 ∧
      a1.numElements = 2 ∧ a1.Holds ['a', 'c'] ∧ a1.allocatedSpace = 8 := by
  obtain ⟨a1, h1, h2, h3, _, h5⟩ := remove_keeps_order ⟨false, true⟩ abc ['a', 'b', 'c'] 1 1
    ⟨rfl, [none, none, none, none, none], rfl, rfl⟩ (by decide) (by decide) (by decide)
  exact ⟨a1, h1, by simpa using h2, by simpa using h3, by simpa [abc] using h5⟩

end Array

end hosa

namespace hosa

namespace Array

variable {α : Type}

open DynamicMemoryBlock

/-! ## The growth policy -/

theorem land_mask_eq (u : Nat) (hu : u < 4294967296) : u &&& 4294967288 = u / 8 * 8 := by
  apply Nat.eq_of_testBit_eq
  intro i
  have hmask : (4294967288 : Nat) = (2 ^ 29 - 1) <<< 3 := by decide
  have hdiv : u / 8 * 8 = (u >>> 3) <<< 3 := by
    rw [Nat.shiftLeft_eq, Nat.shiftRight_eq_div_pow]
  rw [Nat.testBit_land, hmask, hdiv, Nat.testBit_shiftLeft, Nat.testBit_shiftLeft,
    Nat.testBit_shiftRight, Nat.testBit_two_pow_sub_one]
  by_cases h3 : i ≥ 3
  · have e : 3 + (i - 3) = i := by omega
    simp only [h3, decide_True, Bool.true_and, e]
    by_cases h32 : i < 32
    · have : i - 3 < 29 := by omega
      simp [this]
    · have hlt : u < 2 ^ i := by
        calc u < 2 ^ 32 := by simpa using hu
          _ ≤ 2 ^ i := Nat.pow_le_pow_right (by decide) (by omega)
      simp [Nat.testBit_lt_two_pow hlt]
  · simp [h3]

theorem growthSize_eq (minNumElements : Int) (h0 : 0 ≤ minNumElements)
    (hfit : minNumElements + minNumElements / 2 + 8 < 2147483648) :
    growthSize minNumElements = (minNumElements + minNumElements / 2 + 8) / 8 * 8 := by
  have htdiv : minNumElements.tdiv 2 = minNumElements / 2 := by
    rw [Int.tdiv_eq_ediv] <;> omega
  have hv0 : 0 ≤ minNumElements + minNumElements / 2 + 8 := by omega
  obtain ⟨v, hv⟩ := Int.eq_ofNat_of_zero_le hv0
  have hvlt : v < 2147483648 := by omega
  unfold growthSize
  simp only [htdiv, hv]
  have hmod : ((v : Int) % 4294967296).toNat = v := by omega
  simp only [hmod]
  rw [land_mask_eq v (by omega)]
  have hle : v / 8 * 8 < 2147483648 := by omega
  simp only [hle, if_true]
  push_cast
  rfl

theorem growthSize_gt (minNumElements : Int) (h0 : 0 ≤ minNumElements)
    (hfit : minNumElements + minNumElements / 2 + 8 < 2147483648) :
    minNumElements < growthSize minNumElements := by
  rw [growthSize_eq _ h0 hfit]
  omega

/-! ## Growing the block -/

theorem relocateLoop_spec (L : List α) :
    ∀ (A B X R N : List (Option α)) (i : Int), X.length = L.length → i = (A.length : Int) →
      i = (B.length : Int) →
      relocateLoop ⟨some (A ++ (L.map some ++ R))⟩ ⟨some (B ++ (X ++ N))⟩ L.length i
        = some (⟨some (A ++ (List.replicate L.length none ++ R))⟩,
            ⟨some (B ++ (L.map some ++ N))⟩) := by
  induction L with
  | nil =>
    intro A B X R N i hX _ _
    have : X = [] := List.length_eq_zero.mp (by simpa using hX)
    simp [relocateLoop, this]
  | cons v L ih =>
    intro A B X R N i hX hA hB
    cases X with
    | nil => simp at hX
    | cons x X0 =>
      have h := ih (A ++ [none]) (B ++ [some v]) X0 R N (i + 1) (by simpa using hX)
        (by simp [hA]) (by simp [hB])
      simp only [List.append_assoc, List.cons_append, List.nil_append] at h
      have r := read_at A (L.map some ++ R) (some v) hA
      have w1 := write_at B (X0 ++ N) x (some v) hB
      have w2 := write_at A (L.map some ++ R) (some v) none hA
      simp only [List.length_cons, relocateLoop, List.map_cons, List.cons_append, r, w1, w2, h,
        List.replicate_succ]

theorem holds_data_isSome {a : Array α} {S : List α} (hS : a.Holds S)
    (hpos : 0 < a.allocatedSpace) : a.elements.data.isSome = true := by
  obtain ⟨_, rest, hslots, hcap⟩ := hS
  have hlen : (a.elements.slots.length : Int) = a.allocatedSpace := by
    rw [hslots, hcap]
    simp
  cases hd : a.elements.data with
  | none =>
    simp only [slots, hd, Option.getD_none, List.length_nil, Nat.cast_zero] at hlen
    omega
  | some l => rfl

theorem free_of_releasable (tr : ElemTraits) (m : DynamicMemoryBlock α)
    (hrel : tr.triviallyCopyable = true ∨ m.data = none) : m.free tr = some ⟨none⟩ := by
  unfold free
  rcases hrel with h | h
  · cases hd : m.data <;> simp [ElemTraits.triviallyDestructible, h]
  · simp [h]

/-- Raising the capacity of a well-formed sequence completes and keeps the elements when the
old block need not be released element-wise: the elements are trivially copyable (the block
grows by `realloc`) or there is no block yet. -/
theorem setAllocatedSize_grow (tr : ElemTraits) (a : Array α) (S : List α) (g : Int)
    (hS : a.Holds S) (hg : a.allocatedSpace < g)
    (hrel : tr.triviallyCopyable = true ∨ a.elements.data = none) :
    ∃ a1 : Array α, setAllocatedSize tr a g = .done a1 ∧ a1.Holds S ∧
      a1.allocatedSpace = g ∧ a1.elements.data.isSome = true := by
  obtain ⟨hn, rest, hslots, hcap⟩ := hS
  have hgn : a.numElements ≤ g := by omega
  have hg0 : 0 < g := by omega
  obtain ⟨G, rfl⟩ := Int.eq_ofNat_of_zero_le (le_of_lt hg0)
  unfold setAllocatedSize
  simp only [ge_iff_le, hgn, not_true_eq_false, if_false, ne_eq, ne_of_lt hg, not_false_eq_true,
    if_true, gt_iff_lt, hg0]
  unfold setAllocatedSizeInternal
  by_cases htc : tr.triviallyCopyable = true
  · simp only [htc, if_true]
    refine ⟨_, rfl, ⟨hn, rest ++ List.replicate (G - (S.length + rest.length)) none, ?_, ?_⟩,
      rfl, rfl⟩
    · simp only [reallocate, slots_mk_some, hslots, Int.toNat_natCast]
      rw [List.take_of_length_le (by simp; omega)]
      simp
    · simp only [List.length_append, List.length_replicate, Nat.cast_add]
      omega
  · simp only [htc, Bool.false_eq_true, if_false]
    have hnone : a.elements.data = none := by
      rcases hrel with h | h
      · exact absurd h htc
      · exact h
    have hS0 : S = [] := by
      have hempty : a.elements.slots = [] := by simp [slots, hnone]
      rw [hempty] at hslots
      have hlen := congrArg List.length hslots
      simp only [List.length_nil, List.length_append, List.length_map] at hlen
      exact List.length_eq_zero.mp (by omega)
    subst hS0
    have hn0 : a.numElements.toNat = 0 := by simp [hn]
    have hfree : a.elements.free tr = some ⟨none⟩ := free_of_releasable tr _ (Or.inr hnone)
    simp only [hn0, relocateLoop, hfree]
    refine ⟨_, rfl, ⟨hn, List.replicate G none, ?_, ?_⟩, rfl, rfl⟩
    · simp [allocate, slots]
    · simp

theorem ensureAllocatedSpace_holds (tr : ElemTraits) (a : Array α) (S : List α)
    (minNumElements : Int) (hS : a.Holds S)
    (hfit : a.allocatedSpace < minNumElements →
      minNumElements + minNumElements / 2 + 8 < 2147483648)
    (hrel : a.allocatedSpace < minNumElements →
      tr.triviallyCopyable = true ∨ a.elements.data = none) :
    ∃ a1 : Array α, ensureAllocatedSpace tr a minNumElements = .done a1 ∧ a1.Holds S ∧
      a1.allocatedSpace = (if minNumElements ≤ a.allocatedSpace then a.allocatedSpace
        else growthSize minNumElements) ∧
      minNumElements ≤ a1.allocatedSpace := by
  have hcap0 : 0 ≤ a.allocatedSpace := by
    obtain ⟨_, rest, _, hcap⟩ := hS
    omega
  unfold ensureAllocatedSpace
  by_cases hgrow : minNumElements > a.allocatedSpace
  · have h0 : 0 ≤ minNumElements := by omega
    have hgt := growthSize_gt minNumElements h0 (hfit hgrow)
    obtain ⟨a1, hrun, hholds, hcap1, hsome⟩ :=
      setAllocatedSize_grow tr a S (growthSize minNumElements) hS (by omega) (hrel hgrow)
    simp only [hgrow, if_true, hrun, Outcome.bind, hsome, or_true, not_true_eq_false, if_false]
    refine ⟨a1, rfl, hholds, ?_, by omega⟩
    simp only [hcap1, not_le.mpr hgrow, if_false]
  · simp only [hgrow, if_false, Outcome.bind]
    have hassert : a.allocatedSpace ≤ 0 ∨ a.elements.data.isSome = true := by
      by_cases hpos : 0 < a.allocatedSpace
      · exact Or.inr (holds_data_isSome hS hpos)
      · exact Or.inl (by omega)
    simp only [hassert, not_true_eq_false, if_false]
    refine ⟨a, rfl, hS, ?_, by omega⟩
    simp only [not_lt.mp hgrow, if_true]

end Array

end hosa

namespace hosa

namespace Array

variable {α : Type}

open DynamicMemoryBlock

/-! ## Appending -/

theorem holds_room {a : Array α} {S : List α} (hS : a.Holds S)
    (hroom : (S.length : Int) + 1 ≤ a.allocatedSpace) :
    ∃ (x : Option α) (rest : List (Option α)),
      a.elements = ⟨some (S.map some ++ x :: rest)⟩ ∧
      a.allocatedSpace = (S.length : Int) + 1 + (rest.length : Int) := by
  obtain ⟨_, rest, hslots, hcap⟩ := hS
  cases rest with
  | nil => simp at hcap; omega
  | cons x rest =>
    refine ⟨x, rest, ?_, ?_⟩
    · apply eq_mk_of_data
      exact data_of_slots hslots (by simp)
    · simp at hcap; omega

theorem addAssumingMemoryAllocated_holds (a : Array α) (S : List α) (v : α) (hS : a.Holds S)
    (hroom : (S.length : Int) + 1 ≤ a.allocatedSpace) :
    ∃ a1 : Array α, addAssumingMemoryAllocated a v = .done a1 ∧ a1.Holds (S ++ [v]) ∧
      a1.allocatedSpace = a.allocatedSpace := by
  obtain ⟨x, rest, hel, hcap⟩ := holds_room hS hroom
  have hn := hS.1
  unfold addAssumingMemoryAllocated
  rw [hel, write_at _ _ _ _ (by simp [hn])]
  refine ⟨_, rfl, ⟨?_, rest, ?_, ?_⟩, rfl⟩
  · simp [hn]
  · simp
  · simp [hcap]

/-- On a well-formed sequence `add` appends its value, provided a growth of the block is one
by `realloc` or from no block. -/
theorem add_holds (tr : ElemTraits) (a : Array α) (S : List α) (v : α) (hS : a.Holds S)
    (hfit : a.allocatedSpace < (S.length : Int) + 1 →
      ((S.length : Int) + 1) + ((S.length : Int) + 1) / 2 + 8 < 2147483648)
    (hrel : a.allocatedSpace < (S.length : Int) + 1 →
      tr.triviallyCopyable = true ∨ a.elements.data = none) :
    ∃ a1 : Array α, add tr a v = .done a1 ∧ a1.Holds (S ++ [v]) ∧
      a1.allocatedSpace = (if (S.length : Int) + 1 ≤ a.allocatedSpace then a.allocatedSpace
        else growthSize ((S.length : Int) + 1)) := by
  obtain ⟨a1, hrun, hholds, hcap, hge⟩ :=
    ensureAllocatedSpace_holds tr a S ((S.length : Int) + 1) hS hfit hrel
  obtain ⟨a2, hrun2, hholds2, hcap2⟩ := addAssumingMemoryAllocated_holds a1 S v hholds hge
  refine ⟨a2, ?_, hholds2, by rw [hcap2, hcap]⟩
  unfold add
  rw [hS.1, hrun]
  exact hrun2

/-! ## Searching -/

theorem indexOfLoop_found [BEq α] (a : Array α) (item : α) (L : List α) :
    ∀ (A R : List (Option α)) (i : Int), a.elements = ⟨some (A ++ (L.map some ++ R))⟩ →
      i = (A.length : Int) → (∃ e ∈ L, (item == e) = true) →
      ∃ k : Int, indexOfLoop a item L.length i = some k ∧ i ≤ k ∧ k < i + (L.length : Int) := by
  induction L with
  | nil => intro A R i _ _ h; simp at h
  | cons e L ih =>
    intro A R i hel hi hex
    have r : a.elements.read i = some e := by
      rw [hel]
      exact read_at A (L.map some ++ R) (some e) hi
    simp only [List.length_cons, indexOfLoop, r]
    by_cases he : (item == e) = true
    · simp only [he, if_true]
      exact ⟨i, rfl, le_refl _, by push_cast; omega⟩
    · simp only [he, if_false]
      have hex' : ∃ e' ∈ L, (item == e') = true := by
        obtain ⟨e', hmem, heq⟩ := hex
        rcases List.mem_cons.mp hmem with h1 | h1
        · subst h1; exact absurd heq he
        · exact ⟨e', h1, heq⟩
      obtain ⟨k, hk, hlo, hhi⟩ := ih (A ++ [some e]) R (i + 1) (by simp [hel]) (by simp [hi]) hex'
      exact ⟨k, hk, by omega, by push_cast; omega⟩

theorem indexOf_found [BEq α] (a : Array α) (S : List α) (item : α) (hS : a.Holds S)
    (hex : ∃ e ∈ S, (item == e) = true) :
    ∃ k : Int, indexOf a item = some k ∧ 0 ≤ k ∧ k < (S.length : Int) := by
  obtain ⟨hn, rest, hslots, _⟩ := hS
  have hel : a.elements = ⟨some ([] ++ (S.map some ++ rest))⟩ := by
    apply eq_mk_of_data
    apply data_of_slots (by simpa using hslots)
    obtain ⟨e, hmem, _⟩ := hex
    cases S with
    | nil => simp at hmem
    | cons x X => simp
  obtain ⟨k, hk, hlo, hhi⟩ := indexOfLoop_found a item S [] rest 0 hel (by simp) hex
  refine ⟨k, ?_, hlo, by omega⟩
  unfold indexOf
  rw [hn, Int.toNat_natCast]
  exact hk

/-! ## Inserting -/

theorem shiftBackLoop_spec (L : List α) :
    ∀ (A R : List (Option α)) (x : Option α) (newEnd endp : Int),
      endp = (A.length : Int) + (L.length : Int) → newEnd = endp + 1 →
      ∃ y : Option α, shiftBackLoop ⟨some (A ++ (L.map some ++ x :: R))⟩ L.length newEnd endp
        = some ⟨some (A ++ y :: (L.map some ++ R))⟩ := by
  induction L using List.reverseRecOn with
  | nil =>
    intro A R x newEnd endp _ _
    exact ⟨x, by simp [shiftBackLoop]⟩
  | append_singleton L v ih =>
    intro A R x newEnd endp hend hnew
    have e1 : A ++ ((L ++ [v]).map some ++ x :: R) = (A ++ L.map some) ++ some v :: (x :: R) := by
      simp
    have e2 : ∀ z : Option α, (A ++ L.map some) ++ z :: (x :: R)
        = (A ++ L.map some ++ [z]) ++ x :: R := by
      intro z; simp
    have e3 : ∀ z w : Option α, (A ++ L.map some ++ [z]) ++ w :: R
        = (A ++ L.map some) ++ z :: (w :: R) := by
      intro z w; simp
    have hi1 : endp - 1 = ((A ++ L.map some).length : Int) := by
      simp [hend]; omega
    have hi2 : ∀ z : Option α, newEnd - 1 = ((A ++ L.map some ++ [z]).length : Int) := by
      intro z; simp [hend, hnew]
    have hstep : moveConstructAndDestroy ⟨some (A ++ ((L ++ [v]).map some ++ x :: R))⟩
        (newEnd - 1) (endp - 1) = some ⟨some (A ++ (L.map some ++ none :: (some v :: R)))⟩ := by
      have r : (⟨some (A ++ ((L ++ [v]).map some ++ x :: R))⟩ : DynamicMemoryBlock α).read
          (endp - 1) = some v := by
        rw [e1]; exact read_at _ _ _ hi1
      have w1 : (⟨some (A ++ ((L ++ [v]).map some ++ x :: R))⟩ : DynamicMemoryBlock α).write
          (newEnd - 1) (some v) = some ⟨some ((A ++ L.map some) ++ some v :: (some v :: R))⟩ := by
        rw [e1, e2, write_at _ _ _ _ (hi2 _), e3]
      have w2 : (⟨some ((A ++ L.map some) ++ some v :: (some v :: R))⟩ :
          DynamicMemoryBlock α).write (endp - 1) none
          = some ⟨some (A ++ (L.map some ++ none :: (some v :: R)))⟩ := by
        rw [write_at _ _ _ _ hi1]
        simp
      simp only [moveConstructAndDestroy, r, w1, w2]
    obtain ⟨y, hy⟩ := ih A (some v :: R) none (newEnd - 1) (endp - 1)
      (by simp [hend] ; omega) (by omega)
    refine ⟨y, ?_⟩
    simp only [List.length_append, List.length_singleton, shiftBackLoop, hstep, hy]
    simp

/-- On a well-formed sequence `insert` at an index of the sequence puts its value in front of
the element at that index, under both gap-creation strategies, provided a growth of the block
is one by `realloc` or from no block. -/
theorem insert_parts (tr : ElemTraits) (a : Array α) (S1 S2 : List α) (v : α)
    (hS : a.Holds (S1 ++ S2)) (h2 : S2 ≠ [])
    (hfit : a.allocatedSpace < ((S1 ++ S2).length : Int) + 1 →
      (((S1 ++ S2).length : Int) + 1) + (((S1 ++ S2).length : Int) + 1) / 2 + 8
        < 2147483648)
    (hrel : a.allocatedSpace < ((S1 ++ S2).length : Int) + 1 →
      tr.triviallyCopyable = true ∨ a.elements.data = none) :
    ∃ a1 : Array α, insert tr a (S1.length : Int) v = .done a1 ∧
      a1.Holds (S1 ++ v :: S2) ∧
      a1.allocatedSpace = (if ((S1 ++ S2).length : Int) + 1 ≤ a.allocatedSpace
        then a.allocatedSpace else growthSize (((S1 ++ S2).length : Int) + 1)) := by
  obtain ⟨a1, hrun, hholds, hcap, hge⟩ :=
    ensureAllocatedSpace_holds tr a (S1 ++ S2) (((S1 ++ S2).length : Int) + 1) hS hfit hrel
  obtain ⟨x, rest, hel, hcap1⟩ := holds_room hholds hge
  have hn1 := hholds.1
  have hlen2 : 0 < S2.length := List.length_pos.mpr h2
  have hidx : isPositiveAndBelow (S1.length : Int) a1.numElements = true := by
    rw [isPositiveAndBelow_iff, hn1]
    simp only [List.length_append, Nat.cast_add]
    omega
  have hspace : ∃ y : Option α, createInsertSpaceInternal tr a1 (S1.length : Int) 1
      = some { a1 with elements := ⟨some (S1.map some ++ y :: (S2.map some ++ rest))⟩ } := by
    unfold createInsertSpaceInternal
    have hshift : a1.numElements - (S1.length : Int) = (S2.length : Int) := by
      rw [hn1]; simp only [List.length_append, Nat.cast_add]; omega
    simp only [hshift, Int.toNat_natCast]
    by_cases htc : tr.triviallyCopyable = true
    · simp only [htc, if_true]
      cases S2 with
      | nil => exact absurd rfl h2
      | cons s S2 =>
        have hne : ¬ (((s :: S2).length : Int) = 0) := by simp; omega
        have hb : 0 < ((s :: S2).length : Int) ∧ 0 ≤ (S1.length : Int) ∧
            (S1.length : Int) + ((s :: S2).length : Int)
              ≤ (((S1 ++ s :: S2).map some ++ x :: rest).length : Int) ∧
            0 ≤ (S1.length : Int) + 1 ∧
            (S1.length : Int) + 1 + ((s :: S2).length : Int)
              ≤ (((S1 ++ s :: S2).map some ++ x :: rest).length : Int) := by
          simp only [List.length_append, List.length_map, List.length_cons, Nat.cast_add,
            Nat.cast_one]
          omega
        simp only [memmove, hne, if_false, hel, hb, and_self, if_true]
        refine ⟨some s, ?_⟩
        congr 3
        have t1 : ((S1.length : Int) + 1).toNat = S1.length + 1 := by omega
        have t2 : ((S1.length : Int) + 1 + ((s :: S2).length : Int)).toNat
            = S1.length + (S2.length + 2) := by
          have e : (S1.length : Int) + 1 + ((s :: S2).length : Int)
              = ((S1.length + (S2.length + 2) : Nat) : Int) := by
            simp only [List.length_cons]
            push_cast
            omega
          rw [e, Int.toNat_natCast]
        have l1 : List.take (S1.length + 1) ((S1 ++ s :: S2).map some ++ x :: rest)
            = S1.map some ++ [some s] := by
          have := @List.take_append _ (S1.map some) (some s :: (S2.map some ++ x :: rest)) 1
          simpa using this
        have l2 : List.drop S1.length ((S1 ++ s :: S2).map some ++ x :: rest)
            = some s :: (S2.map some ++ x :: rest) := by
          simp
        have l3 : List.take (s :: S2).length (some s :: (S2.map some ++ x :: rest))
            = some s :: S2.map some := by
          simp
        have l4 : List.drop (S1.length + (S2.length + 2))
            ((S1 ++ s :: S2).map some ++ x :: rest) = rest := by
          have e : (S1 ++ s :: S2).map some ++ x :: rest
              = ((S1 ++ s :: S2).map some ++ [x]) ++ rest := by simp
          have hl : S1.length + (S2.length + 2)
              = ((S1 ++ s :: S2).map some ++ [x]).length := by
            simp only [List.length_append, List.length_map, List.length_cons, List.length_nil]
            omega
          rw [e, hl]
          exact List.drop_left _ _
        simp only [t1, t2, Int.toNat_natCast, l1, l2, l3, l4]
        simp
    · simp only [htc, Bool.false_eq_true, if_false]
      obtain ⟨y, hy⟩ := shiftBackLoop_spec S2 (S1.map some) rest x (a1.numElements + 1)
        a1.numElements (by rw [hn1]; simp) rfl
      refine ⟨y, ?_⟩
      rw [hel]
      simp only [List.map_append, List.append_assoc, hy]
  obtain ⟨y, hspace⟩ := hspace
  refine ⟨{ a1 with numElements := a1.numElements + 1,
                     elements := ⟨some (S1.map some ++ some v :: (S2.map some ++ rest))⟩ },
    ?_, ⟨?_, rest, ?_, ?_⟩, ?_⟩
  · unfold insert createInsertSpace
    have hmin : a.numElements + 1 = ((S1 ++ S2).length : Int) + 1 := by rw [hS.1]
    rw [hmin, hrun]
    simp only [hidx, not_true_eq_false, if_false, hspace]
    rw [write_at _ _ _ _ (by simp)]
  · simp [hn1]; omega
  · simp
  · simp [hcap1]; omega
  · simp [hcap]

/-- C2 fails on the code.  The `Array<String>` of the eight texts `a` to `h` is what eight
calls of `add` leave the empty array: count 8 in a block of 8 slots.  On it `insert (1, "i")`
has to grow the block; the element-wise `setAllocatedSizeInternal` moves the texts to a new
block and its temporary releases the old block, which `malloc` returned, with `delete[]`, so
the call has no result where the claim has the nine texts `a, i, b, ..., h`.  On eight
`char` in a block of eight slots the other overload grows the block with `realloc` and the
call completes as the claim says.  Besides, `insert` reads its `const ContainedType&`
argument after the tail has been shifted: `insert (0, elements[1])` on `[a, b, c]` leaves
`[a, a, b, c]` under both gap-creation strategies, where the claim has `[b, a, b, c]`. -/
theorem insert_releases_block_with_delete :
    ofInitializerList String.elemTraits aToH = .done eightTexts ∧
    insert String.elemTraits eightTexts 1 (cstr "i") = .undefined ∧
    insert ⟨true, true⟩ eightChars 1 'i' = .done
      ⟨9, 16, ⟨some ("aibcdefgh".toList.map some ++ List.replicate 7 none)⟩⟩ ∧
    insertElement ⟨true, true⟩ abc 0 1 = .done
      ⟨4, 8, ⟨some [some 'a', some 'a', some 'b', some 'c', none, none, none, none]⟩⟩ ∧
    insertElement ⟨false, true⟩ abc 0 1 = .done
      ⟨4, 8, ⟨some [some 'a', some 'a', some 'b', some 'c', none, none, none, none]⟩⟩ := by
  decide

/-- C3 fails on the code.  The ninth `add` to an `Array<String>` finds the block of eight
slots full and grows it; the element-wise `setAllocatedSizeInternal` then releases the old
block, which `malloc` returned, with `delete[]`: the call has no result, where the claim has
nine texts with `"i"` at index 8.  The same holds for the constructor from nine texts, which
adds them one by one.  The ninth `add` to eight `char`, where the other overload grows the
block with `realloc`, completes as the claim says. -/
theorem add_releases_block_with_delete :
    add String.elemTraits eightTexts (cstr "i") = .undefined ∧
    ofInitializerList String.elemTraits (aToH ++ [cstr "i"]) = .undefined ∧
    add ⟨true, true⟩ eightChars 'i' = .done
      ⟨9, 16, ⟨some ("abcdefghi".toList.map some ++ List.replicate 7 none)⟩⟩ ∧
    indexOf (⟨9, 16, ⟨some ("abcdefghi".toList.map some ++ List.replicate 7 none)⟩⟩ :
      Array Char) 'i' = some 8 := by
  decide

/-- C4 fails on the code.  The `Array<String>` of eight texts has count 8 within capacity 8,
and for `min = 9` the claim has the capacity `(9 + 9 / 2 + 8)` with its three low bits
cleared, 16, and the texts unchanged; `ensureAllocatedSpace (9)` has no result, because the
element-wise `setAllocatedSizeInternal` releases the old block, which `malloc` returned, with
`delete[]`.  With `min = 8` nothing grows and the call completes. -/
theorem ensureAllocatedSpace_releases_block_with_delete :
    eightTexts.CountInv ∧ growthSize 9 = 16 ∧
    ensureAllocatedSpace String.elemTraits eightTexts 9 = .undefined ∧
    ensureAllocatedSpace String.elemTraits eightTexts 8 = .done eightTexts := by
  decide

end Array

end hosa

namespace hosa

namespace Array

variable {α : Type}

open DynamicMemoryBlock

/-! ## The counters through each operation -/

theorem growthSize_gt_of_int (minNumElements : Int) (h0 : 0 ≤ minNumElements)
    (hmax : minNumElements ≤ 2147483647) (hg : 0 ≤ growthSize minNumElements) :
    minNumElements < growthSize minNumElements := by
  have htdiv : minNumElements.tdiv 2 = minNumElements / 2 := by
    rw [Int.tdiv_eq_ediv] <;> omega
  have hv0 : 0 ≤ minNumElements + minNumElements / 2 + 8 := by omega
  obtain ⟨v, hv⟩ := Int.eq_ofNat_of_zero_le hv0
  have hvlt : v < 4294967296 := by omega
  unfold growthSize at hg ⊢
  simp only [htdiv, hv] at hg ⊢
  have hmod : ((v : Int) % 4294967296).toNat = v := by omega
  simp only [hmod] at hg ⊢
  rw [land_mask_eq v hvlt] at hg ⊢
  by_cases hle : v / 8 * 8 < 2147483648
  · simp only [hle, if_true]
    omega
  · simp only [hle, if_false] at hg
    omega

theorem setAllocatedSizeInternal_counts (tr : ElemTraits) (a a1 : Array α) (k : Int)
    (h : setAllocatedSizeInternal tr a k = some a1) :
    a1.numElements = a.numElements ∧ a1.allocatedSpace = a.allocatedSpace := by
  unfold setAllocatedSizeInternal at h
  split at h
  · cases h; exact ⟨rfl, rfl⟩
  · split at h
    · cases h
    · split at h
      · cases h
      · cases h; exact ⟨rfl, rfl⟩

theorem setAllocatedSize_counts (tr : ElemTraits) (a a1 : Array α) (k : Int)
    (h : setAllocatedSize tr a k = .done a1) :
    a1.numElements = a.numElements ∧ a1.allocatedSpace = k ∧ a.numElements ≤ k := by
  unfold setAllocatedSize at h
  split at h
  · cases h
  · rename_i hk
    have hk' : a.numElements ≤ k := by simpa using hk
    simp only at h
    split at h
    · cases h
    · rename_i a0 heq
      cases h
      refine ⟨?_, rfl, hk'⟩
      simp only
      split at heq
      · split at heq
        · exact (setAllocatedSizeInternal_counts tr a a0 k heq).1
        · split at heq
          · cases heq
          · cases heq; rfl
      · cases heq; rfl

theorem ensureAllocatedSpace_counts (tr : ElemTraits) (a a1 : Array α) (m : Int)
    (h : ensureAllocatedSpace tr a m = .done a1) :
    a1.numElements = a.numElements ∧
      ((m ≤ a.allocatedSpace ∧ a1.allocatedSpace = a.allocatedSpace) ∨
       (a.allocatedSpace < m ∧ a1.allocatedSpace = growthSize m ∧
          a.numElements ≤ growthSize m)) := by
  unfold ensureAllocatedSpace at h
  by_cases hgrow : m > a.allocatedSpace
  · simp only [hgrow, if_true] at h
    cases hs : setAllocatedSize tr a (growthSize m) with
    | done a0 =>
      obtain ⟨h1, h2, h3⟩ := setAllocatedSize_counts tr a a0 _ hs
      simp only [hs, Outcome.bind] at h
      split at h
      · cases h
      · cases h
        exact ⟨h1, Or.inr ⟨hgrow, h2, h3⟩⟩
    | fatal s => simp [hs, Outcome.bind] at h
    | undefined => simp [hs, Outcome.bind] at h
  · simp only [hgrow, if_false, Outcome.bind] at h
    split at h
    · cases h
    · cases h
      exact ⟨rfl, Or.inl ⟨by omega, rfl⟩⟩

theorem ensureAllocatedSpace_countInv (tr : ElemTraits) (a a1 : Array α) (m : Int)
    (hinv : a.CountInv) (h : ensureAllocatedSpace tr a m = .done a1) :
    a1.CountInv ∧ a1.numElements = a.numElements ∧ (m ≤ 2147483647 → m ≤ a1.allocatedSpace) := by
  obtain ⟨hn, hc⟩ := ensureAllocatedSpace_counts tr a a1 m h
  obtain ⟨h0, hle⟩ := hinv
  rcases hc with ⟨h1, h2⟩ | ⟨h1, h2, h3⟩
  · exact ⟨⟨by omega, by omega⟩, hn, fun _ => by omega⟩
  · refine ⟨⟨by omega, by omega⟩, hn, fun hmax => ?_⟩
    have := growthSize_gt_of_int m (by omega) hmax (by omega)
    omega

theorem addAssumingMemoryAllocated_counts (a a1 : Array α) (v : α)
    (h : addAssumingMemoryAllocated a v = .done a1) :
    a1.numElements = a.numElements + 1 ∧ a1.allocatedSpace = a.allocatedSpace := by
  unfold addAssumingMemoryAllocated at h
  split at h
  · cases h
  · cases h; exact ⟨rfl, rfl⟩

theorem addAssumingMemoryAllocatedAll_counts (l : List α) :
    ∀ (a a1 : Array α), addAssumingMemoryAllocatedAll a l = .done a1 →
      a1.numElements = a.numElements + (l.length : Int) ∧
        a1.allocatedSpace = a.allocatedSpace := by
  induction l with
  | nil =>
    intro a a1 h
    simp only [addAssumingMemoryAllocatedAll] at h
    cases h
    simp
  | cons x l ih =>
    intro a a1 h
    simp only [addAssumingMemoryAllocatedAll] at h
    cases hs : addAssumingMemoryAllocated a x with
    | done a0 =>
      simp only [hs, Outcome.bind] at h
      obtain ⟨h1, h2⟩ := addAssumingMemoryAllocated_counts a a0 x hs
      obtain ⟨h3, h4⟩ := ih a0 a1 h
      refine ⟨?_, by omega⟩
      simp only [List.length_cons, Nat.cast_add, Nat.cast_one]
      omega
    | fatal s => simp [hs, Outcome.bind] at h
    | undefined => simp [hs, Outcome.bind] at h

theorem addFromBufferLoop_counts (buffer : List (Option α)) (k : Nat) :
    ∀ (i : Nat) (a a1 : Array α), addFromBufferLoop buffer k i a = .done a1 →
      a1.numElements = a.numElements + (k : Int) ∧ a1.allocatedSpace = a.allocatedSpace := by
  induction k with
  | zero =>
    intro i a a1 h
    simp only [addFromBufferLoop] at h
    cases h
    simp
  | succ k ih =>
    intro i a a1 h
    simp only [addFromBufferLoop] at h
    split at h
    · cases h
    · rename_i v _
      cases hs : addAssumingMemoryAllocated a v with
      | done a0 =>
        simp only [hs, Outcome.bind] at h
        obtain ⟨h1, h2⟩ := addAssumingMemoryAllocated_counts a a0 v hs
        obtain ⟨h3, h4⟩ := ih (i + 1) a0 a1 h
        refine ⟨?_, by omega⟩
        push_cast
        omega
      | fatal s => simp [hs, Outcome.bind] at h
      | undefined => simp [hs, Outcome.bind] at h

theorem createInsertSpaceInternal_counts (tr : ElemTraits) (a a1 : Array α) (i k : Int)
    (h : createInsertSpaceInternal tr a i k = some a1) :
    a1.numElements = a.numElements ∧ a1.allocatedSpace = a.allocatedSpace := by
  unfold createInsertSpaceInternal at h
  simp only at h
  split at h
  · split at h
    · cases h
    · cases h; exact ⟨rfl, rfl⟩
  · split at h
    · cases h
    · cases h; exact ⟨rfl, rfl⟩

theorem createInsertSpace_countInv (tr : ElemTraits) (a a1 : Array α) (i k p : Int)
    (hinv : a.CountInv) (h : createInsertSpace tr a i k = .done (a1, p)) :
    a1.CountInv ∧ a1.numElements = a.numElements ∧
      (a.numElements + k ≤ 2147483647 → a.numElements + k ≤ a1.allocatedSpace) := by
  unfold createInsertSpace at h
  cases hs : ensureAllocatedSpace tr a (a.numElements + k) with
  | done a0 =>
    obtain ⟨h1, h2, h3⟩ := ensureAllocatedSpace_countInv tr a a0 _ hinv hs
    simp only [hs] at h
    split at h
    · cases h
      exact ⟨h1, h2, h3⟩
    · split at h
      · cases h
      · rename_i a2 heq
        cases h
        obtain ⟨h4, h5⟩ := createInsertSpaceInternal_counts tr a0 a1 i k heq
        refine ⟨⟨by rw [h4]; exact h1.1, by rw [h4, h5]; exact h1.2⟩, by omega, ?_⟩
        intro hmax
        rw [h5]
        exact h3 hmax
  | fatal s => simp [hs] at h
  | undefined => simp [hs] at h

theorem removeElementsInternal_counts (tr : ElemTraits) (a a1 : Array α) (i k : Int)
    (h : removeElementsInternal tr a i k = some a1) :
    a1.numElements = a.numElements ∧ a1.allocatedSpace = a.allocatedSpace := by
  unfold removeElementsInternal at h
  simp only at h
  split at h
  · split at h
    · cases h
    · cases h; exact ⟨rfl, rfl⟩
  · split at h
    · cases h
    · split at h
      · cases h
      · cases h; exact ⟨rfl, rfl⟩

theorem remove_counts (tr : ElemTraits) (a a1 : Array α) (index num : Int)
    (h : remove tr a index num = .done a1) :
    a1.numElements = a.numElements - num ∧ a1.allocatedSpace = a.allocatedSpace ∧
      0 ≤ index + num - 1 ∧ index + num - 1 < a.numElements := by
  unfold remove at h
  split at h
  · cases h
  · rename_i hassert
    have hb : 0 ≤ index + num - 1 ∧ index + num - 1 < a.numElements := by
      rw [← isPositiveAndBelow_iff]
      simpa using hassert
    split at h
    · cases h
    · rename_i a0 heq
      cases h
      obtain ⟨h1, h2⟩ := removeElementsInternal_counts tr a a0 index num heq
      exact ⟨by simp [h1], h2, hb⟩

theorem indexOfLoop_range [BEq α] (a : Array α) (item : α) (k : Nat) :
    ∀ (i r : Int), indexOfLoop a item k i = some r → r = -1 ∨ (i ≤ r ∧ r < i + (k : Int)) := by
  induction k with
  | zero =>
    intro i r h
    simp only [indexOfLoop, Option.some.injEq] at h
    exact Or.inl h.symm
  | succ k ih =>
    intro i r h
    simp only [indexOfLoop] at h
    split at h
    · cases h
    · split at h
      · cases h
        exact Or.inr ⟨le_refl _, by push_cast; omega⟩
      · rcases ih (i + 1) r h with h1 | ⟨h1, h2⟩
        · exact Or.inl h1
        · exact Or.inr ⟨by omega, by push_cast; omega⟩

theorem clear_counts (a a1 : Array α) (h : clear a = some a1) :
    a1.numElements = 0 ∧ a1.allocatedSpace = a.allocatedSpace := by
  unfold clear at h
  split at h
  · cases h
  · cases h; exact ⟨rfl, rfl⟩

/-- C5 as stated fails: on `[a, b, c]` the call `insertFromBuffer (5, buffer, -4)` passes every
assertion, touches no storage and leaves the count at `-1`, so `0 ≤ count` is lost. -/
theorem countInv_lost_by_insertFromBuffer :
    abc.CountInv ∧
      insertFromBuffer ⟨true, true⟩ abc 5 [] (-4)
        = .done { abc with numElements := -1 } ∧
      ¬ ({ abc with numElements := -1 } : Array Char).CountInv := by
  refine ⟨by decide, by decide, ?_⟩
  intro h
  exact absurd h.1 (by decide)

/-- C5, amended.  `0 ≤ count ≤ capacity` holds for the default-constructed sequence and is
preserved by every completing call of `add` (one or several values), `addFromBuffer`,
`insert`, `insertFromBuffer` with `numElementsToAdd ≥ 0`, `remove (index, num)` with
`index ≥ 0` and `num ≥ 0`, `removeItem`, `clear`, `setAllocatedSize`, `ensureAllocatedSpace`,
copy assignment and move assignment (the other operand satisfying the invariant too), as long
as the new count is representable as `int`. -/
theorem countInv_preserved [BEq α] (tr : ElemTraits) (a a1 : Array α) (hinv : a.CountInv) :
    (empty : Array α).CountInv ∧
    (∀ v, a.numElements + 1 ≤ 2147483647 → add tr a v = .done a1 → a1.CountInv) ∧
    (∀ first others, a.numElements + 1 + (List.length others : Int) ≤ 2147483647 →
      addAll tr a first others = .done a1 → a1.CountInv) ∧
    (∀ buffer num, a.numElements + num ≤ 2147483647 →
      addFromBuffer tr a buffer num = .done a1 → a1.CountInv) ∧
    (∀ index v, a.numElements + 1 ≤ 2147483647 → insert tr a index v = .done a1 →
      a1.CountInv) ∧
    (∀ index buffer num, 0 ≤ num → a.numElements + num ≤ 2147483647 →
      insertFromBuffer tr a index buffer num = .done a1 → a1.CountInv) ∧
    (∀ index num, 0 ≤ index → 0 ≤ num → remove tr a index num = .done a1 → a1.CountInv) ∧
    (∀ v, removeItem tr a v = .done a1 → a1.CountInv) ∧
    (clear a = some a1 → a1.CountInv) ∧
    (∀ newNumElements, setAllocatedSize tr a newNumElements = .done a1 → a1.CountInv) ∧
    (∀ minNumElements, ensureAllocatedSpace tr a minNumElements = .done a1 → a1.CountInv) ∧
    (∀ other : Array α, other.CountInv → copyAssign tr a other = .done a1 → a1.CountInv) ∧
    (∀ other : Array α, other.CountInv →
      (moveAssign a other).1.CountInv ∧ (moveAssign a other).2.CountInv) := by
  obtain ⟨h0, hle⟩ := hinv
  refine ⟨⟨le_refl _, le_refl _⟩, ?_, ?_, ?_, ?_, ?_, ?_, ?_, ?_, ?_, ?_, ?_, ?_⟩
  · intro v hmax h
    unfold add at h
    cases hs : ensureAllocatedSpace tr a (a.numElements + 1) with
    | done a0 =>
      simp only [hs, Outcome.bind] at h
      obtain ⟨h1, h2, h3⟩ := ensureAllocatedSpace_countInv tr a a0 _ ⟨h0, hle⟩ hs
      obtain ⟨h4, h5⟩ := addAssumingMemoryAllocated_counts a0 a1 v h
      have := h3 hmax
      exact ⟨by omega, by omega⟩
    | fatal s => simp [hs, Outcome.bind] at h
    | undefined => simp [hs, Outcome.bind] at h
  · intro first others hmax h
    unfold addAll at h
    cases hs : ensureAllocatedSpace tr a (a.numElements + 1 + (others.length : Int)) with
    | done a0 =>
      simp only [hs, Outcome.bind] at h
      obtain ⟨h1, h2, h3⟩ := ensureAllocatedSpace_countInv tr a a0 _ ⟨h0, hle⟩ hs
      obtain ⟨h4, h5⟩ := addAssumingMemoryAllocatedAll_counts (first :: others) a0 a1 h
      have := h3 hmax
      simp only [List.length_cons, Nat.cast_add, Nat.cast_one] at h4
      exact ⟨by omega, by omega⟩
    | fatal s => simp [hs, Outcome.bind] at h
    | undefined => simp [hs, Outcome.bind] at h
  · intro buffer num hmax h
    unfold addFromBuffer at h
    cases hs : ensureAllocatedSpace tr a (a.numElements + num) with
    | done a0 =>
      simp only [hs, Outcome.bind] at h
      obtain ⟨h1, h2, h3⟩ := ensureAllocatedSpace_countInv tr a a0 _ ⟨h0, hle⟩ hs
      obtain ⟨h4, h5⟩ := addFromBufferLoop_counts buffer num.toNat 0 a0 a1 h
      have := h3 hmax
      have h6 := h1.2
      exact ⟨by omega, by omega⟩
    | fatal s => simp [hs, Outcome.bind] at h
    | undefined => simp [hs, Outcome.bind] at h
  · intro index v hmax h
    unfold insert at h
    cases hs : createInsertSpace tr a index 1 with
    | done r =>
      obtain ⟨a0, p⟩ := r
      simp only [hs] at h
      obtain ⟨h1, h2, h3⟩ := createInsertSpace_countInv tr a a0 index 1 p ⟨h0, hle⟩ hs
      have := h3 hmax
      split at h
      · cases h
      · cases h
        exact ⟨by simp only; omega, by simp only; omega⟩
    | fatal s => simp [hs] at h
    | undefined => simp [hs] at h
  · intro index buffer num hnum hmax h
    unfold insertFromBuffer at h
    cases hs : createInsertSpace tr a index num with
    | done r =>
      obtain ⟨a0, p⟩ := r
      simp only [hs] at h
      obtain ⟨h1, h2, h3⟩ := createInsertSpace_countInv tr a a0 index num p ⟨h0, hle⟩ hs
      have := h3 hmax
      split at h
      · cases h
      · cases h
        exact ⟨by simp only; omega, by simp only; omega⟩
    | fatal s => simp [hs] at h
    | undefined => simp [hs] at h
  · intro index num hindex hnum h
    obtain ⟨h1, h2, h3, h4⟩ := remove_counts tr a a1 index num h
    exact ⟨by omega, by omega⟩
  · intro v h
    unfold removeItem at h
    split at h
    · cases h
    · rename_i i hi
      obtain ⟨h1, h2, h3, h4⟩ := remove_counts tr a a1 i 1 h
      rcases indexOfLoop_range a v _ 0 i hi with h5 | ⟨h5, h6⟩
      · omega
      · exact ⟨by omega, by omega⟩
  · intro h
    obtain ⟨h1, h2⟩ := clear_counts a a1 h
    exact ⟨by omega, by omega⟩
  · intro k h
    obtain ⟨h1, h2, h3⟩ := setAllocatedSize_counts tr a a1 k h
    exact ⟨by omega, by omega⟩
  · intro m h
    exact (ensureAllocatedSpace_countInv tr a a1 m ⟨h0, hle⟩ h).1
  · intro other hother h
    unfold copyAssign at h
    split at h
    · cases h
    · cases hs : addFromBuffer tr ‹Array α› other.elements.slots other.numElements with
      | done a2 =>
        simp only [hs, Outcome.bind] at h
        cases h
        exact hother
      | fatal s => simp [hs, Outcome.bind] at h
      | undefined => simp [hs, Outcome.bind] at h
  · intro other hother
    exact ⟨hother, ⟨le_refl _, le_refl _⟩⟩

/-- C5, amended, at `[a, b, c]`: `add (d)` completes with `[a, b, c, d]`, whose count 4 is
within the capacity 8. -/
theorem countInv_preserved_witness :
    abc.CountInv ∧ add ⟨true, true⟩ abc 'd' = .done abcd ∧ abcd.CountInv :=
  ⟨by decide, by decide,
    (countInv_preserved ⟨true, true⟩ abc abcd (by decide)).2.1 'd' (by decide) (by decide)⟩

/-- C6. For all integers `index` and `num`, `remove (index, num)` fails fatally if and only
if `index + num - 1` lies outside `[0, count)`; the state in which it fails is the state
it was called in (elements, count and capacity untouched). -/
theorem remove_fatal_iff (tr : ElemTraits) (a : Array α) (index num : Int) :
    ((∃ s, remove tr a index num = .fatal s) ↔
        ¬ (0 ≤ index + num - 1 ∧ index + num - 1 < a.numElements)) ∧
      (∀ s, remove tr a index num = .fatal s → s = a) := by
  unfold remove
  by_cases hassert : isPositiveAndBelow (index + num - 1) a.numElements = true
  · have hb := (isPositiveAndBelow_iff _ _).mp hassert
    simp only [hassert, not_true_eq_false, if_false]
    constructor
    · constructor
      · rintro ⟨s, hs⟩
        split at hs <;> cases hs
      · intro h
        exact absurd hb h
    · intro s hs
      split at hs <;> cases hs
  · have hb : ¬ (0 ≤ index + num - 1 ∧ index + num - 1 < a.numElements) := by
      rw [← isPositiveAndBelow_iff]
      exact hassert
    simp only [hassert, not_false_eq_true, if_true]
    constructor
    · exact ⟨fun _ => hb, fun _ => ⟨a, rfl⟩⟩
    · intro s hs
      cases hs
      rfl

/-- C7 fails on the code.  On `[a, b, c]` (capacity 8): `remove (5, -2)` passes the assertion
(`5 - 2 - 1 = 2` lies in `[0, 3)`) and completes with count 5, although `num < 0` and
`index > count`; `remove (-1, 2)` passes it as well (`-1 + 2 - 1 = 0`) and then moves two
elements to the slot before the block instead of terminating. -/
theorem remove_passes_assertion_out_of_bounds :
    remove ⟨true, true⟩ abc 5 (-2)
        = .done { abc with numElements := 5,
                           elements := ⟨some [some 'a', some 'b', some 'c', none, none, none,
                             none, none]⟩ } ∧
      remove ⟨false, true⟩ abc 5 (-2) = .done { abc with numElements := 5 } ∧
      remove ⟨true, true⟩ abc (-1) 2 = .undefined ∧
      remove ⟨false, true⟩ abc (-1) 2 = .undefined := by
  refine ⟨by decide, by decide, by decide, by decide⟩

end Array

end hosa

namespace hosa

namespace StringHelpers

/-! ## Buffers of characters -/

theorem stringLength_of_isText (s : CString) (h : IsText s) :
    stringLength s = (s.length : Int) := by
  induction s with
  | nil => rfl
  | cons c s ih =>
    have hc : c ≠ 0 := h c (by simp)
    have hs : IsText s := fun d hd => h d (by simp [hd])
    simp only [stringLength, ne_eq, hc, not_false_eq_true, if_true, ih hs, List.length_cons]
    push_cast
    rfl

theorem isText_append {s t : CString} (hs : IsText s) (ht : IsText t) : IsText (s ++ t) := by
  intro c hc
  rcases List.mem_append.mp hc with h | h
  · exact hs c h
  · exact ht c h

theorem isText_take {s : CString} (hs : IsText s) (n : Nat) : IsText (s.take n) :=
  fun c hc => hs c (List.mem_of_mem_take hc)

theorem isText_drop {s : CString} (hs : IsText s) (n : Nat) : IsText (s.drop n) :=
  fun c hc => hs c (List.mem_of_mem_drop hc)

theorem memcpy_at (W X R : CharBuffer) (source : CString) (k : Nat) (offset numChars : Int)
    (hX : X.length = k) (hk : k ≤ source.length) (hoff : offset = (W.length : Int))
    (hn : numChars = (k : Int)) :
    memcpy (W ++ (X ++ R)) offset source numChars
      = some (W ++ ((source.take k).map some ++ R)) := by
  subst hoff hn
  unfold memcpy
  by_cases h0 : k = 0
  · subst h0
    have : X = [] := List.length_eq_zero.mp hX
    simp [this]
  · have hne : ¬ ((k : Int) = 0) := by omega
    have hb : 0 < (k : Int) ∧ (k : Int) ≤ (source.length : Int) + 1 ∧ 0 ≤ (W.length : Int) ∧
        (W.length : Int) + (k : Int) ≤ ((W ++ (X ++ R)).length : Int) := by
      simp only [List.length_append, Nat.cast_add]
      omega
    simp only [hne, if_false, hb, and_self, if_true, Int.toNat_natCast]
    have e1 : ((W.length : Int) + (k : Int)).toNat = W.length + k := by omega
    have t1 : List.take W.length (W ++ (X ++ R)) = W := List.take_left _ _
    have t2 : List.drop (W.length + k) (W ++ (X ++ R)) = R := by
      have := List.drop_left (W ++ X) R
      simp only [List.length_append, hX, List.append_assoc] at this
      exact this
    have t3 : List.take k (source ++ [0]) = List.take k source := by
      rw [List.take_append_of_le_length hk]
    rw [e1, t1, t2, t3]
    simp

theorem readBuffer_text (s : CString) (R : CharBuffer) (h : IsText s) :
    readBuffer (s.map some ++ some 0 :: R) = some s := by
  induction s with
  | nil => simp [readBuffer]
  | cons c s ih =>
    have hc : c ≠ 0 := h c (by simp)
    have hs : IsText s := fun d hd => h d (by simp [hd])
    simp [readBuffer, hc, ih hs]

/-! ## Interpolation in one pass -/

theorem isFormatPlace_marker (Y : CString) : isFormatPlace (123 :: 125 :: Y) = true := by
  simp [isFormatPlace, charAt]

theorem isFormatPlace_cons_append (c : CChar) (p Y : CString)
    (h : isFormatPlace (c :: p) = false) :
    isFormatPlace (c :: (p ++ 123 :: 125 :: Y)) = false := by
  cases p with
  | nil =>
    simp only [isFormatPlace, charAt, List.getD_cons_zero, List.nil_append,
      List.getD_cons_succ]
    simp
  | cons d p =>
    simpa [isFormatPlace, charAt] using h

theorem findLoop_scan (n : Nat) (p : CString) :
    ∀ (fuel : Nat) (pos : Int) (found : List Int) (Y : CString),
      hasNoFormatPlace p = true → IsText p → found.length < n → p.length + 1 ≤ fuel →
      findInterpolationPlacesLoop n fuel (p ++ 123 :: 125 :: Y) pos found
        = findInterpolationPlacesLoop n (fuel - (p.length + 1)) Y (pos + (p.length : Int) + 2)
            (found ++ [pos + (p.length : Int)]) := by
  induction p with
  | nil =>
    intro fuel pos found Y _ _ hlt hfuel
    obtain ⟨f, rfl⟩ : ∃ f, fuel = f + 1 := ⟨fuel - 1, by simp at hfuel; omega⟩
    have hc : charAt (123 :: 125 :: Y) 0 ≠ 0 := by simp [charAt]
    simp only [List.nil_append, findInterpolationPlacesLoop, hlt, hc, ne_eq, not_false_eq_true,
      and_self, if_true, isFormatPlace_marker, List.length_nil, Nat.cast_zero, add_zero]
    simp
  | cons c p ih =>
    intro fuel pos found Y hno htext hlt hfuel
    obtain ⟨f, rfl⟩ : ∃ f, fuel = f + 1 := ⟨fuel - 1, by simp at hfuel; omega⟩
    have hc0 : c ≠ 0 := htext c (by simp)
    have hc : charAt (c :: (p ++ 123 :: 125 :: Y)) 0 ≠ 0 := by simpa [charAt] using hc0
    simp only [hasNoFormatPlace, Bool.and_eq_true, Bool.not_eq_true'] at hno
    have hfp := isFormatPlace_cons_append c p Y hno.1
    have htext' : IsText p := fun d hd => htext d (by simp [hd])
    have h := ih f (pos + 1) found Y hno.2 htext' hlt (by simp at hfuel; omega)
    simp only [List.cons_append, findInterpolationPlacesLoop, hlt, hc, ne_eq,
      not_false_eq_true, and_self, if_true, hfp, Bool.false_eq_true, if_false, List.drop_one,
      List.tail_cons, h, List.length_cons]
    have e1 : f + 1 - (p.length + 1 + 1) = f - (p.length + 1) := by omega
    have e2 : pos + 1 + (p.length : Int) + 2 = pos + ((p.length + 1 : Nat) : Int) + 2 := by
      push_cast; omega
    have e3 : pos + 1 + (p.length : Int) = pos + ((p.length + 1 : Nat) : Int) := by
      push_cast; omega
    rw [e1, e2, e3]

theorem findLoop_spec (n : Nat) (pieces : List (CString × CString)) :
    ∀ (fuel : Nat) (pos : Int) (found : List Int) (tail : CString),
      (∀ pr ∈ pieces, hasNoFormatPlace pr.1 = true ∧ IsText pr.1) →
      found.length + pieces.length = n →
      (markedTemplate pieces tail).length + 1 ≤ fuel →
      findInterpolationPlacesLoop n fuel (markedTemplate pieces tail) pos found
        = found ++ markerOffsets pos pieces := by
  induction pieces with
  | nil =>
    intro fuel pos found tail _ hlen _
    have hn : ¬ (found.length < n) := by simp at hlen; omega
    cases fuel with
    | zero => simp [findInterpolationPlacesLoop, markerOffsets]
    | succ f => simp [findInterpolationPlacesLoop, markerOffsets, hn]
  | cons pr pieces ih =>
    intro fuel pos found tail hp hlen hfuel
    obtain ⟨p, r⟩ := pr
    have hp1 := hp (p, r) (by simp)
    have hlt : found.length < n := by simp at hlen; omega
    simp only [markedTemplate, List.length_append, List.length_cons] at hfuel
    rw [markedTemplate, findLoop_scan n p fuel pos found _ hp1.1 hp1.2 hlt (by omega)]
    rw [ih _ _ _ tail (fun q hq => hp q (by simp [hq])) (by simp at hlen ⊢; omega) (by omega)]
    simp [markerOffsets]

theorem substituted_append (pieces : List (CString × CString)) (tail : CString) :
    substituted pieces tail = substituted pieces [] ++ tail := by
  induction pieces with
  | nil => simp [substituted]
  | cons pr pieces ih =>
    obtain ⟨p, r⟩ := pr
    simp only [substituted, List.append_assoc]
    rw [ih]

theorem markedTemplate_append (pieces : List (CString × CString)) (tail : CString) :
    markedTemplate pieces tail = markedTemplate pieces [] ++ tail := by
  induction pieces with
  | nil => simp [markedTemplate]
  | cons pr pieces ih =>
    obtain ⟨p, r⟩ := pr
    simp only [markedTemplate, List.append_assoc, List.cons_append]
    rw [ih]

theorem writeAndAdvance_at (W X R : CharBuffer) (pre chunk post : CString) (k : Nat)
    (destination sourcePos numChars : Int) (hX : X.length = k) (hk : chunk.length = k)
    (hd : destination = (W.length : Int)) (hs : sourcePos = (pre.length : Int))
    (hn : numChars = (k : Int)) :
    writeAndAdvanceSourceAndDestination (W ++ (X ++ R)) destination (pre ++ (chunk ++ post))
        sourcePos numChars
      = some (W ++ (chunk.map some ++ R), (W.length : Int) + (k : Int),
          (pre.length : Int) + (k : Int)) := by
  subst hd hs hn
  unfold writeAndAdvanceSourceAndDestination
  have hb : 0 ≤ (pre.length : Int) ∧
      (pre.length : Int) ≤ ((pre ++ (chunk ++ post)).length : Int) + 1 := by
    simp only [List.length_append, Nat.cast_add]
    omega
  have hdrop : List.drop (pre.length : Int).toNat (pre ++ (chunk ++ post)) = chunk ++ post := by
    rw [Int.toNat_natCast]
    exact List.drop_left _ _
  have hm := memcpy_at W X R (chunk ++ post) k (W.length : Int) (k : Int) hX
    (by simp [hk]) rfl rfl
  have htake : List.take k (chunk ++ post) = chunk := by
    rw [← hk]
    exact List.take_left _ _
  rw [if_pos hb, hdrop, hm, htake]
  rfl

theorem formatLoop_spec (pieces : List (CString × CString)) :
    ∀ (pre tail : CString) (W U Z : CharBuffer),
      (∀ pr ∈ pieces, IsText pr.2) →
      U.length = (substituted pieces []).length →
      formatLoop (pre ++ markedTemplate pieces tail) (pieces.map Prod.snd)
          (markerOffsets (pre.length : Int) pieces) (W ++ (U ++ Z), (W.length : Int),
            (pre.length : Int))
        = some (W ++ ((substituted pieces []).map some ++ Z),
            (W.length : Int) + ((substituted pieces []).length : Int),
            (pre.length : Int) + ((markedTemplate pieces []).length : Int)) := by
  induction pieces with
  | nil =>
    intro pre tail W U Z _ hU
    have : U = [] := List.length_eq_zero.mp (by simpa [substituted] using hU)
    simp [formatLoop, substituted, markedTemplate, this]
  | cons pr pieces ih =>
    intro pre tail W U Z hp hU
    obtain ⟨p, r⟩ := pr
    have hr : IsText r := hp (p, r) (by simp)
    simp only [substituted, List.length_append, List.append_nil] at hU
    have hU1 : U = U.take p.length ++ ((U.drop p.length).take r.length
        ++ (U.drop p.length).drop r.length) := by
      rw [List.take_append_drop, List.take_append_drop]
    have hl1 : (U.take p.length).length = p.length := by
      rw [List.length_take]; omega
    have hl2 : ((U.drop p.length).take r.length).length = r.length := by
      rw [List.length_take, List.length_drop]; omega
    have hl3 : ((U.drop p.length).drop r.length).length = (substituted pieces []).length := by
      rw [List.length_drop, List.length_drop]; omega
    generalize U.take p.length = U1 at hU1 hl1
    generalize (U.drop p.length).take r.length = U2 at hU1 hl2
    generalize (U.drop p.length).drop r.length = U3 at hU1 hl3
    subst hU1
    have w1 : writeAndAdvanceSourceAndDestination (W ++ (U1 ++ (U2 ++ (U3 ++ Z))))
        (W.length : Int) (pre ++ (p ++ 123 :: 125 :: markedTemplate pieces tail))
        (pre.length : Int) ((pre.length : Int) + (p.length : Int) - (pre.length : Int))
        = some (W ++ (p.map some ++ (U2 ++ (U3 ++ Z))), (W.length : Int) + (p.length : Int),
            (pre.length : Int) + (p.length : Int)) :=
      writeAndAdvance_at W U1 (U2 ++ (U3 ++ Z)) pre p
        (123 :: 125 :: markedTemplate pieces tail) p.length (W.length : Int) (pre.length : Int)
        ((pre.length : Int) + (p.length : Int) - (pre.length : Int)) hl1 rfl rfl rfl (by omega)
    have w2 : writeAndAdvanceSourceAndDestination (W ++ (p.map some ++ (U2 ++ (U3 ++ Z))))
        ((W.length : Int) + (p.length : Int)) r 0 (stringLength r)
        = some (W ++ (p.map some ++ (r.map some ++ (U3 ++ Z))),
            (W.length : Int) + (p.length : Int) + (r.length : Int), 0 + (r.length : Int)) := by
      have := writeAndAdvance_at (W ++ p.map some) U2 (U3 ++ Z) [] r [] r.length
        ((W.length : Int) + (p.length : Int)) 0 (stringLength r) hl2 rfl (by simp) (by simp)
        (stringLength_of_isText r hr)
      simpa using this
    have h : formatLoop (pre ++ (p ++ 123 :: 125 :: markedTemplate pieces tail))
        (pieces.map Prod.snd) (markerOffsets ((pre.length : Int) + (p.length : Int) + 2) pieces)
        (W ++ (p.map some ++ (r.map some ++ (U3 ++ Z))),
          (W.length : Int) + (p.length : Int) + (r.length : Int),
          (pre.length : Int) + (p.length : Int) + 2)
        = some (W ++ (p.map some ++ (r.map some ++ ((substituted pieces []).map some ++ Z))),
            (W.length : Int) + (p.length : Int) + (r.length : Int)
              + ((substituted pieces []).length : Int),
            (pre.length : Int) + (p.length : Int) + 2
              + ((markedTemplate pieces []).length : Int)) := by
      have := ih (pre ++ (p ++ [123, 125])) tail (W ++ (p.map some ++ r.map some)) U3 Z
        (fun q hq => hp q (by simp [hq])) hl3
      have eP : ((pre ++ (p ++ [123, 125])).length : Int)
          = (pre.length : Int) + (p.length : Int) + 2 := by
        simp only [List.length_append, List.length_cons, List.length_nil]
        push_cast
        omega
      have eW : ((W ++ (p.map some ++ r.map some)).length : Int)
          = (W.length : Int) + (p.length : Int) + (r.length : Int) := by
        simp only [List.length_append, List.length_map]
        push_cast
        omega
      rw [eP, eW] at this
      simpa using this
    simp only [markedTemplate, markerOffsets, List.map_cons, formatLoop, List.append_assoc]
    rw [w1]
    simp only [Option.some_bind]
    rw [w2]
    simp only [Option.some_bind]
    rw [h]
    simp only [substituted, List.append_nil, List.map_append, List.append_assoc,
      List.length_append, List.length_cons, Nat.cast_add, Option.some.injEq, Prod.mk.injEq,
      true_and]
    constructor
    · omega
    · push_cast
      omega

theorem isText_markedTemplate (pieces : List (CString × CString)) (tail : CString)
    (hp : ∀ pr ∈ pieces, IsText pr.1) (htail : IsText tail) :
    IsText (markedTemplate pieces tail) := by
  induction pieces with
  | nil => exact htail
  | cons pr pieces ih =>
    obtain ⟨p, r⟩ := pr
    have h1 : IsText p := hp (p, r) (by simp)
    have h2 := ih (fun q hq => hp q (by simp [hq]))
    intro c hc
    simp only [markedTemplate, List.mem_append, List.mem_cons] at hc
    rcases hc with h | h | h | h
    · exact h1 c h
    · rw [h]; decide
    · rw [h]; decide
    · exact h2 c h

theorem sum_stringLength (pieces : List (CString × CString))
    (hp : ∀ pr ∈ pieces, IsText pr.2) :
    ((pieces.map Prod.snd).map stringLength).sum
      = (pieces.map fun pr => (pr.2.length : Int)).sum := by
  induction pieces with
  | nil => rfl
  | cons pr pieces ih =>
    simp only [List.map_cons, List.sum_cons]
    rw [ih (fun q hq => hp q (by simp [hq])), stringLength_of_isText _ (hp pr (by simp))]

theorem length_substituted (pieces : List (CString × CString)) (tail : CString) :
    ((substituted pieces tail).length : Int)
      = ((markedTemplate pieces tail).length : Int) - 2 * (pieces.length : Int)
        + (pieces.map fun pr => (pr.2.length : Int)).sum := by
  induction pieces with
  | nil => simp [substituted, markedTemplate]
  | cons pr pieces ih =>
    obtain ⟨p, r⟩ := pr
    simp only [substituted, markedTemplate, List.length_append, List.length_cons, Nat.cast_add,
      Nat.cast_one, List.map_cons, List.sum_cons]
    omega

theorem format_pieces (pieces : List (CString × CString)) (tail : CString)
    (hpieces : ∀ pr ∈ pieces, hasNoFormatPlace pr.1 = true ∧ IsText pr.1 ∧ IsText pr.2)
    (htail : IsText tail) :
    format (markedTemplate pieces tail) (pieces.map Prod.snd)
        = some ((substituted pieces tail).map some ++ [some 0]) ∧
      ((substituted pieces tail).length : Int)
        = ((markedTemplate pieces tail).length : Int) - 2 * (pieces.length : Int)
          + (pieces.map fun pr => (pr.2.length : Int)).sum := by
  refine ⟨?_, length_substituted pieces tail⟩
  have hT : IsText (markedTemplate pieces tail) :=
    isText_markedTemplate pieces tail (fun q hq => (hpieces q hq).2.1) htail
  have hlenT := stringLength_of_isText _ hT
  have hsum := sum_stringLength pieces (fun q hq => (hpieces q hq).2.2)
  have hL : ((pieces.map Prod.snd).map stringLength).sum
      + stringLength (markedTemplate pieces tail) - (((pieces.map Prod.snd).length : Nat) : Int) * 2
      = (((substituted pieces []).length + tail.length : Nat) : Int) := by
    rw [hsum, hlenT, List.length_map]
    have h1 := length_substituted pieces tail
    rw [substituted_append] at h1
    simp only [List.length_append, Nat.cast_add] at h1 ⊢
    omega
  have hfind : findInterpolationPlaces (pieces.map Prod.snd).length (markedTemplate pieces tail)
      = markerOffsets 0 pieces := by
    unfold findInterpolationPlaces
    rw [findLoop_spec _ pieces _ 0 [] tail (fun q hq => ⟨(hpieces q hq).1, (hpieces q hq).2.1⟩)
      (by simp) (le_refl _)]
    simp
  have hloop := formatLoop_spec pieces [] tail []
    (List.replicate (substituted pieces []).length none)
    (List.replicate tail.length none ++ [some 0])
    (fun q hq => (hpieces q hq).2.2) (by simp)
  simp only [List.nil_append, List.length_nil, Nat.cast_zero, zero_add] at hloop
  have hbuf : List.replicate ((substituted pieces []).length + tail.length) (none : Option CChar)
      ++ [some 0]
      = List.replicate (substituted pieces []).length none
        ++ (List.replicate tail.length none ++ [some 0]) := by
    rw [List.replicate_add, List.append_assoc]
  have hpos : 0 ≤ ((markedTemplate pieces []).length : Int) ∧
      ((markedTemplate pieces []).length : Int) ≤ ((markedTemplate pieces tail).length : Int) := by
    rw [markedTemplate_append pieces tail]
    simp only [List.length_append, Nat.cast_add]
    omega
  have hdrop : List.drop (markedTemplate pieces []).length
      (markedTemplate pieces tail) = tail := by
    rw [markedTemplate_append pieces tail]
    exact List.drop_left _ _
  have hlast := writeAndAdvance_at ((substituted pieces []).map some)
    (List.replicate tail.length none) [some 0] (markedTemplate pieces []) tail [] tail.length
    ((substituted pieces []).length : Int) ((markedTemplate pieces []).length : Int)
    (stringLength tail) (by simp) rfl (by simp) rfl (stringLength_of_isText tail htail)
  rw [List.append_nil, ← markedTemplate_append pieces tail] at hlast
  unfold format
  simp only [hL, nullTerminatedEmptyStringOfLength, Int.toNat_natCast, Nat.cast_nonneg, if_true,
    Option.some_bind, hfind, hbuf, hloop, hpos, and_self, hdrop, hlast, Option.map_some']
  rw [substituted_append pieces tail]
  simp only [List.map_append, List.append_assoc]

theorem isText_of_markedTemplate (pieces : List (CString × CString)) (tail : CString)
    (h : IsText (markedTemplate pieces tail)) :
    (∀ pr ∈ pieces, IsText pr.1) ∧ IsText tail := by
  induction pieces with
  | nil => exact ⟨by intro pr hpr; simp at hpr, h⟩
  | cons pr pieces ih =>
    obtain ⟨p, r⟩ := pr
    have h1 : IsText p := fun c hc => h c (by simp [markedTemplate, hc])
    have h2 : IsText (markedTemplate pieces tail) :=
      fun c hc => h c (by simp [markedTemplate, hc])
    obtain ⟨h3, h4⟩ := ih h2
    refine ⟨?_, h4⟩
    intro q hq
    rcases List.mem_cons.mp hq with e | e
    · rw [e]; exact h1
    · exact h3 q e

theorem exists_pieces (T : CString) (rs : List CString) :
    rs.length ≤ countFormatPlaces T →
      ∃ (pieces : List (CString × CString)) (tail : CString),
        T = markedTemplate pieces tail ∧ pieces.map Prod.snd = rs ∧
        (∀ pr ∈ pieces, hasNoFormatPlace pr.1 = true) ∧
        substitute T rs = substituted pieces tail := by
  induction T, rs using substitute.induct with
  | case1 rs =>
    intro h
    have : rs = [] := List.length_eq_zero.mp (by simpa [countFormatPlaces] using h)
    subst this
    exact ⟨[], [], rfl, rfl, by intro pr hpr; simp at hpr, by simp [substitute, substituted]⟩
  | case2 c rs =>
    intro h
    have : rs = [] := List.length_eq_zero.mp (by simpa [countFormatPlaces] using h)
    subst this
    exact ⟨[], [c], rfl, rfl, by intro pr hpr; simp at hpr, by simp [substitute, substituted]⟩
  | case3 c d rest =>
    intro _
    exact ⟨[], c :: d :: rest, rfl, rfl, by intro pr hpr; simp at hpr,
      by simp [substitute, substituted]⟩
  | case4 c d rest r rs hm ih =>
    intro h
    simp only [countFormatPlaces, hm, and_self, if_true, List.length_cons,
      Nat.add_le_add_iff_right] at h
    obtain ⟨pieces, tail, hT, hrs, hno, hsub⟩ := ih h
    refine ⟨([], r) :: pieces, tail, ?_, ?_, ?_, ?_⟩
    · simp [markedTemplate, hm.1, hm.2, ← hT]
    · simp [hrs]
    · intro pr hpr
      rcases List.mem_cons.mp hpr with e | e
      · rw [e]; rfl
      · exact hno pr e
    · simp [substitute, substituted, hm, hsub]
  | case5 c d rest r rs hm ih =>
    intro h
    simp only [countFormatPlaces, hm, if_false] at h
    obtain ⟨pieces, tail, hT, hrs, hno, hsub⟩ := ih h
    cases pieces with
    | nil => simp at hrs
    | cons pr pieces =>
      obtain ⟨p, r1⟩ := pr
      simp only [List.map_cons, List.cons.injEq] at hrs
      obtain ⟨hr, hrs⟩ := hrs
      subst hr
      refine ⟨(c :: p, r1) :: pieces, tail, ?_, ?_, ?_, ?_⟩
      · simp only [markedTemplate, List.cons_append, List.cons.injEq, true_and]
        simpa [markedTemplate] using hT
      · simp [hrs]
      · intro pr hpr
        rcases List.mem_cons.mp hpr with e | e
        · rw [e]
          have hp := hno (p, r1) (by simp)
          simp only [hasNoFormatPlace, Bool.and_eq_true, Bool.not_eq_true', hp, and_true]
          cases p with
          | nil => simp [isFormatPlace, charAt]
          | cons d1 p =>
            simp only [markedTemplate, List.cons_append, List.cons.injEq] at hT
            simp only [isFormatPlace, charAt, List.getD_cons_zero, List.getD_cons_succ,
              Bool.and_eq_false_imp, beq_iff_eq]
            intro hc
            rw [← hT.1]
            simpa using fun hd => hm ⟨hc, hd⟩
        · exact hno pr (by simp [e])
      · simp [substitute, substituted, hm, hsub]

/-- C8. For every template with at least `n` markers `{}` (located left to right without
overlap) and every list of `n` C-string replacements, `StringHelpers::format` returns a
buffer that holds the template with its first `n` markers replaced by the replacements in
argument order and every other character kept (markers beyond the `n`-th included), followed
by the terminator; the text has length `len (template) - 2 n + sum of len (ri)`. -/
theorem format_substitutes (T : CString) (rs : List CString) (hT : IsText T)
    (hrs : ∀ r ∈ rs, IsText r) (hn : rs.length ≤ countFormatPlaces T) :
    format T rs = some ((substitute T rs).map some ++ [some 0]) ∧
      ((substitute T rs).length : Int)
        = (T.length : Int) - 2 * (rs.length : Int) + (rs.map fun r => (r.length : Int)).sum := by
  obtain ⟨pieces, tail, hTeq, hrseq, hno, hsub⟩ := exists_pieces T rs hn
  subst hTeq hrseq
  obtain ⟨hp, htail⟩ := isText_of_markedTemplate pieces tail hT
  have h := format_pieces pieces tail
    (fun pr hpr => ⟨hno pr hpr, hp pr hpr, hrs pr.2 (List.mem_map_of_mem Prod.snd hpr)⟩) htail
  rw [hsub]
  refine ⟨h.1, ?_⟩
  rw [h.2]
  simp [List.map_map, Function.comp_def]

/-- C8 at the test of the repository: `format ("{}, {}!", "hello", "world")` is
`"hello, world!"`, of length `7 - 4 + 10`. -/
theorem format_substitutes_witness :
    format (cstr "{}, {}!") [cstr "hello", cstr "world"]
        = some ((cstr "hello, world!").map some ++ [some 0]) ∧
      ((cstr "hello, world!").length : Int) = 7 - 2 * 2 + 10 :=
  format_substitutes (cstr "{}, {}!") [cstr "hello", cstr "world"] (by decide) (by decide)
    (by decide)

end StringHelpers

end hosa

namespace hosa

namespace String

open StringHelpers

/-- C9 fails on the code.  `String::format` replaces, for each argument in turn, the first
`{}` of the text as it stands after the previous replacements, so a marker inside an earlier
replacement is consumed by the next argument: `"{} {}".format ("{}", "x")` is `"x {}"`, where
the claim (and `StringHelpers::format`, which locates the markers in the original template)
gives `"{} x"`. -/
theorem format_consumes_marker_of_replacement :
    format (cstr "{} {}") (cstr "{}") [cstr "x"] = some (cstr "x {}") ∧
      (StringHelpers.format (cstr "{} {}") [cstr "{}", cstr "x"]).bind readBuffer
        = some (cstr "{} x") ∧
      format (cstr "hello, {}!") (cstr "world") [] = some (cstr "hello, world!") := by
  refine ⟨by decide, by decide, by decide⟩

/-! ## Splitting and joining -/

theorem compare_eq_zero (a b : CChar) (h : CharHelpers.compare a b = 0) : a = b := by
  unfold CharHelpers.compare at h
  by_cases hab : a = b
  · exact hab
  · simp only [hab, if_false] at h
    split at h <;> omega

theorem compareNumCharsLoop_eq (k : Nat) :
    ∀ (s1 s2 : CString), compareNumCharsLoop k s1 s2 = 0 → k ≤ s1.length → k ≤ s2.length →
      s1.take k = s2.take k := by
  induction k with
  | zero => intro s1 s2 _ _ _; simp
  | succ k ih =>
    intro s1 s2 h h1 h2
    cases s1 with
    | nil => simp at h1
    | cons a s1 =>
      cases s2 with
      | nil => simp at h2
      | cons b s2 =>
        simp only [compareNumCharsLoop, charAt, List.getD_cons_zero, List.drop_one,
          List.tail_cons] at h
        by_cases hd : CharHelpers.compare a b = 0
        · simp only [hd, ne_eq, not_true_eq_false, if_false] at h
          have hab := compare_eq_zero a b hd
          have := ih s1 s2 h (by simpa using h1) (by simpa using h2)
          simp [hab, this]
        · simp only [ne_eq, hd, not_false_eq_true, if_true] at h

theorem containsStartingAt_eq (T D : CString) (i : Nat) (hD : IsText D)
    (hle : i + D.length ≤ T.length)
    (h : containsStartingAt T (i : Int) D = true) : (T.drop i).take D.length = D := by
  unfold containsStartingAt at h
  simp only [decide_eq_true_eq, compareNumChars, stringLength_of_isText D hD,
    Int.toNat_natCast] at h
  have := compareNumCharsLoop_eq D.length (T.drop i) D h (by simp; omega) (le_refl _)
  simpa using this

theorem allocateAndCopyNumChars_text (s : CString) (k : Nat) (hk : k ≤ s.length) :
    allocateAndCopyNumChars s (k : Int) = some ((s.take k).map some ++ [some 0]) := by
  unfold allocateAndCopyNumChars nullTerminatedEmptyStringOfLength
  simp only [Nat.cast_nonneg, if_true, Int.toNat_natCast, Option.some_bind]
  have := memcpy_at [] (List.replicate k none) [some 0] s k 0 (k : Int) (by simp) hk (by simp) rfl
  simpa using this

theorem copyFrom_text (s : CString) (hs : IsText s) : copyFrom s = some s := by
  unfold copyFrom moveFromString allocateAndCopy
  simp only [stringLength_of_isText s hs]
  have h := allocateAndCopyNumChars_text s s.length (le_refl _)
  unfold allocateAndCopyNumChars at h
  rw [h, List.take_length]
  exact readBuffer_text s [] hs

theorem substring_text (T : CString) (hT : IsText T) (start num : Nat)
    (hstart : start ≤ T.length) :
    substring T (start : Int) (num : Int) false = some ((T.drop start).take num) := by
  have hlen : length T = (T.length : Int) := stringLength_of_isText T hT
  have hchunk : IsText ((T.drop start).take num) := isText_take (isText_drop hT _) _
  unfold substring
  have hb : 0 ≤ (start : Int) ∧ (start : Int) ≤ (T.length : Int) + 1 := by omega
  simp only [hlen, hb, and_self, if_true, Int.toNat_natCast, Bool.false_eq_true, if_false]
  by_cases hclamp : (start : Int) + (num : Int) ≥ (T.length : Int)
  · simp only [hclamp, if_true]
    have e : (T.length : Int) - (start : Int) = ((T.length - start : Nat) : Int) := by omega
    rw [e, allocateAndCopyNumChars_text _ _ (by simp)]
    have e2 : List.take (T.length - start) (List.drop start T) = (T.drop start).take num := by
      rw [List.take_of_length_le (by simp), List.take_of_length_le (by simp; omega)]
    rw [e2]
    simp only [Option.some_bind, readBuffer_text _ [] hchunk, copyFrom_text _ hchunk]
  · simp only [hclamp, if_false]
    rw [allocateAndCopyNumChars_text _ _ (by simp; omega)]
    simp only [Option.some_bind, readBuffer_text _ [] hchunk, copyFrom_text _ hchunk]

theorem append_text (a b : CString) (ha : IsText a) (hb : IsText b) :
    append a b = some (a ++ b) := by
  unfold append moveFromString buildStringFromPointers nullTerminatedEmptyStringOfLength
  simp only [stringLength_of_isText a ha, stringLength_of_isText b hb]
  have hnn : 0 ≤ (a.length : Int) + (b.length : Int) := by omega
  have hto : ((a.length : Int) + (b.length : Int)).toNat = a.length + b.length := by omega
  have m1 := memcpy_at [] (List.replicate a.length none)
    (List.replicate b.length none ++ [some 0]) a a.length 0 (a.length : Int) (by simp)
    (le_refl _) (by simp) rfl
  have m2 := memcpy_at (a.map some) (List.replicate b.length none) [some 0] b b.length
    (a.length : Int) (b.length : Int) (by simp) (le_refl _) (by simp) rfl
  simp only [List.nil_append, List.take_length] at m1 m2
  simp only [hnn, if_true, hto, List.replicate_add, List.append_assoc, Option.some_bind, m1, m2]
  have := readBuffer_text (a ++ b) [] (isText_append ha hb)
  simpa using this

theorem get_holds (arr : Array CString) (P1 P2 : List CString) (x : CString)
    (h : arr.Holds (P1 ++ x :: P2)) : Array.get arr (P1.length : Int) = .done x := by
  obtain ⟨hn, rest, hslots, _⟩ := h
  have hel : arr.elements = ⟨some (P1.map some ++ some x :: (P2.map some ++ rest))⟩ := by
    apply DynamicMemoryBlock.eq_mk_of_data
    apply DynamicMemoryBlock.data_of_slots (by simpa using hslots)
    simp
  have hidx : isPositiveAndBelow (P1.length : Int) arr.numElements = true := by
    rw [Array.isPositiveAndBelow_iff, hn]
    simp only [List.length_append, List.length_cons, Nat.cast_add, Nat.cast_one]
    omega
  unfold Array.get
  simp only [hidx, not_true_eq_false, if_false, hel]
  rw [DynamicMemoryBlock.read_at _ _ _ (by simp)]

theorem joinFromArrayLoop_spec (arr : Array CString) (D : CString) (hD : IsText D)
    (Prest : List CString) :
    ∀ (Pdone : List CString) (result : CString), arr.Holds (Pdone ++ Prest) →
      (∀ p ∈ Prest, IsText p) → IsText result →
      joinFromArrayLoop arr D ((Pdone ++ Prest).length : Int) Prest.length (Pdone.length : Int)
          result
        = .done (result ++ joined Prest D) := by
  induction Prest with
  | nil => intro Pdone result _ _ _; simp [joinFromArrayLoop, joined]
  | cons x rest ih =>
    intro Pdone result hholds hP hres
    have hx : IsText x := hP x (by simp)
    have hget := get_holds arr Pdone rest x hholds
    have happ := append_text result x hres hx
    simp only [List.length_cons, joinFromArrayLoop, hget, Outcome.bind, happ]
    cases rest with
    | nil =>
      have hlt : ¬ ((Pdone.length : Int) < ((Pdone ++ [x]).length : Int) - 1) := by
        simp
      simp only [hlt, if_false, List.length_nil, joinFromArrayLoop, joined]
    | cons y rest =>
      have hlt : (Pdone.length : Int) < ((Pdone ++ x :: y :: rest).length : Int) - 1 := by
        simp only [List.length_append, List.length_cons, Nat.cast_add, Nat.cast_one]
        omega
      have happ2 := append_text (result ++ x) D (isText_append hres hx) hD
      have h := ih (Pdone ++ [x]) (result ++ x ++ D) (by simpa using hholds)
        (fun p hp => hP p (by simp [hp])) (isText_append (isText_append hres hx) hD)
      have e1 : Pdone ++ [x] ++ y :: rest = Pdone ++ x :: y :: rest := by simp
      have e2 : ((Pdone ++ [x]).length : Int) = (Pdone.length : Int) + 1 := by simp
      rw [e1, e2] at h
      simp only [List.append_assoc] at h
      simp only [hlt, if_true, happ2, joined, List.append_assoc, h]

theorem joinFromArray_holds (arr : Array CString) (P : List CString) (D : CString)
    (h : arr.Holds P) (hP : ∀ p ∈ P, IsText p) (hD : IsText D) :
    joinFromArray arr D = .done (joined P D) := by
  have := joinFromArrayLoop_spec arr D hD P [] [] (by simpa using h) hP (by intro c hc; simp at hc)
  unfold joinFromArray Array.getNumItems
  simp only [h.1, Int.toNat_natCast]
  simpa using this

theorem holds_empty : (Array.empty : Array CString).Holds [] :=
  ⟨rfl, [], rfl, rfl⟩

/-- C10 fails on the code.  The text `a,b,c,d,e,f,g,h,i` neither starts nor ends with the
separator `,` and has nine pieces.  `split` collects the pieces in an `Array<String>`; adding
the ninth grows its block of eight slots, and the element-wise `setAllocatedSizeInternal`
releases the old block, which `malloc` returned, with `delete[]`: the call has no result to
join, where the claim has the text back.  With the eight pieces of `a,b,c,d,e,f,g,h` the
block does not grow and the pieces join to the text. -/
theorem split_join_releases_block_with_delete :
    IsText (cstr "a,b,c,d,e,f,g,h,i") ∧ ¬ cstr "," <+: cstr "a,b,c,d,e,f,g,h,i" ∧
    ¬ cstr "," <:+ cstr "a,b,c,d,e,f,g,h,i" ∧
    split 18 (cstr "a,b,c,d,e,f,g,h,i") (cstr ",") false = some .undefined ∧
    (split 16 (cstr "a,b,c,d,e,f,g,h") (cstr ",") false).map
      (fun pieces => pieces.bind fun arr => joinFromArray arr (cstr ","))
      = some (.done (cstr "a,b,c,d,e,f,g,h")) := by
  decide

end String

end hosa

namespace hosa

namespace String

open StringHelpers

/-! ## Comparison -/

theorem compare_self (c : CChar) : CharHelpers.compare c c = 0 := by
  simp [CharHelpers.compare]

theorem compare_of_ne (x y : CChar) (h : x ≠ y) :
    CharHelpers.compare x y = if x > y then 1 else -1 := by
  simp [CharHelpers.compare, h]

theorem fullStringCompareLoop_common (len1 len2 : Int) (p : CString) :
    ∀ (k : Nat) (s1 s2 : CString),
      fullStringCompareLoop len1 len2 (p.length + k) (p ++ s1) (p ++ s2)
        = fullStringCompareLoop len1 len2 k s1 s2 := by
  induction p with
  | nil => intro k s1 s2; simp
  | cons c p ih =>
    intro k s1 s2
    have e : (c :: p).length + k = (p.length + k) + 1 := by
      simp only [List.length_cons]; omega
    rw [e]
    simp only [fullStringCompareLoop, List.cons_append, charAt, List.getD_cons_zero,
      compare_self, ne_eq, not_true_eq_false, if_false, List.drop_one, List.tail_cons]
    exact ih k s1 s2

theorem common_part_cases (a : CString) :
    ∀ b : CString, a = b ∨ (∃ c r, b = a ++ c :: r) ∨ (∃ c r, a = b ++ c :: r) ∨
      (∃ p x y ra rb, a = p ++ x :: ra ∧ b = p ++ y :: rb ∧ x ≠ y) := by
  induction a with
  | nil =>
    intro b
    cases b with
    | nil => exact Or.inl rfl
    | cons c r => exact Or.inr (Or.inl ⟨c, r, rfl⟩)
  | cons x a ih =>
    intro b
    cases b with
    | nil => exact Or.inr (Or.inr (Or.inl ⟨x, a, rfl⟩))
    | cons y b =>
      by_cases hxy : x = y
      · subst hxy
        rcases ih b with h | ⟨c, r, h⟩ | ⟨c, r, h⟩ | ⟨p, u, v, ra, rb, h1, h2, h3⟩
        · exact Or.inl (by rw [h])
        · exact Or.inr (Or.inl ⟨c, r, by rw [h]; rfl⟩)
        · exact Or.inr (Or.inr (Or.inl ⟨c, r, by rw [h]; rfl⟩))
        · exact Or.inr (Or.inr (Or.inr ⟨x :: p, u, v, ra, rb, by rw [h1]; rfl, by rw [h2]; rfl,
            h3⟩))
      · exact Or.inr (Or.inr (Or.inr ⟨[], x, y, a, b, rfl, rfl, hxy⟩))

theorem compare_refl (a : CString) (ha : IsText a) : compare a a = 0 := by
  unfold compare fullStringCompare
  simp only [stringLength_of_isText a ha, min_self, Int.toNat_natCast]
  have := fullStringCompareLoop_common (a.length : Int) (a.length : Int) a 0 [] []
  simp only [Nat.add_zero, List.append_nil] at this
  rw [this]
  simp [fullStringCompareLoop]

theorem compare_of_shorter (a r : CString) (c : CChar) (ha : IsText a)
    (hb : IsText (a ++ c :: r)) : compare a (a ++ c :: r) = -1 := by
  unfold compare fullStringCompare
  simp only [stringLength_of_isText a ha, stringLength_of_isText _ hb]
  have e : (min (a.length : Int) ((a ++ c :: r).length : Int)).toNat = a.length + 0 := by
    simp only [List.length_append, List.length_cons, Nat.cast_add, Nat.cast_one]
    omega
  rw [e]
  have := fullStringCompareLoop_common (a.length : Int) ((a ++ c :: r).length : Int) a 0 []
    (c :: r)
  simp only [List.append_nil] at this
  rw [this]
  simp only [fullStringCompareLoop, List.length_append, List.length_cons, Nat.cast_add,
    Nat.cast_one]
  have h1 : ¬ ((a.length : Int) = (a.length : Int) + ((r.length : Int) + 1)) := by omega
  have h2 : ¬ ((a.length : Int) > (a.length : Int) + ((r.length : Int) + 1)) := by omega
  simp only [h1, h2, if_false]

theorem compare_of_longer (b r : CString) (c : CChar) (ha : IsText (b ++ c :: r))
    (hb : IsText b) : compare (b ++ c :: r) b = 1 := by
  unfold compare fullStringCompare
  simp only [stringLength_of_isText b hb, stringLength_of_isText _ ha]
  have e : (min ((b ++ c :: r).length : Int) (b.length : Int)).toNat = b.length + 0 := by
    simp only [List.length_append, List.length_cons, Nat.cast_add, Nat.cast_one]
    omega
  rw [e]
  have := fullStringCompareLoop_common ((b ++ c :: r).length : Int) (b.length : Int) b 0
    (c :: r) []
  simp only [List.append_nil] at this
  rw [this]
  simp only [fullStringCompareLoop, List.length_append, List.length_cons, Nat.cast_add,
    Nat.cast_one]
  have h1 : ¬ ((b.length : Int) + ((r.length : Int) + 1) = (b.length : Int)) := by omega
  have h2 : (b.length : Int) + ((r.length : Int) + 1) > (b.length : Int) := by omega
  simp only [h1, h2, if_false, if_true]

theorem compare_of_differ (p ra rb : CString) (x y : CChar) (ha : IsText (p ++ x :: ra))
    (hb : IsText (p ++ y :: rb)) (hxy : x ≠ y) :
    compare (p ++ x :: ra) (p ++ y :: rb) = if x > y then 1 else -1 := by
  unfold compare fullStringCompare
  simp only [stringLength_of_isText _ ha, stringLength_of_isText _ hb]
  have e : (min ((p ++ x :: ra).length : Int) ((p ++ y :: rb).length : Int)).toNat
      = p.length + (min ra.length rb.length + 1) := by
    simp only [List.length_append, List.length_cons, Nat.cast_add, Nat.cast_one]
    omega
  rw [e, fullStringCompareLoop_common]
  have hne : CharHelpers.compare x y ≠ 0 := fun h => hxy (compare_eq_zero x y h)
  simp only [fullStringCompareLoop, charAt, List.getD_cons_zero, ne_eq, hne,
    not_false_eq_true, if_true]
  exact compare_of_ne x y hxy

theorem compare_range (a b : CString) (ha : IsText a) (hb : IsText b) :
    (compare a b = 0 ∧ a = b) ∨ (compare a b = 1 ∧ a ≠ b) ∨ (compare a b = -1 ∧ a ≠ b) := by
  rcases common_part_cases a b with h | ⟨c, r, h⟩ | ⟨c, r, h⟩ | ⟨p, x, y, ra, rb, h1, h2, h3⟩
  · subst h
    exact Or.inl ⟨compare_refl a ha, rfl⟩
  · subst h
    refine Or.inr (Or.inr ⟨compare_of_shorter a r c ha hb, ?_⟩)
    intro h
    have := congrArg List.length h
    simp at this
  · subst h
    refine Or.inr (Or.inl ⟨compare_of_longer b r c ha hb, ?_⟩)
    intro h
    have := congrArg List.length h
    simp at this
  · subst h1 h2
    have hd : p ++ x :: ra ≠ p ++ y :: rb := by
      intro h
      have := List.append_cancel_left h
      simp only [List.cons.injEq] at this
      exact h3 this.1
    rw [compare_of_differ p ra rb x y ha hb h3]
    by_cases hgt : x > y
    · exact Or.inr (Or.inl ⟨by simp [hgt], hd⟩)
    · exact Or.inr (Or.inr ⟨by simp [hgt], hd⟩)

/-- C11, amended.  `a.compare (b)` orders texts lexicographically by the values of their
characters as `char`, not by their bytes: it is 0 exactly when the texts are identical, -1
when `a` is a strict prefix of `b`, 1 when `b` is a strict prefix of `a`, and else 1 or -1 as
the character of `a` at the first differing position is greater or smaller, as `char`, than
that of `b`; the operators `==`, `!=`, `<`, `<=`, `>`, `>=` return what this result says. -/
theorem compare_lexicographic (a b : CString) (ha : IsText a) (hb : IsText b) :
    (compare a b = 0 ↔ a = b) ∧
    ((∃ c r, b = a ++ c :: r) → compare a b = -1) ∧
    ((∃ c r, a = b ++ c :: r) → compare a b = 1) ∧
    (∀ p x y ra rb, a = p ++ x :: ra → b = p ++ y :: rb → x ≠ y →
      compare a b = if x > y then 1 else -1) ∧
    (compare a b = 0 ∨ compare a b = 1 ∨ compare a b = -1) ∧
    (eq a b = true ↔ a = b) ∧ (ne a b = true ↔ a ≠ b) ∧
    (lt a b = true ↔ compare a b = -1) ∧ (le a b = true ↔ compare a b ≠ 1) ∧
    (gt a b = true ↔ compare a b = 1) ∧ (ge a b = true ↔ compare a b ≠ -1) := by
  have hr := compare_range a b ha hb
  refine ⟨?_, ?_, ?_, ?_, ?_, ?_, ?_, ?_, ?_, ?_, ?_⟩
  · rcases hr with ⟨h, e⟩ | ⟨h, e⟩ | ⟨h, e⟩
    · exact ⟨fun _ => e, fun _ => h⟩
    · exact ⟨fun h0 => by rw [h] at h0; omega, fun h0 => absurd h0 e⟩
    · exact ⟨fun h0 => by rw [h] at h0; omega, fun h0 => absurd h0 e⟩
  · rintro ⟨c, r, h⟩
    subst h
    exact compare_of_shorter a r c ha hb
  · rintro ⟨c, r, h⟩
    subst h
    exact compare_of_longer b r c ha hb
  · intro p x y ra rb h1 h2 hxy
    subst h1 h2
    exact compare_of_differ p ra rb x y ha hb hxy
  · rcases hr with ⟨h, _⟩ | ⟨h, _⟩ | ⟨h, _⟩
    · exact Or.inl h
    · exact Or.inr (Or.inl h)
    · exact Or.inr (Or.inr h)
  · unfold eq
    rcases hr with ⟨h, e⟩ | ⟨h, e⟩ | ⟨h, e⟩ <;> rw [h] <;> simp [e]
  · unfold ne
    rcases hr with ⟨h, e⟩ | ⟨h, e⟩ | ⟨h, e⟩ <;> rw [h] <;> simp [e]
  · unfold lt
    rcases hr with ⟨h, _⟩ | ⟨h, _⟩ | ⟨h, _⟩ <;> simp [h]
  · unfold le
    rcases hr with ⟨h, _⟩ | ⟨h, _⟩ | ⟨h, _⟩ <;> simp [h]
  · unfold gt
    rcases hr with ⟨h, _⟩ | ⟨h, _⟩ | ⟨h, _⟩ <;> simp [h]
  · unfold ge
    rcases hr with ⟨h, _⟩ | ⟨h, _⟩ | ⟨h, _⟩ <;> simp [h]

/-- C11, amended, at `"abc"` and `"abd"`: the texts differ first at index 2, where
`'c' < 'd'`, so the comparison gives -1 and `<` holds. -/
theorem compare_lexicographic_witness :
    compare (cstr "abc") (cstr "abd") = (if (99 : CChar) > 100 then 1 else -1) ∧
      (lt (cstr "abc") (cstr "abd") = true ↔ compare (cstr "abc") (cstr "abd") = -1) :=
  have h := compare_lexicographic (cstr "abc") (cstr "abd") (by decide) (by decide)
  ⟨h.2.2.2.1 (cstr "ab") 99 100 [] [] (by decide) (by decide) (by decide), h.2.2.2.2.2.2.2.1⟩

/-- C11 as stated fails where `char` is signed.  The text of the one byte `0xE9`, which is the
`char` value -23, and the text `a` differ at position 0, where the byte of the first, 233, is
greater than the byte of the second, 97.  By the order of the raw byte values the comparison
is 1; `compare` returns -1, and `<` holds between the two texts. -/
theorem compare_not_by_byte_values :
    IsText [-23] ∧ IsText (cstr "a") ∧ cstr "a" = [97] ∧
    byteValue (-23) = 233 ∧ byteValue 97 = 97 ∧
    compare [-23] (cstr "a") = -1 ∧
    compare [-23] (cstr "a") ≠ (if byteValue (-23) > byteValue 97 then 1 else -1) ∧
    lt [-23] (cstr "a") = true := by
  decide

end String

end hosa

namespace hosa

namespace StringHelpers

/-! ## Reversal -/

theorem getD_append_cons (A rest : CString) (a : CChar) :
    (A ++ a :: rest).getD A.length 0 = a := by
  induction A with
  | nil => rfl
  | cons c A ih => simpa using ih

theorem readAt_at (A rest : CString) (a : CChar) {pos : Int} (hp : pos = (A.length : Int)) :
    readAt (A ++ a :: rest) pos = some a := by
  subst hp
  unfold readAt charAt
  have hb : 0 ≤ (A.length : Int) ∧ (A.length : Int) ≤ ((A ++ a :: rest).length : Int) := by
    simp only [List.length_append, List.length_cons, Nat.cast_add, Nat.cast_one]
    omega
  simp only [hb, and_self, if_true, Int.toNat_natCast]
  rw [getD_append_cons]

theorem reverseLoop_spec (A : CString) :
    ∀ (W X R : CharBuffer) (rest : CString) (len : Int), X.length = A.length →
      len = (A.length : Int) + (W.length : Int) - 1 →
      reverseLoop (A ++ rest) len A.length (A.length : Int) (W ++ (X ++ R))
        = some (W ++ (A.reverse.map some ++ R)) := by
  induction A using List.reverseRecOn with
  | nil =>
    intro W X R rest len hX _
    have : X = [] := List.length_eq_zero.mp hX
    simp [reverseLoop, this]
  | append_singleton A a ih =>
    intro W X R rest len hX hlen
    cases X with
    | nil => simp at hX
    | cons x X =>
      have hX1 : X.length = A.length := by simpa using hX
      have e1 : (A ++ [a]).length = A.length + 1 := by simp
      have e2 : ((A.length + 1 : Nat) : Int) - 1 = (A.length : Int) := by
        push_cast; omega
      have e3 : A ++ [a] ++ rest = A ++ a :: rest := by simp
      have e4 : len - (A.length : Int) = (W.length : Int) := by
        rw [hlen, e1]; push_cast; omega
      rw [e1, reverseLoop, e2, e3, readAt_at A rest a rfl]
      have hb : 0 ≤ len - (A.length : Int) ∧
          len - (A.length : Int) < ((W ++ (x :: X ++ R)).length : Int) := by
        rw [e4]
        simp only [List.length_append, List.length_cons, Nat.cast_add, Nat.cast_one]
        omega
      simp only [hb, and_self, if_true]
      rw [e4, Int.toNat_natCast]
      have hs : (W ++ (x :: X ++ R)).set W.length (some a) = (W ++ [some a]) ++ (X ++ R) := by
        rw [List.set_append_right _ _ (le_refl _)]
        simp
      rw [hs, ih (W ++ [some a]) X R (a :: rest) len hX1
        (by rw [hlen, e1]; simp only [List.length_append, List.length_singleton]; push_cast; omega)]
      simp

theorem reverse_buffer (T : CString) (hT : IsText T) :
    reverse T = some (T.reverse.map some ++ [some 0]) := by
  unfold reverse nullTerminatedEmptyStringOfLength
  simp only [stringLength_of_isText T hT, Nat.cast_nonneg, if_true, Int.toNat_natCast,
    Option.some_bind]
  have := reverseLoop_spec T [] (List.replicate T.length none) [some 0] [] ((T.length : Int) - 1)
    (by simp) (by simp)
  simpa using this

theorem isText_reverse {T : CString} (hT : IsText T) : IsText T.reverse :=
  fun c hc => hT c (List.mem_reverse.mp hc)

end StringHelpers

namespace String

open StringHelpers

theorem reverse_text (T : CString) (hT : IsText T) : reverse T = some T.reverse := by
  unfold reverse moveFromString
  rw [reverse_buffer T hT]
  exact readBuffer_text T.reverse [] (isText_reverse hT)

theorem reversed_text (T : CString) (hT : IsText T) : reversed T = some T.reverse := by
  unfold reversed
  rw [copyFrom_text T hT]
  simp only [Option.some_bind]
  rw [reverse_text T hT]
  simp only [Option.some_bind]
  exact copyFrom_text T.reverse (isText_reverse hT)

/-- C12: for a text `T` of length `L`, `reverse` fills its buffer with a text of length `L`
whose character at each position `k < L` is the character of `T` at position `L - 1 - k`,
followed by the terminator; the empty text stays empty. -/
theorem reverse_mirrors (T : CString) (hT : IsText T) :
    ∃ r : CString, StringHelpers.reverse T = some (r.map some ++ [some 0]) ∧
      reverse T = some r ∧ IsText r ∧ length r = length T ∧
      (∀ k : Nat, k < T.length → r[k]? = T[T.length - 1 - k]?) ∧ (T = [] → r = []) := by
  refine ⟨T.reverse, reverse_buffer T hT, reverse_text T hT, isText_reverse hT, ?_, ?_, ?_⟩
  · unfold length
    rw [stringLength_of_isText _ (isText_reverse hT), stringLength_of_isText _ hT]
    simp
  · intro k hk
    exact List.getElem?_reverse hk
  · intro h
    simp [h]

/-- C12 at `"hello"`: the reversed text is `"olleh"`. -/
theorem reverse_mirrors_witness :
    ∃ r : CString, StringHelpers.reverse (cstr "hello") = some (r.map some ++ [some 0]) ∧
      reverse (cstr "hello") = some r ∧ IsText r ∧ length r = length (cstr "hello") ∧
      (∀ k : Nat, k < (cstr "hello").length →
        r[k]? = (cstr "hello")[(cstr "hello").length - 1 - k]?) ∧
      (cstr "hello" = [] → r = []) :=
  reverse_mirrors (cstr "hello") (by decide)

/-- C13: `reversed` returns the reversed copy of a text `T` and, applied to that result,
returns a text that `equals` finds equal to `T` and that is `T`; the reversal runs on the
copy `String (*this)`, the text of the receiver is only read. -/
theorem reversed_reversed (T : CString) (hT : IsText T) :
    ∃ r r2 : CString, copyFrom T = some T ∧ reversed T = some r ∧ reversed r = some r2 ∧
      equals r2 T = true ∧ r2 = T := by
  refine ⟨T.reverse, T, copyFrom_text T hT, reversed_text T hT, ?_, ?_, rfl⟩
  · have := reversed_text T.reverse (isText_reverse hT)
    rwa [List.reverse_reverse] at this
  · unfold equals
    rw [compare_refl T hT]
    rfl

/-- C13 at `"hello"`: reversed twice it is `"hello"` again. -/
theorem reversed_reversed_witness :
    ∃ r r2 : CString, copyFrom (cstr "hello") = some (cstr "hello") ∧
      reversed (cstr "hello") = some r ∧ reversed r = some r2 ∧
      equals r2 (cstr "hello") = true ∧ r2 = cstr "hello" :=
  reversed_reversed (cstr "hello") (by decide)

end String

end hosa

namespace hosa

namespace String

open StringHelpers

/-! ## Indexing from the back, clipping -/

/-- C14 fails on the code.  In `"abc"` the index -1 reads `text[3 + 1 - 1]`, the terminator,
where the last character `'c'` is expected, and the indices -2 and -3 read `text[4]` and
`text[5]`, behind the terminator, where `'b'` and `'a'` are expected; the indices 0, 1, 2
give the characters. -/
theorem get_negative_index_reads_from_terminator :
    get (cstr "abc") (-1) = some 0 ∧ get (cstr "abc") (-2) = none ∧
      get (cstr "abc") (-3) = none ∧ get (cstr "abc") 0 = some 97 ∧
      get (cstr "abc") 1 = some 98 ∧ get (cstr "abc") 2 = some 99 := by
  refine ⟨by decide, by decide, by decide, by decide, by decide, by decide⟩

/-- C15 fails on the code.  For the empty text the first scan stops at the terminator and
the second scan, which tests `*(end - 1)`, reads `string[-1]`, the character before the
buffer; for the text of three spaces it passes the three spaces backwards and reads
`string[-1]` as well.  No result is defined for either; `"  padded  "` becomes `"padded"`. -/
theorem clipOffWhiteSpace_reads_before_buffer :
    clipBeginLoop (cstr "") 1 0 = some 0 ∧ readAt (cstr "") (0 - 1) = none ∧
      clipEndLoop (cstr "") 2 0 = none ∧ clipOffWhiteSpace (cstr "") = none ∧
      clipBeginLoop (cstr "   ") 4 0 = some 3 ∧ clipEndLoop (cstr "   ") 5 3 = none ∧
      clipOffWhiteSpace (cstr "   ") = none ∧
      clipOffWhiteSpace (cstr "  padded  ") = some (cstr "padded") := by
  refine ⟨by decide, by decide, by decide, by decide, by decide, by decide, by decide,
    by decide⟩

/-- C16 fails on the code.  With trimming requested, `" a "` split at `","` (which does not
occur) is returned whole and unclipped, `{*this}`, where the clipped piece `"a"` is
expected; and `"a,,b"` split at `","` has no defined result, its empty middle piece being
clipped by a scan that reads before the buffer, where without trimming the pieces are
`"a"`, `""`, `"b"`. -/
theorem split_clip_misses_pieces :
    split 0 (cstr " a ") (cstr ",") true
        = some (.done ⟨1, 8, ⟨some [some (cstr " a "), none, none, none, none, none, none,
            none]⟩⟩) ∧
      clipOffWhiteSpace (cstr " a ") = some (cstr "a") ∧
      split 5 (cstr "a,,b") (cstr ",") true = some .undefined ∧
      split 5 (cstr "a,,b") (cstr ",") false
        = some (.done ⟨3, 8, ⟨some [some (cstr "a"), some [], some (cstr "b"), none, none,
            none, none, none]⟩⟩) ∧
      clipOffWhiteSpace [] = none := by
  refine ⟨by decide, by decide, by decide, by decide, by decide⟩

end String

end hosa

namespace hosa

namespace StringHelpers

/-! ## Searching for a text -/

theorem compareNumCharsLoop_of_take (k : Nat) :
    ∀ (s1 s2 : CString), s1.take k = s2.take k → compareNumCharsLoop k s1 s2 = 0 := by
  induction k with
  | zero => intro s1 s2 _; rfl
  | succ k ih =>
    intro s1 s2 h
    cases s1 with
    | nil =>
      cases s2 with
      | nil => simp [compareNumCharsLoop, charAt, CharHelpers.compare, ih [] [] rfl]
      | cons b s2 => simp at h
    | cons a s1 =>
      cases s2 with
      | nil => simp at h
      | cons b s2 =>
        simp only [List.take_succ_cons, List.cons.injEq] at h
        simp only [compareNumCharsLoop, charAt, List.getD_cons_zero, List.drop_one,
          List.tail_cons, h.1, CharHelpers.compare, if_true, ne_eq, not_true_eq_false, if_false]
        exact ih s1 s2 h.2

theorem compareNumChars_iff (T a : CString) (i : Nat) (ha : IsText a)
    (hle : i + a.length ≤ T.length) :
    compareNumChars (T.drop i) a (stringLength a) = 0 ↔ OccursAt T a i := by
  unfold OccursAt compareNumChars
  rw [stringLength_of_isText a ha, Int.toNat_natCast]
  constructor
  · intro h
    have := String.compareNumCharsLoop_eq a.length (T.drop i) a h (by simp; omega) (le_refl _)
    exact ⟨hle, by simpa using this⟩
  · intro h
    exact compareNumCharsLoop_of_take a.length (T.drop i) a (by simpa using h.2)

theorem indexOfSubStringLoop_spec (source toFind : CString) (len : Int) (k : Nat) :
    ∀ i : Nat,
      (indexOfSubStringLoop source toFind len k (i : Int) = -1 ∧
        ∀ j : Nat, i ≤ j → j < i + k → compareNumChars (source.drop j) toFind len ≠ 0) ∨
      (∃ j : Nat, i ≤ j ∧ j < i + k ∧
        indexOfSubStringLoop source toFind len k (i : Int) = (j : Int) ∧
        compareNumChars (source.drop j) toFind len = 0 ∧
        ∀ j2 : Nat, i ≤ j2 → j2 < j → compareNumChars (source.drop j2) toFind len ≠ 0) := by
  induction k with
  | zero =>
    intro i
    exact Or.inl ⟨rfl, fun j h1 h2 => by omega⟩
  | succ k ih =>
    intro i
    unfold indexOfSubStringLoop
    rw [Int.toNat_natCast]
    by_cases h : compareNumChars (source.drop i) toFind len = 0
    · simp only [h, if_true]
      exact Or.inr ⟨i, le_refl _, by omega, rfl, h, fun j2 h1 h2 => by omega⟩
    · simp only [h, if_false]
      have e : (i : Int) + 1 = ((i + 1 : Nat) : Int) := by push_cast; rfl
      rw [e]
      rcases ih (i + 1) with ⟨h1, h2⟩ | ⟨j, h1, h2, h3, h4, h5⟩
      · refine Or.inl ⟨h1, fun j hj1 hj2 => ?_⟩
        by_cases hji : j = i
        · subst hji; exact h
        · exact h2 j (by omega) (by omega)
      · refine Or.inr ⟨j, by omega, by omega, h3, h4, fun j2 hj1 hj2 => ?_⟩
        by_cases hji : j2 = i
        · subst hji; exact h
        · exact h5 j2 (by omega) hj2

theorem indexOfSubString_spec (T a : CString) (hT : IsText T) (ha : IsText a) :
    (indexOfSubString T a = -1 ∧ ∀ j : Nat, ¬ OccursAt T a j) ∨
    (∃ j : Nat, indexOfSubString T a = (j : Int) ∧ OccursAt T a j ∧
      ∀ j2 : Nat, j2 < j → ¬ OccursAt T a j2) := by
  unfold indexOfSubString
  simp only [stringLength_of_isText T hT]
  have hk : ∀ j : Nat, j < ((T.length : Int) - stringLength a + 1).toNat ↔
      j + a.length ≤ T.length := by
    intro j
    rw [stringLength_of_isText a ha]
    omega
  rcases indexOfSubStringLoop_spec T a (stringLength a)
    ((T.length : Int) - stringLength a + 1).toNat 0 with ⟨h1, h2⟩ | ⟨j, _, h2, h3, h4, h5⟩
  · refine Or.inl ⟨by simpa using h1, fun j hj => ?_⟩
    have hle := hj.1
    exact h2 j (Nat.zero_le _) (by rw [Nat.zero_add]; exact (hk j).mpr hle)
      ((compareNumChars_iff T a j ha hle).mpr hj)
  · rw [Nat.zero_add] at h2
    have hle := (hk j).mp h2
    refine Or.inr ⟨j, by simpa using h3, (compareNumChars_iff T a j ha hle).mp h4,
      fun j2 hj2 hocc => ?_⟩
    exact h5 j2 (Nat.zero_le _) hj2 ((compareNumChars_iff T a j2 ha hocc.1).mpr hocc)

theorem indexOfSubString_of_first (T a : CString) (hT : IsText T) (ha : IsText a) (i : Nat)
    (hocc : OccursAt T a i) (hleast : ∀ j : Nat, j < i → ¬ OccursAt T a j) :
    indexOfSubString T a = (i : Int) := by
  rcases indexOfSubString_spec T a hT ha with ⟨_, h2⟩ | ⟨j, h1, h2, h3⟩
  · exact absurd hocc (h2 i)
  · have : j = i := by
      rcases Nat.lt_trichotomy j i with h | h | h
      · exact absurd h2 (hleast j h)
      · exact h
      · exact absurd hocc (h3 i h)
    rw [h1, this]

theorem stringContainsLoop_spec (toFind : CString) (len : Int) (k : Nat) :
    ∀ s : CString, stringContainsLoop toFind len k s = true ↔
      ∃ j : Nat, j < k ∧ compareNumChars (s.drop j) toFind len = 0 := by
  induction k with
  | zero => intro s; simp [stringContainsLoop]
  | succ k ih =>
    intro s
    unfold stringContainsLoop
    by_cases h : compareNumChars s toFind len = 0
    · simp only [h, if_true, true_iff]
      exact ⟨0, by omega, by simpa using h⟩
    · simp only [h, if_false]
      rw [ih]
      constructor
      · rintro ⟨j, hj, hc⟩
        exact ⟨j + 1, by omega, by rw [List.drop_drop] at hc; rwa [Nat.add_comm] ⟩
      · rintro ⟨j, hj, hc⟩
        cases j with
        | zero => exact absurd (by simpa using hc) h
        | succ j => exact ⟨j, by omega, by rw [List.drop_drop]; rwa [Nat.add_comm] at hc⟩

theorem stringContains_iff (T a : CString) (hT : IsText T) (ha : IsText a) :
    stringContains T a = true ↔ ∃ j : Nat, OccursAt T a j := by
  unfold stringContains
  simp only [stringLength_of_isText T hT]
  rw [stringContainsLoop_spec]
  have hk : ∀ j : Nat, j < ((T.length : Int) - stringLength a + 1).toNat ↔
      j + a.length ≤ T.length := by
    intro j
    rw [stringLength_of_isText a ha]
    omega
  constructor
  · rintro ⟨j, hj, hc⟩
    exact ⟨j, (compareNumChars_iff T a j ha ((hk j).mp hj)).mp hc⟩
  · rintro ⟨j, hj⟩
    exact ⟨j, (hk j).mpr hj.1, (compareNumChars_iff T a j ha hj.1).mpr hj⟩

theorem occursAt_split (T a : CString) (i : Nat) (h : OccursAt T a i) :
    T = T.take i ++ (a ++ T.drop (i + a.length)) := by
  have e1 : T = T.take i ++ T.drop i := (List.take_append_drop i T).symm
  have e2 : T.drop i = (T.drop i).take a.length ++ (T.drop i).drop a.length :=
    (List.take_append_drop _ _).symm
  rw [h.2, List.drop_drop] at e2
  rw [← e2]
  exact e1

theorem occursAt_iff_occurs (T a : CString) : (∃ i : Nat, OccursAt T a i) ↔ a <:+: T := by
  constructor
  · rintro ⟨i, h⟩
    exact ⟨T.take i, T.drop (i + a.length), by
      rw [List.append_assoc]; exact (occursAt_split T a i h).symm⟩
  · rintro ⟨s, t, h⟩
    refine ⟨s.length, ?_, ?_⟩
    · rw [← h]; simp
    · rw [← h, List.append_assoc, List.drop_left, List.take_left]

/-- C20: `indexOfSubString (source, toFind)` returns the least index at which `toFind`
occurs in `source`, an index between 0 and `len (source) - len (toFind)`, and returns -1
exactly when `toFind` does not occur in `source`, which is the case when `toFind` is longer
than `source`. -/
theorem indexOfSubString_least (source toFind : CString) (hs : IsText source)
    (hf : IsText toFind) :
    (∀ i : Nat, OccursAt source toFind i → (∀ j : Nat, j < i → ¬ OccursAt source toFind j) →
      indexOfSubString source toFind = (i : Int) ∧
        (i : Int) ≤ stringLength source - stringLength toFind) ∧
    (toFind <:+: source → ∃ i : Nat, indexOfSubString source toFind = (i : Int) ∧
      OccursAt source toFind i ∧ ∀ j : Nat, j < i → ¬ OccursAt source toFind j) ∧
    (indexOfSubString source toFind = -1 ↔ ¬ toFind <:+: source) ∧
    (source.length < toFind.length → indexOfSubString source toFind = -1) := by
  have hspec := indexOfSubString_spec source toFind hs hf
  refine ⟨?_, ?_, ?_, ?_⟩
  · intro i hocc hleast
    refine ⟨indexOfSubString_of_first source toFind hs hf i hocc hleast, ?_⟩
    rw [stringLength_of_isText _ hs, stringLength_of_isText _ hf]
    have := hocc.1
    omega
  · intro hin
    rcases hspec with ⟨_, h2⟩ | h
    · obtain ⟨i, hi⟩ := (occursAt_iff_occurs source toFind).mpr hin
      exact absurd hi (h2 i)
    · exact h
  · rw [← occursAt_iff_occurs]
    rcases hspec with ⟨h1, h2⟩ | ⟨j, h1, h2, _⟩
    · exact ⟨fun _ => fun ⟨i, hi⟩ => h2 i hi, fun _ => h1⟩
    · constructor
      · intro h
        rw [h1] at h
        omega
      · intro h
        exact absurd ⟨j, h2⟩ h
  · intro hlt
    rcases hspec with ⟨h1, _⟩ | ⟨j, _, h2, _⟩
    · exact h1
    · have := h2.1
      omega

/-- C20 at `"1234567890"`: the index of `"2345"` is 1, and `"5432"`, which does not occur,
gives -1. -/
theorem indexOfSubString_least_witness :
    (indexOfSubString (cstr "1234567890") (cstr "2345") = ((1 : Nat) : Int) ∧
      ((1 : Nat) : Int) ≤ stringLength (cstr "1234567890") - stringLength (cstr "2345")) ∧
    (indexOfSubString (cstr "1234567890") (cstr "5432") = -1 ↔
      ¬ cstr "5432" <:+: cstr "1234567890") :=
  ⟨(indexOfSubString_least (cstr "1234567890") (cstr "2345") (by decide) (by decide)).1 1
      (by decide) (by decide),
    (indexOfSubString_least (cstr "1234567890") (cstr "5432") (by decide) (by decide)).2.2.1⟩

end StringHelpers

end hosa

namespace hosa

namespace String

open StringHelpers

/-! ## Replacing and removing the first occurrence -/

theorem contains_iff (T a : CString) (hT : IsText T) (ha : IsText a) :
    contains T a = true ↔ a <:+: T := by
  unfold contains
  rw [stringContains_iff T a hT ha, occursAt_iff_occurs]

theorem drop_parts (A a C : CString) (n : Int) (hn : n = (A.length : Int) + (a.length : Int)) :
    (A ++ (a ++ C)).drop n.toNat = C := by
  have e : n.toNat = (A ++ a).length := by
    rw [hn, List.length_append]; omega
  rw [e, ← List.append_assoc, List.drop_left]

theorem replace_buffer (A a C b : CString) (hA : IsText A) (ha : IsText a) (hC : IsText C)
    (hb : IsText b) (hidx : StringHelpers.indexOfSubString (A ++ (a ++ C)) a = (A.length : Int)) :
    StringHelpers.replace (A ++ (a ++ C)) a b = some ((A ++ (b ++ C)).map some ++ [some 0]) := by
  have hT : IsText (A ++ (a ++ C)) := isText_append hA (isText_append ha hC)
  unfold StringHelpers.replace nullTerminatedEmptyStringOfLength
  simp only [stringLength_of_isText _ hT, stringLength_of_isText a ha,
    stringLength_of_isText b hb, hidx]
  have hsz : ((A ++ (a ++ C)).length : Int) - (a.length : Int) + (b.length : Int)
      = ((A.length + (b.length + C.length) : Nat) : Int) := by
    simp only [List.length_append]; push_cast; omega
  rw [hsz]
  simp only [Nat.cast_nonneg, if_true, Int.toNat_natCast, List.replicate_add,
    List.append_assoc, Option.some_bind]
  have m1 := memcpy_at [] (List.replicate A.length none)
    (List.replicate b.length none ++ (List.replicate C.length none ++ [some 0]))
    (A ++ (a ++ C)) A.length 0 (A.length : Int) (by simp) (by simp) (by simp) rfl
  rw [List.take_left] at m1
  simp only [List.nil_append] at m1
  rw [m1]
  simp only [Option.some_bind]
  have m2 := memcpy_at (A.map some) (List.replicate b.length none)
    (List.replicate C.length none ++ [some 0]) b b.length (A.length : Int) (b.length : Int)
    (by simp) (le_refl _) (by simp) rfl
  rw [List.take_length] at m2
  rw [m2]
  simp only [Option.some_bind]
  have m3 := memcpy_at (A.map some ++ b.map some) (List.replicate C.length none) [some 0] C
    C.length ((A.length : Int) + (b.length : Int))
    (((A ++ (a ++ C)).length : Int) - (A.length : Int) - (a.length : Int)) (by simp)
    (le_refl _) (by simp) (by simp only [List.length_append]; push_cast; omega)
  rw [List.take_length, List.append_assoc] at m3
  rw [drop_parts A a C _ rfl, m3]
  simp

theorem remove_buffer (A a C : CString) (hA : IsText A) (ha : IsText a) (hC : IsText C)
    (hidx : StringHelpers.indexOfSubString (A ++ (a ++ C)) a = (A.length : Int)) :
    StringHelpers.remove (A ++ (a ++ C)) a = some ((A ++ C).map some ++ [some 0]) := by
  have hT : IsText (A ++ (a ++ C)) := isText_append hA (isText_append ha hC)
  unfold StringHelpers.remove nullTerminatedEmptyStringOfLength
  simp only [stringLength_of_isText _ hT, stringLength_of_isText a ha, hidx]
  have hsz : ((A ++ (a ++ C)).length : Int) - (a.length : Int)
      = ((A.length + C.length : Nat) : Int) := by
    simp only [List.length_append]; push_cast; omega
  rw [hsz]
  simp only [Nat.cast_nonneg, if_true, Int.toNat_natCast, List.replicate_add,
    List.append_assoc, Option.some_bind]
  have m1 := memcpy_at [] (List.replicate A.length none)
    (List.replicate C.length none ++ [some 0])
    (A ++ (a ++ C)) A.length 0 (A.length : Int) (by simp) (by simp) (by simp) rfl
  rw [List.take_left] at m1
  simp only [List.nil_append] at m1
  rw [m1]
  simp only [Option.some_bind]
  have m3 := memcpy_at (A.map some) (List.replicate C.length none) [some 0] C
    C.length (A.length : Int)
    (((A ++ (a ++ C)).length : Int) - (A.length : Int) - (a.length : Int)) (by simp)
    (le_refl _) (by simp) (by simp only [List.length_append]; push_cast; omega)
  rw [List.take_length] at m3
  rw [drop_parts A a C _ rfl, m3]
  simp

theorem first_occurrence_parts (T a : CString) (hT : IsText T) (ha : IsText a) (i : Nat)
    (hocc : OccursAt T a i) (hleast : ∀ j : Nat, j < i → ¬ OccursAt T a j) :
    T = T.take i ++ (a ++ T.drop (i + a.length)) ∧
      StringHelpers.indexOfSubString (T.take i ++ (a ++ T.drop (i + a.length))) a
        = ((T.take i).length : Int) := by
  have hsplit := occursAt_split T a i hocc
  refine ⟨hsplit, ?_⟩
  rw [← hsplit, indexOfSubString_of_first T a hT ha i hocc hleast, List.length_take]
  have := hocc.1
  rw [Nat.min_eq_left (by omega)]

/-- C17: when `a` does not occur in `T`, `T.replace (a, b)` leaves `T` as it is; otherwise,
with `i` the least index at which `a` occurs, the result is the characters of `T` before
`i`, then `b`, then the characters of `T` from `i + len (a)` on, whatever occurrences of `a`
they hold. -/
theorem replace_first_occurrence (T a b : CString) (hT : IsText T) (ha : IsText a)
    (hb : IsText b) :
    (¬ a <:+: T → replace T a b = some T) ∧
    (∀ i : Nat, OccursAt T a i → (∀ j : Nat, j < i → ¬ OccursAt T a j) →
      replace T a b = some (T.take i ++ b ++ T.drop (i + a.length))) := by
  constructor
  · intro hno
    have hc : contains T a = false := by
      rw [← Bool.not_eq_true, contains_iff T a hT ha]
      exact hno
    unfold replace
    simp [hc]
  · intro i hocc hleast
    have hc : contains T a = true := (contains_iff T a hT ha).mpr
      ((occursAt_iff_occurs T a).mp ⟨i, hocc⟩)
    obtain ⟨hsplit, hidx⟩ := first_occurrence_parts T a hT ha i hocc hleast
    have hbuf := replace_buffer (T.take i) a (T.drop (i + a.length)) b (isText_take hT _) ha
      (isText_drop hT _) hb hidx
    rw [← hsplit] at hbuf
    unfold replace moveFromString
    simp only [hc, if_true, hbuf, Option.some_bind]
    rw [List.append_assoc]
    exact readBuffer_text _ [] (isText_append (isText_take hT _)
      (isText_append hb (isText_drop hT _)))

/-- C17 at `"hello world hello"`: replacing `"hello"`, first found at index 0, by `"bye"`
gives `"bye world hello"`. -/
theorem replace_first_occurrence_witness :
    replace (cstr "hello world hello") (cstr "hello") (cstr "bye")
      = some (cstr "bye world hello") :=
  (replace_first_occurrence (cstr "hello world hello") (cstr "hello") (cstr "bye") (by decide)
    (by decide) (by decide)).2 0 (by decide) (by decide)

/-- C18: when `s` does not occur in `T`, `T.remove (s)` leaves `T` as it is and
`T.without (s)` returns a copy of `T`; otherwise, with `i` the least index at which `s`
occurs, both give the characters of `T` before `i` followed by those from `i + len (s)` on,
a text of length `len (T) - len (s)`. -/
theorem remove_first_occurrence (T s : CString) (hT : IsText T) (hs : IsText s) :
    (¬ s <:+: T → remove T s = some T ∧ without T s = some T) ∧
    (∀ i : Nat, OccursAt T s i → (∀ j : Nat, j < i → ¬ OccursAt T s j) →
      remove T s = some (T.take i ++ T.drop (i + s.length)) ∧
      without T s = some (T.take i ++ T.drop (i + s.length)) ∧
      length (T.take i ++ T.drop (i + s.length)) = length T - length s) := by
  constructor
  · intro hno
    have hc : contains T s = false := by
      rw [← Bool.not_eq_true, contains_iff T s hT hs]
      exact hno
    unfold remove without
    simp [hc, copyFrom_text T hT]
  · intro i hocc hleast
    have hc : contains T s = true := (contains_iff T s hT hs).mpr
      ((occursAt_iff_occurs T s).mp ⟨i, hocc⟩)
    obtain ⟨hsplit, hidx⟩ := first_occurrence_parts T s hT hs i hocc hleast
    have hbuf := remove_buffer (T.take i) s (T.drop (i + s.length)) (isText_take hT _) hs
      (isText_drop hT _) hidx
    rw [← hsplit] at hbuf
    have hr : IsText (T.take i ++ T.drop (i + s.length)) :=
      isText_append (isText_take hT _) (isText_drop hT _)
    refine ⟨?_, ?_, ?_⟩
    · unfold remove moveFromString
      simp only [hc, if_true, hbuf, Option.some_bind]
      exact readBuffer_text _ [] hr
    · unfold without
      simp only [hc, if_true, hbuf, Option.some_bind, readBuffer_text _ [] hr]
      exact copyFrom_text _ hr
    · unfold length
      rw [stringLength_of_isText _ hr, stringLength_of_isText _ hT, stringLength_of_isText _ hs]
      have := hocc.1
      simp only [List.length_append, List.length_take, List.length_drop]
      omega

/-- C18 at `"1234567890"`: removing `"23456789"`, found at index 1, gives `"10"`. -/
theorem remove_first_occurrence_witness :
    remove (cstr "1234567890") (cstr "23456789") = some (cstr "10") ∧
      without (cstr "1234567890") (cstr "23456789") = some (cstr "10") ∧
      length (cstr "10") = length (cstr "1234567890") - length (cstr "23456789") :=
  (remove_first_occurrence (cstr "1234567890") (cstr "23456789") (by decide) (by decide)).2 1
    (by decide) (by decide)

end String

end hosa

namespace hosa

namespace String

open StringHelpers

/-! ## Swapping two texts -/

/-- C19 fails on the code.  In `"three and one"` the texts `"three"` and `"one"` occur first
at the indices 0 and 10, apart from each other.  The third `memcpy` of `swap` copies
`indexTwo - indexOne = 10` characters from `source + 5`, where the 5 characters between the
occurrences are meant; only 9 characters, terminator included, lie in the buffer from there
on, so the copy reads behind the terminator and no result is defined, in either order of the
arguments.  In `"one and three"` the swap gives `"three and one"`; a text that is absent, or
twice the same text, leaves the text unchanged. -/
theorem swap_reads_behind_terminator :
    StringHelpers.indexOfSubString (cstr "three and one") (cstr "three") = 0 ∧
      StringHelpers.indexOfSubString (cstr "three and one") (cstr "one") = 10 ∧
      (((cstr "three and one").drop 5).length : Int) + 1 = 9 ∧
      StringHelpers.swap (cstr "three and one") (cstr "three") (cstr "one") = none ∧
      swap (cstr "three and one") (cstr "three") (cstr "one") = none ∧
      swap (cstr "three and one") (cstr "one") (cstr "three") = none ∧
      swap (cstr "one and three") (cstr "one") (cstr "three") = some (cstr "three and one") ∧
      swap (cstr "abc") (cstr "x") (cstr "b") = some (cstr "abc") ∧
      swap (cstr "abc") (cstr "b") (cstr "b") = some (cstr "abc") := by
  refine ⟨by decide, by decide, by decide, by decide, by decide, by decide, by decide,
    by decide, by decide⟩

end String

end hosa

namespace hosa

namespace String

open StringHelpers

/-! ## Searching from an index, substrings, joining, splitting without an occurrence -/

/-- C21 fails on the code.  In `"abcabc"` the first occurrence of `"c"` at or after index 3
begins at index 5, and that of `"b"` at or after index 1 begins at index 1; the method,
searching in `text + startFrom`, returns the offsets 2 and 0 from `startFrom`, not the
indices within the text.  From index 0 the index is the one within the text, and an absent
text gives -1. -/
theorem indexOfSubString_counts_from_startFrom :
    indexOfSubString (cstr "abcabc") (cstr "c") 3 = some 2 ∧
      OccursAt (cstr "abcabc") (cstr "c") 5 ∧ ¬ OccursAt (cstr "abcabc") (cstr "c") 3 ∧
      ¬ OccursAt (cstr "abcabc") (cstr "c") 4 ∧
      indexOfSubString (cstr "abcabc") (cstr "b") 1 = some 0 ∧
      OccursAt (cstr "abcabc") (cstr "b") 1 ∧
      indexOfSubString (cstr "abcabc") (cstr "c") 0 = some 2 ∧
      indexOfSubString (cstr "abcabc") (cstr "x") 3 = some (-1) := by
  refine ⟨by decide, by decide, by decide, by decide, by decide, by decide, by decide,
    by decide⟩

/-- C22: for a text `T` of length `L`, `0 ≤ startIndex ≤ L` and `numChars ≥ 0`,
`T.substring (startIndex, numChars)` returns the characters of `T` at the positions from
`startIndex` up to, not including, `min (startIndex + numChars, L)`: a request that reaches
beyond the end is cut at the end.  The sum `startIndex + numChars`, which the method
computes, is assumed to fit `int`. -/
theorem substring_clamps (T : CString) (startIndex numChars : Int) (hT : IsText T)
    (h0 : 0 ≤ startIndex) (hL : startIndex ≤ length T) (hn : 0 ≤ numChars)
    (_hsum : startIndex + numChars ≤ 2147483647) :
    ∃ r : CString, substring T startIndex numChars false = some r ∧
      r = (T.take (min (startIndex + numChars) (length T)).toNat).drop startIndex.toNat ∧
      length r = min (startIndex + numChars) (length T) - startIndex ∧
      ∀ j : Nat, (j : Int) < min (startIndex + numChars) (length T) - startIndex →
        r[j]? = T[startIndex.toNat + j]? := by
  have hlen : length T = (T.length : Int) := stringLength_of_isText T hT
  rw [hlen] at hL ⊢
  lift startIndex to ℕ using h0 with s
  lift numChars to ℕ using hn with n
  have hs : s ≤ T.length := by omega
  have hmin : (min ((s : Int) + (n : Int)) (T.length : Int)).toNat = min (s + n) T.length := by
    omega
  have hr : (T.drop s).take n = (T.take (min (s + n) T.length)).drop s := by
    rw [List.drop_take]
    by_cases hle : s + n ≤ T.length
    · rw [Nat.min_eq_left hle, Nat.add_sub_cancel_left]
    · rw [Nat.min_eq_right (by omega), List.take_of_length_le (by simp; omega),
        List.take_of_length_le (by simp)]
  refine ⟨(T.drop s).take n, substring_text T hT s n hs, ?_, ?_, ?_⟩
  · rw [hmin, Int.toNat_natCast]
    exact hr
  · unfold length
    rw [stringLength_of_isText _ (isText_take (isText_drop hT _) _)]
    simp only [List.length_take, List.length_drop]
    omega
  · intro j hj
    have hjn : j < n := by omega
    rw [Int.toNat_natCast, List.getElem?_take_of_lt hjn, List.getElem?_drop]

/-- C22 at `"hello"`: `substring (2, 100)` is cut at the end and gives `"llo"`. -/
theorem substring_clamps_witness :
    ∃ r : CString, substring (cstr "hello") 2 100 false = some r ∧
      r = ((cstr "hello").take (min ((2 : Int) + 100) (length (cstr "hello"))).toNat).drop
        (2 : Int).toNat ∧
      length r = min ((2 : Int) + 100) (length (cstr "hello")) - 2 ∧
      ∀ j : Nat, (j : Int) < min ((2 : Int) + 100) (length (cstr "hello")) - 2 →
        r[j]? = (cstr "hello")[(2 : Int).toNat + j]? :=
  substring_clamps (cstr "hello") 2 100 (by decide) (by decide) (by decide) (by decide)
    (by decide)

theorem joined_eq_intercalate (P : List CString) (D : CString) :
    joined P D = D.intercalate P := by
  induction P with
  | nil => rfl
  | cons p P ih =>
    cases P with
    | nil => simp [joined, List.intercalate]
    | cons q P =>
      rw [joined, ih]
      simp [List.intercalate, List.intersperse]

/-- C23: for an array holding the texts `p0 .. p(k-1)` and a separator `s`, `joinFromArray`
completes and returns `p0 ++ s ++ p1 ++ s ++ ... ++ p(k-1)`, the separator between
consecutive pieces only; the empty array gives the empty text and an array of one piece
gives that piece. -/
theorem joinFromArray_intercalates (arr : Array CString) (P : List CString) (D : CString)
    (h : arr.Holds P) (hP : ∀ p ∈ P, IsText p) (hD : IsText D) :
    joinFromArray arr D = .done (joined P D) ∧ joined P D = D.intercalate P ∧
      (P = [] → joined P D = []) ∧ (∀ p, P = [p] → joined P D = p) ∧
      (∀ p q R, P = p :: q :: R → joined P D = p ++ (D ++ joined (q :: R) D)) := by
  refine ⟨joinFromArray_holds arr P D h hP hD, joined_eq_intercalate P D, ?_, ?_, ?_⟩
  · intro e; rw [e]; rfl
  · intro p e; rw [e]; rfl
  · intro p q R e; rw [e]; rfl

theorem holds_one (T : CString) :
    ∃ arr : Array CString, Array.ofInitializerList elemTraits [T] = .done arr ∧
      arr.Holds [T] := by
  obtain ⟨arr, hadd, hholds, _⟩ := Array.add_holds elemTraits Array.empty [] T holds_empty
    (by intro _; simp) (fun _ => Or.inr rfl)
  exact ⟨arr, by
    simp only [Array.ofInitializerList, List.foldl_cons, List.foldl_nil, Outcome.bind, hadd],
    by simpa using hholds⟩

/-- C23 at the pieces `"a"`, `"b"`, `"c"` joined with `", "`: the result is `"a, b, c"`. -/
theorem joinFromArray_intercalates_witness :
    joinFromArray ⟨3, 8, ⟨some [some (cstr "a"), some (cstr "b"), some (cstr "c"), none, none,
        none, none, none]⟩⟩ (cstr ", ") = .done (cstr "a, b, c") :=
  (joinFromArray_intercalates
    ⟨3, 8, ⟨some [some (cstr "a"), some (cstr "b"), some (cstr "c"), none, none, none, none,
      none]⟩⟩ [cstr "a", cstr "b", cstr "c"] (cstr ", ")
    ⟨rfl, [none, none, none, none, none], rfl, rfl⟩ (by decide) (by decide)).1

/-- C24: when the separator `D` does not occur in the text `T`, `T.split (D, flag)` returns
for either value of the flag, without entering its loop, an array with exactly one element,
the text `T`. -/
theorem split_without_occurrence (T D : CString) (fuel : Nat) (clip : Bool) (hT : IsText T)
    (hD : IsText D) (hno : ¬ D <:+: T) :
    ∃ arr : Array CString, split fuel T D clip = some (.done arr) ∧ arr.Holds [T] ∧
      arr.getNumItems = 1 ∧ Array.get arr 0 = .done T := by
  have hc : contains T D = false := by
    rw [← Bool.not_eq_true, contains_iff T D hT hD]
    exact hno
  obtain ⟨arr, hrun, hholds⟩ := holds_one T
  refine ⟨arr, ?_, hholds, hholds.1, ?_⟩
  · unfold split
    simp only [hc, Bool.false_eq_true, not_false_eq_true, if_true, hrun]
  · exact get_holds arr [] [] T hholds

/-- C24 at `" a b "` split at `","`, trimming requested: the one piece is `" a b "`. -/
theorem split_without_occurrence_witness :
    ∃ arr : Array CString, split 0 (cstr " a b ") (cstr ",") true = some (.done arr) ∧
      arr.Holds [cstr " a b "] ∧ arr.getNumItems = 1 ∧
      Array.get arr 0 = .done (cstr " a b ") :=
  split_without_occurrence (cstr " a b ") (cstr ",") 0 true (by decide) (by decide)
    (by decide)

end String

end hosa

namespace hosa

namespace CharHelpers

/-! ## Case conversion of a character -/

theorem isAlpha_iff (c : Int) :
    isAlpha c = true ↔ (65 ≤ c ∧ c ≤ 90) ∨ (97 ≤ c ∧ c ≤ 122) := by
  unfold isAlpha
  simp only [Bool.or_eq_true, Bool.and_eq_true, decide_eq_true_eq]
  unfold CChar
  omega

theorem toUpperCase_eq (c : Int) :
    toUpperCase c = if 97 ≤ c ∧ c ≤ 122 then c - 32 else c := by
  by_cases ha : isAlpha c = true
  · rcases (isAlpha_iff c).mp ha with ⟨h1, h2⟩ | ⟨h1, h2⟩ <;> interval_cases c <;> decide
  · have hr : ¬ (97 ≤ c ∧ c ≤ 122) := fun h => ha ((isAlpha_iff c).mpr (Or.inr h))
    simp only [toUpperCase, toggleCase, ha, Bool.false_eq_true, if_false, ite_self, hr]

theorem toLowerCase_eq (c : Int) :
    toLowerCase c = if 65 ≤ c ∧ c ≤ 90 then c + 32 else c := by
  by_cases ha : isAlpha c = true
  · rcases (isAlpha_iff c).mp ha with ⟨h1, h2⟩ | ⟨h1, h2⟩ <;> interval_cases c <;> decide
  · have hr : ¬ (65 ≤ c ∧ c ≤ 90) := fun h => ha ((isAlpha_iff c).mpr (Or.inl h))
    simp only [toLowerCase, toggleCase, ha, Bool.false_eq_true, if_false, ite_self, hr]

theorem toUpperCase_ne_zero (c : Int) (h : c ≠ 0) : toUpperCase c ≠ 0 := by
  rw [toUpperCase_eq]
  unfold CChar
  split_ifs <;> omega

theorem toLowerCase_ne_zero (c : Int) (h : c ≠ 0) : toLowerCase c ≠ 0 := by
  rw [toLowerCase_eq]
  unfold CChar
  split_ifs <;> omega

theorem toLowerCase_zero : toLowerCase 0 = 0 := by
  rw [toLowerCase_eq]
  simp

theorem toUpperCase_idem (c : Int) : toUpperCase (toUpperCase c) = toUpperCase c := by
  rw [toUpperCase_eq (toUpperCase c), toUpperCase_eq c]
  unfold CChar
  split_ifs <;> omega

theorem toLowerCase_eq_iff (x y : Int) :
    toLowerCase x = toLowerCase y ↔
      x = y ∨ (65 ≤ x ∧ x ≤ 90 ∧ y = x + 32) ∨ (65 ≤ y ∧ y ≤ 90 ∧ x = y + 32) := by
  rw [toLowerCase_eq x, toLowerCase_eq y]
  unfold CChar
  split_ifs <;> omega

end CharHelpers

namespace StringHelpers

/-! ## Case conversion of a text -/

theorem isText_map {f : CChar → CChar} (hf : ∀ c, c ≠ 0 → f c ≠ 0) {T : CString}
    (hT : IsText T) : IsText (T.map f) := by
  intro c hc
  obtain ⟨d, hd, rfl⟩ := List.mem_map.mp hc
  exact hf d (hT d hd)

theorem convertInPlaceLoop_spec (f : CChar → CChar) (hf : ∀ c, c ≠ 0 → f c ≠ 0)
    (B : CString) :
    ∀ A : CString, IsText A → IsText B →
      convertInPlaceLoop f B.length (A.length : Int) (A ++ B) = A ++ B.map f := by
  induction B with
  | nil => intro A _ _; simp [convertInPlaceLoop]
  | cons b B ih =>
    intro A hA hB
    have hb : b ≠ 0 := hB b (by simp)
    have hB1 : IsText B := fun d hd => hB d (by simp [hd])
    have hlt : (A.length : Int) < stringLength (A ++ b :: B) := by
      rw [stringLength_of_isText _ (isText_append hA hB)]
      simp only [List.length_append, List.length_cons]
      push_cast
      omega
    have hA1 : IsText (A ++ [f b]) := isText_append hA (by
      intro d hd
      rw [List.mem_singleton.mp hd]
      exact hf b hb)
    have hs : (A ++ b :: B).set A.length (f b) = (A ++ [f b]) ++ B := by
      rw [List.set_append_right _ _ (le_refl _)]
      simp
    have e : (A.length : Int) + 1 = ((A ++ [f b]).length : Int) := by simp
    simp only [List.length_cons, convertInPlaceLoop, hlt, if_true, Int.toNat_natCast, charAt,
      getD_append_cons, hs]
    rw [e, ih (A ++ [f b]) hA1 hB1]
    simp

theorem convertInPlace_text (f : CChar → CChar) (hf : ∀ c, c ≠ 0 → f c ≠ 0) (T : CString)
    (hT : IsText T) : convertInPlaceLoop f T.length 0 T = T.map f := by
  have := convertInPlaceLoop_spec f hf T [] (by intro c hc; simp at hc) hT
  simpa using this

theorem convertCopyLoop_spec (f : CChar → CChar) (A : CString) :
    ∀ (W : CharBuffer) (rest : CString),
      convertCopyLoop f (A ++ rest) A.length (A.length : Int)
          (List.replicate A.length none ++ W)
        = some ((A.map f).map some ++ W) := by
  induction A using List.reverseRecOn with
  | nil => intro W rest; simp [convertCopyLoop]
  | append_singleton A a ih =>
    intro W rest
    have e1 : (A ++ [a]).length = A.length + 1 := by simp
    have e2 : ((A.length + 1 : Nat) : Int) - 1 = (A.length : Int) := by push_cast; omega
    have e3 : A ++ [a] ++ rest = A ++ a :: rest := by simp
    rw [e1, convertCopyLoop, e2, e3, readAt_at A rest a rfl]
    have hb : 0 ≤ (A.length : Int) ∧
        (A.length : Int) < ((List.replicate (A.length + 1) none ++ W : CharBuffer).length : Int) := by
      simp only [List.length_append, List.length_replicate]
      push_cast
      omega
    simp only [hb, and_self, if_true, Int.toNat_natCast]
    have hs : (List.replicate (A.length + 1) none ++ W : CharBuffer).set A.length (some (f a))
        = List.replicate A.length none ++ (some (f a) :: W) := by
      rw [List.replicate_succ', List.append_assoc]
      rw [List.set_append_right _ _ (by simp)]
      simp
    rw [hs, ih (some (f a) :: W) (a :: rest)]
    simp

theorem convertCopy_buffer (f : CChar → CChar) (T : CString) (hT : IsText T) :
    (nullTerminatedEmptyStringOfLength (stringLength T)).bind
        (fun temp => convertCopyLoop f T (stringLength T).toNat (stringLength T) temp)
      = some ((T.map f).map some ++ [some 0]) := by
  unfold nullTerminatedEmptyStringOfLength
  simp only [stringLength_of_isText T hT, Nat.cast_nonneg, if_true, Int.toNat_natCast,
    Option.some_bind]
  have := convertCopyLoop_spec f T [some 0] []
  simpa using this

theorem fullStringCompareIgnoreCaseLoop_eq (len1 len2 : Int) (k : Nat) :
    ∀ s1 s2 : CString,
      fullStringCompareIgnoreCaseLoop len1 len2 k s1 s2
        = fullStringCompareLoop len1 len2 k (s1.map CharHelpers.toLowerCase)
            (s2.map CharHelpers.toLowerCase) := by
  have hc : ∀ s : CString,
      charAt (s.map CharHelpers.toLowerCase) 0 = CharHelpers.toLowerCase (charAt s 0) := by
    intro s
    cases s with
    | nil => simp [charAt, CharHelpers.toLowerCase_zero]
    | cons c s => simp [charAt]
  induction k with
  | zero => intro s1 s2; rfl
  | succ k ih =>
    intro s1 s2
    simp only [fullStringCompareIgnoreCaseLoop, fullStringCompareLoop, hc,
      CharHelpers.compareIgnoreCase, ih, List.map_drop]

end StringHelpers

namespace String

open StringHelpers

theorem toUpperCase_text (T : CString) (hT : IsText T) :
    toUpperCase T = T.map CharHelpers.toUpperCase :=
  convertInPlace_text _ CharHelpers.toUpperCase_ne_zero T hT

theorem toLowerCase_text (T : CString) (hT : IsText T) :
    toLowerCase T = T.map CharHelpers.toLowerCase :=
  convertInPlace_text _ CharHelpers.toLowerCase_ne_zero T hT

theorem upperCased_text (T : CString) (hT : IsText T) :
    upperCased T = some (T.map CharHelpers.toUpperCase) := by
  have hm := isText_map CharHelpers.toUpperCase_ne_zero hT
  unfold upperCased StringHelpers.upperCased
  rw [convertCopy_buffer _ T hT]
  simp only [Option.some_bind, readBuffer_text _ [] hm]
  exact copyFrom_text _ hm

theorem lowerCased_text (T : CString) (hT : IsText T) :
    lowerCased T = some (T.map CharHelpers.toLowerCase) := by
  have hm := isText_map CharHelpers.toLowerCase_ne_zero hT
  unfold lowerCased StringHelpers.lowerCased
  rw [convertCopy_buffer _ T hT]
  simp only [Option.some_bind, readBuffer_text _ [] hm]
  exact copyFrom_text _ hm

/-- C25: for a text `T`, `toUpperCase` applied to the result of `toUpperCase` changes
nothing, and `upperCased` of the text returned by `upperCased` returns that text again. -/
theorem toUpperCase_idempotent (T : CString) (hT : IsText T) :
    toUpperCase (toUpperCase T) = toUpperCase T ∧
      ∃ U : CString, upperCased T = some U ∧ upperCased U = some U ∧ U = toUpperCase T := by
  have hm := isText_map CharHelpers.toUpperCase_ne_zero hT
  have hidem : (T.map CharHelpers.toUpperCase).map CharHelpers.toUpperCase
      = T.map CharHelpers.toUpperCase := by
    rw [List.map_map]
    apply List.map_congr_left
    intro c _
    exact CharHelpers.toUpperCase_idem c
  refine ⟨?_, T.map CharHelpers.toUpperCase, upperCased_text T hT, ?_,
    (toUpperCase_text T hT).symm⟩
  · rw [toUpperCase_text T hT, toUpperCase_text _ hm, hidem]
  · rw [upperCased_text _ hm, hidem]

/-- C25 at `"Hello, World 1"`: converted once it is `"HELLO, WORLD 1"`, and once more it is
the same. -/
theorem toUpperCase_idempotent_witness :
    toUpperCase (toUpperCase (cstr "Hello, World 1")) = toUpperCase (cstr "Hello, World 1") ∧
      ∃ U : CString, upperCased (cstr "Hello, World 1") = some U ∧ upperCased U = some U ∧
        U = toUpperCase (cstr "Hello, World 1") :=
  toUpperCase_idempotent (cstr "Hello, World 1") (by decide)

/-- C26: `toUpperCase` replaces each character from `'a'` (97) to `'z'` (122) of a text by the
character 32 below it, its capital, and keeps every other character and the length;
`toLowerCase` replaces each character from `'A'` (65) to `'Z'` (90) by the character 32
above it and keeps every other character and the length. -/
theorem toUpperCase_letters_only (T : CString) (hT : IsText T) :
    toUpperCase T = T.map (fun c => if 97 ≤ c ∧ c ≤ 122 then c - 32 else c) ∧
      toLowerCase T = T.map (fun c => if 65 ≤ c ∧ c ≤ 90 then c + 32 else c) ∧
      length (toUpperCase T) = length T ∧ length (toLowerCase T) = length T := by
  have hu := toUpperCase_text T hT
  have hl := toLowerCase_text T hT
  have hmu := isText_map CharHelpers.toUpperCase_ne_zero hT
  have hml := isText_map CharHelpers.toLowerCase_ne_zero hT
  refine ⟨?_, ?_, ?_, ?_⟩
  · rw [hu]
    exact List.map_congr_left fun c _ => CharHelpers.toUpperCase_eq c
  · rw [hl]
    exact List.map_congr_left fun c _ => CharHelpers.toLowerCase_eq c
  · unfold length
    rw [hu, stringLength_of_isText _ hmu, stringLength_of_isText _ hT, List.length_map]
  · unfold length
    rw [hl, stringLength_of_isText _ hml, stringLength_of_isText _ hT, List.length_map]

/-- C26 at `"Hello, World 1"`: the letters are converted, the comma, the space and the digit
are kept. -/
theorem toUpperCase_letters_only_witness :
    toUpperCase (cstr "Hello, World 1")
        = (cstr "Hello, World 1").map (fun c => if 97 ≤ c ∧ c ≤ 122 then c - 32 else c) ∧
      toLowerCase (cstr "Hello, World 1")
        = (cstr "Hello, World 1").map (fun c => if 65 ≤ c ∧ c ≤ 90 then c + 32 else c) ∧
      length (toUpperCase (cstr "Hello, World 1")) = length (cstr "Hello, World 1") ∧
      length (toLowerCase (cstr "Hello, World 1")) = length (cstr "Hello, World 1") :=
  toUpperCase_letters_only (cstr "Hello, World 1") (by decide)

theorem compareIgnoreCase_eq (a b : CString) (ha : IsText a) (hb : IsText b) :
    compareIgnoreCase a b
      = compare (a.map CharHelpers.toLowerCase) (b.map CharHelpers.toLowerCase) := by
  have hma := isText_map CharHelpers.toLowerCase_ne_zero ha
  have hmb := isText_map CharHelpers.toLowerCase_ne_zero hb
  unfold compareIgnoreCase compare fullStringCompareIgnoreCase fullStringCompare
  simp only [stringLength_of_isText _ ha, stringLength_of_isText _ hb,
    stringLength_of_isText _ hma, stringLength_of_isText _ hmb, List.length_map,
    fullStringCompareIgnoreCaseLoop_eq]

/-- C27: `compareIgnoreCase (a, b)` is `compare` of the texts returned by `lowerCased`, so
`equalsIgnoreCase (a, b)` holds exactly when `a` and `b` have the same length and at every
position the two characters are equal or are a capital from `'A'` to `'Z'` and the character
32 above it (`List.Forall₂` says both); characters of which neither is the capital of the
other are told apart. -/
theorem compareIgnoreCase_folds_letters (a b : CString) (ha : IsText a) (hb : IsText b) :
    ∃ la lb : CString, lowerCased a = some la ∧ lowerCased b = some lb ∧
      compareIgnoreCase a b = compare la lb ∧
      (equalsIgnoreCase a b = true ↔
        List.Forall₂ (fun x y => x = y ∨ (65 ≤ x ∧ x ≤ 90 ∧ y = x + 32) ∨
          (65 ≤ y ∧ y ≤ 90 ∧ x = y + 32)) a b) := by
  have hma := isText_map CharHelpers.toLowerCase_ne_zero ha
  have hmb := isText_map CharHelpers.toLowerCase_ne_zero hb
  refine ⟨_, _, lowerCased_text a ha, lowerCased_text b hb, compareIgnoreCase_eq a b ha hb, ?_⟩
  unfold equalsIgnoreCase
  rw [compareIgnoreCase_eq a b ha hb]
  have h0 : (compare (a.map CharHelpers.toLowerCase) (b.map CharHelpers.toLowerCase) == 0)
      = true ↔ a.map CharHelpers.toLowerCase = b.map CharHelpers.toLowerCase := by
    rcases compare_range _ _ hma hmb with ⟨h, e⟩ | ⟨h, e⟩ | ⟨h, e⟩ <;> rw [h] <;> simp [e]
  rw [h0, ← List.forall₂_eq_eq_eq, List.forall₂_map_left_iff, List.forall₂_map_right_iff]
  constructor
  · intro h
    exact h.imp fun x y hxy => (CharHelpers.toLowerCase_eq_iff x y).mp hxy
  · intro h
    exact h.imp fun x y hxy => (CharHelpers.toLowerCase_eq_iff x y).mpr hxy

/-- C27 at `"olleh"` and `"OlLeH"`: the comparison without case is that of `"olleh"` with
`"olleh"`. -/
theorem compareIgnoreCase_folds_letters_witness :
    ∃ la lb : CString, lowerCased (cstr "olleh") = some la ∧
      lowerCased (cstr "OlLeH") = some lb ∧
      compareIgnoreCase (cstr "olleh") (cstr "OlLeH") = compare la lb ∧
      (equalsIgnoreCase (cstr "olleh") (cstr "OlLeH") = true ↔
        List.Forall₂ (fun x y => x = y ∨ (65 ≤ x ∧ x ≤ 90 ∧ y = x + 32) ∨
          (65 ≤ y ∧ y ≤ 90 ∧ x = y + 32)) (cstr "olleh") (cstr "OlLeH")) :=
  compareIgnoreCase_folds_letters (cstr "olleh") (cstr "OlLeH") (by decide) (by decide)

end String

end hosa

namespace hosa

namespace Array

variable {α : Type}

open DynamicMemoryBlock

/-! ## Insertion outside the range, the capacity, removal of an absent item -/

theorem insert_outside (tr : ElemTraits) (a : Array α) (index : Int) (v : α)
    (h : isPositiveAndBelow index a.numElements = false) : insert tr a index v = add tr a v := by
  unfold insert add createInsertSpace
  cases he : ensureAllocatedSpace tr a (a.numElements + 1) with
  | done a1 =>
    have hn := (ensureAllocatedSpace_counts tr a a1 _ he).1
    have h1 : isPositiveAndBelow index a1.numElements = false := by rw [hn]; exact h
    simp only [Outcome.bind, h1, Bool.false_eq_true, not_false_eq_true, if_true]
    rfl
  | fatal s => rfl
  | undefined => rfl

/-- C28: `insert (i, v)` with an index `i` outside `[0, count)`, such as `i = count` or a
negative `i`, runs as `add (v)` does from every state: the outcome, and with it the
elements, the count and the capacity, is the same. -/
theorem insert_outside_range_is_add (tr : ElemTraits) (a : Array α) (index : Int) (v : α)
    (h : ¬ (0 ≤ index ∧ index < a.numElements)) :
    insert tr a index v = add tr a v ∧ insert tr a a.numElements v = add tr a v := by
  constructor
  · apply insert_outside
    rw [← Bool.not_eq_true, isPositiveAndBelow_iff]
    exact h
  · apply insert_outside
    rw [← Bool.not_eq_true, isPositiveAndBelow_iff]
    omega

/-- C28 at `[a, b, c]`: `insert (-1, d)` runs as `add (d)` and gives `[a, b, c, d]`, and so
does `insert (3, d)`. -/
theorem insert_outside_range_is_add_witness :
    (insert ⟨true, true⟩ abc (-1) 'd' = add ⟨true, true⟩ abc 'd' ∧
      insert ⟨true, true⟩ abc abc.numElements 'd' = add ⟨true, true⟩ abc 'd') ∧
      add ⟨true, true⟩ abc 'd' = .done abcd :=
  ⟨insert_outside_range_is_add ⟨true, true⟩ abc (-1) 'd' (by decide), by decide⟩

theorem insert_capacity (tr : ElemTraits) (a : Array α) (S : List α) (index : Int) (v : α)
    (hS : a.Holds S)
    (hfit : a.allocatedSpace < (S.length : Int) + 1 →
      ((S.length : Int) + 1) + ((S.length : Int) + 1) / 2 + 8 < 2147483648)
    (hrel : a.allocatedSpace < (S.length : Int) + 1 →
      tr.triviallyCopyable = true ∨ a.elements.data = none) :
    ∃ a1 : Array α, insert tr a index v = .done a1 ∧
      a1.allocatedSpace = (if (S.length : Int) + 1 ≤ a.allocatedSpace then a.allocatedSpace
        else growthSize ((S.length : Int) + 1)) := by
  by_cases hin : isPositiveAndBelow index a.numElements = true
  · rw [isPositiveAndBelow_iff, hS.1] at hin
    obtain ⟨hindex, hlt⟩ := hin
    lift index to ℕ using hindex with i
    have hi : i < S.length := by omega
    have hsplit : S = S.take i ++ S.drop i := (List.take_append_drop i S).symm
    have hl1 : (S.take i).length = i := by simp; omega
    have hne : S.drop i ≠ [] := by
      intro h0
      have := congrArg List.length h0
      simp at this
      omega
    have hS1 : a.Holds (S.take i ++ S.drop i) := by rwa [← hsplit]
    have hfit1 : a.allocatedSpace < ((S.take i ++ S.drop i).length : Int) + 1 →
        (((S.take i ++ S.drop i).length : Int) + 1)
          + (((S.take i ++ S.drop i).length : Int) + 1) / 2 + 8 < 2147483648 := by
      rwa [← hsplit]
    have hrel1 : a.allocatedSpace < ((S.take i ++ S.drop i).length : Int) + 1 →
        tr.triviallyCopyable = true ∨ a.elements.data = none := by
      rwa [← hsplit]
    obtain ⟨a1, hrun, _, hcap⟩ := insert_parts tr a _ _ v hS1 hne hfit1 hrel1
    rw [hl1] at hrun
    rw [← hsplit] at hcap
    exact ⟨a1, hrun, hcap⟩
  · have hout : isPositiveAndBelow index a.numElements = false := by simpa using hin
    obtain ⟨a1, hrun, _, hcap⟩ := add_holds tr a S v hS hfit hrel
    exact ⟨a1, by rw [insert_outside tr a index v hout]; exact hrun, hcap⟩

/-- C29 fails on the code.  The `Array<String>` of eight texts has count 8 within capacity 8,
so `add` and `insert` need room for 9 and the claim has the capacity `9 + 9 / 2 + 8` rounded
down to a multiple of 8, that is 16, afterwards.  Both calls have no result: the element-wise
`setAllocatedSizeInternal` releases the old block, which `malloc` returned, with
`delete[]`.  On eight `char` in a block of eight slots, grown with `realloc`, `add` leaves
the capacity 16. -/
theorem capacity_growth_releases_block_with_delete :
    eightTexts.CountInv ∧ eightTexts.allocatedSpace < eightTexts.numElements + 1 ∧
    growthSize (eightTexts.numElements + 1) = 16 ∧
    add String.elemTraits eightTexts (cstr "i") = .undefined ∧
    insert String.elemTraits eightTexts 3 (cstr "i") = .undefined ∧
    insert String.elemTraits eightTexts 8 (cstr "i") = .undefined ∧
    (add ⟨true, true⟩ eightChars 'i').bind (fun a1 => .done a1.allocatedSpace)
      = .done 16 := by
  decide

theorem indexOfLoop_absent [BEq α] (a : Array α) (item : α) (L : List α) :
    ∀ (A R : List (Option α)) (i : Int), a.elements = ⟨some (A ++ (L.map some ++ R))⟩ →
      i = (A.length : Int) → (∀ e ∈ L, (item == e) = false) →
      indexOfLoop a item L.length i = some (-1) := by
  induction L with
  | nil => intro A R i _ _ _; rfl
  | cons e L ih =>
    intro A R i hel hi habs
    have r : a.elements.read i = some e := by
      rw [hel]
      exact read_at A (L.map some ++ R) (some e) hi
    have he : (item == e) = false := habs e (by simp)
    simp only [List.length_cons, indexOfLoop, r, he, Bool.false_eq_true, if_false]
    exact ih (A ++ [some e]) R (i + 1) (by simp [hel]) (by simp [hi])
      (fun e1 h1 => habs e1 (by simp [h1]))

theorem indexOf_absent [BEq α] (a : Array α) (S : List α) (item : α) (hS : a.Holds S)
    (habs : ∀ e ∈ S, (item == e) = false) : indexOf a item = some (-1) := by
  obtain ⟨hn, rest, hslots, _⟩ := hS
  unfold indexOf
  rw [hn, Int.toNat_natCast]
  cases S with
  | nil => rfl
  | cons x X =>
    have hel : a.elements = ⟨some ([] ++ ((x :: X).map some ++ rest))⟩ := by
      apply eq_mk_of_data
      apply data_of_slots (by simpa using hslots)
      simp
    exact indexOfLoop_absent a item (x :: X) [] rest 0 hel (by simp) habs

/-- C30: when no element of the sequence equals `v`, `indexOf (v)` is -1 and
`removeItem (v)`, which is `remove (-1)`, fails its assertion: the run ends fatally in the
state it was called in, elements, count and capacity as they were. -/
theorem removeItem_absent_is_fatal [BEq α] (tr : ElemTraits) (a : Array α) (S : List α)
    (v : α) (hS : a.Holds S) (habs : ∀ e ∈ S, (v == e) = false) :
    indexOf a v = some (-1) ∧ removeItem tr a v = .fatal a := by
  have hidx := indexOf_absent a S v hS habs
  refine ⟨hidx, ?_⟩
  unfold removeItem
  rw [hidx]
  have hassert : isPositiveAndBelow (-1 + 1 - 1) a.numElements = false := by
    rw [← Bool.not_eq_true, isPositiveAndBelow_iff]
    omega
  simp only [remove, hassert, Bool.false_eq_true, not_false_eq_true, if_true]

/-- C30 at `[a, b, c]`: `removeItem (z)` ends fatally and leaves `[a, b, c]`. -/
theorem removeItem_absent_is_fatal_witness :
    indexOf abc 'z' = some (-1) ∧ removeItem ⟨true, true⟩ abc 'z' = .fatal abc :=
  removeItem_absent_is_fatal ⟨true, true⟩ abc ['a', 'b', 'c'] 'z'
    ⟨rfl, [none, none, none, none, none], rfl, rfl⟩ (by decide)

end Array

end hosa

namespace hosa

namespace Array

variable {α : Type}

open DynamicMemoryBlock

/-! ## Setting the capacity, clearing -/

/-- On a well-formed sequence `setAllocatedSize (k)` with `k` not below the count completes
with capacity `k` and the elements unchanged, provided a change of the block is one by
`realloc`, a release for a trivially destructible type, or starts from no block. -/
theorem setAllocatedSize_holds (tr : ElemTraits) (a : Array α) (S : List α) (k : Int)
    (hS : a.Holds S) (hk : a.numElements ≤ k)
    (hrel : a.allocatedSpace ≠ k → tr.triviallyCopyable = true ∨ a.elements.data = none) :
    ∃ a1 : Array α, setAllocatedSize tr a k = .done a1 ∧ a1.Holds S ∧
      a1.allocatedSpace = k ∧ a1.numElements = a.numElements ∧
      (k = 0 → a.allocatedSpace ≠ 0 → a1.elements.data = none) := by
  obtain ⟨hn, rest, hslots, hcap⟩ := hS
  have hk0 : 0 ≤ k := by omega
  obtain ⟨K, rfl⟩ := Int.eq_ofNat_of_zero_le hk0
  have hKn : S.length ≤ K := by omega
  unfold setAllocatedSize
  simp only [ge_iff_le, hk, not_true_eq_false, if_false]
  by_cases hsame : a.allocatedSpace = (K : Int)
  · simp only [ne_eq, hsame, not_true_eq_false, if_false]
    refine ⟨_, rfl, ⟨hn, rest, hslots, ?_⟩, rfl, rfl, ?_⟩
    · simp only
      omega
    · intro h0 hne
      exact absurd h0 hne
  · simp only [ne_eq, hsame, not_false_eq_true, if_true, gt_iff_lt]
    by_cases hpos : (0 : Int) < (K : Int)
    · simp only [hpos, if_true]
      unfold setAllocatedSizeInternal
      by_cases htc : tr.triviallyCopyable = true
      · simp only [htc, if_true]
        refine ⟨_, rfl, ⟨hn, rest.take (K - S.length)
          ++ List.replicate (K - (S.length + rest.length)) none, ?_, ?_⟩, rfl, rfl, ?_⟩
        · simp only [reallocate, slots_mk_some, hslots, Int.toNat_natCast]
          rw [List.take_append_eq_append_take, List.take_of_length_le (by simp; omega)]
          simp
        · simp only [List.length_append, List.length_replicate, List.length_take, Nat.cast_add]
          omega
        · intro h0
          omega
      · simp only [htc, Bool.false_eq_true, if_false]
        have hnone : a.elements.data = none := by
          rcases hrel hsame with h | h
          · exact absurd h htc
          · exact h
        have hS0 : S = [] := by
          have hempty : a.elements.slots = [] := by simp [slots, hnone]
          rw [hempty] at hslots
          have hlen := congrArg List.length hslots
          simp only [List.length_nil, List.length_append, List.length_map] at hlen
          exact List.length_eq_zero.mp (by omega)
        subst hS0
        have hn0 : a.numElements.toNat = 0 := by simp [hn]
        have hfree : a.elements.free tr = some ⟨none⟩ :=
          free_of_releasable tr _ (Or.inr hnone)
        simp only [hn0, relocateLoop, hfree]
        refine ⟨_, rfl, ⟨hn, List.replicate K none, ?_, ?_⟩, rfl, rfl, ?_⟩
        · simp [allocate, slots]
        · simp
        · intro h0
          omega
    · simp only [hpos, if_false]
      have hK : K = 0 := by omega
      have hS0 : S = [] := List.length_eq_zero.mp (by omega)
      subst hS0
      have hfree : a.elements.free tr = some ⟨none⟩ := free_of_releasable tr _ (hrel hsame)
      simp only [hfree]
      refine ⟨_, rfl, ⟨hn, [], rfl, ?_⟩, rfl, rfl, fun _ _ => rfl⟩
      simp [hK]

/-- C32 fails on the code.  On the `Array<String>` of eight texts in a block of eight slots,
`setAllocatedSize (16)` is not below the count, and on the one of one text in a block of
eight slots `setAllocatedSize (1)` is the count itself; the claim has capacity 16 and
capacity 1 with the texts unchanged.  Both calls have no result: the element-wise
`setAllocatedSizeInternal` moves the texts to a new block and releases the old one, which
`malloc` returned, with `delete[]`.  Below the count the call is fatal, and with the
capacity it already has it changes nothing. -/
theorem setAllocatedSize_releases_block_with_delete :
    setAllocatedSize String.elemTraits eightTexts 16 = .undefined ∧
    setAllocatedSize String.elemTraits oneText 1 = .undefined ∧
    setAllocatedSize String.elemTraits eightTexts 7 = .fatal eightTexts ∧
    setAllocatedSize String.elemTraits eightTexts 8 = .done eightTexts := by
  decide

theorem clear_holds (a : Array α) (S : List α) (hS : a.Holds S) :
    ∃ a1 : Array α, clear a = some a1 ∧ a1.Holds [] ∧
      a1.allocatedSpace = a.allocatedSpace ∧ a1.numElements = 0 := by
  obtain ⟨hn, rest, hslots, hcap⟩ := hS
  unfold clear
  rw [hn, Int.toNat_natCast]
  cases S with
  | nil =>
    refine ⟨_, rfl, ⟨rfl, rest, ?_, ?_⟩, rfl, rfl⟩
    · simpa [destroyLoop] using hslots
    · simpa using hcap
  | cons x X =>
    have hel : a.elements = ⟨some ([] ++ ((x :: X).map some ++ rest))⟩ := by
      apply eq_mk_of_data
      apply data_of_slots (by simpa using hslots)
      simp
    have h := destroyLoop_spec ((x :: X).map some) [] rest 0 (by simp)
    rw [List.length_map] at h
    rw [hel, h]
    refine ⟨_, rfl, ⟨rfl, List.replicate (x :: X).length none ++ rest, ?_, ?_⟩, rfl, rfl⟩
    · simp
    · simp only [List.length_append, List.length_replicate, Nat.cast_add, List.map_nil,
        List.length_nil, Nat.cast_zero]
      omega

/-- C36 fails on the code.  On the `Array<String>` of eight texts `clear` destroys the texts
and leaves count 0, capacity 8 and the block of eight slots, and `indexOf` then finds
nothing.  The following `setAllocatedSize (0)` passes its assertion and calls
`elements.free ()`, which releases the block, returned by `malloc`, with `delete[]`: the
call has no result, where the claim has it accepted with capacity 0. -/
theorem clear_then_release_with_delete :
    clear eightTexts = some ⟨0, 8, ⟨some (List.replicate 8 none)⟩⟩ ∧
    indexOf (⟨0, 8, ⟨some (List.replicate 8 none)⟩⟩ : Array CString) (cstr "a") = some (-1) ∧
    setAllocatedSize String.elemTraits
      (⟨0, 8, ⟨some (List.replicate 8 none)⟩⟩ : Array CString) 0 = .undefined := by
  decide

/-- C39: whenever `ensureAllocatedSpace (min)` completes, from whatever state, with
`min ≥ 0` and `min + min / 2 + 8` within `int`, the capacity afterwards is at least `min`,
and if it differs from the capacity before it is a multiple of 8 greater than `min`.  The
call does complete from a well-formed state when the capacity suffices, when the elements
are trivially copyable (the block grows by `realloc`), or when there is no block yet. -/
theorem ensureAllocatedSpace_at_least (tr : ElemTraits) (a : Array α) (minNumElements : Int)
    (hmin : 0 ≤ minNumElements)
    (hfit : minNumElements + minNumElements / 2 + 8 < 2147483648) :
    (∀ a1 : Array α, ensureAllocatedSpace tr a minNumElements = .done a1 →
      minNumElements ≤ a1.allocatedSpace ∧
      (a1.allocatedSpace ≠ a.allocatedSpace →
        a1.allocatedSpace % 8 = 0 ∧ minNumElements < a1.allocatedSpace)) ∧
    (∀ S : List α, a.Holds S →
      (minNumElements ≤ a.allocatedSpace ∨ tr.triviallyCopyable = true ∨
        a.elements.data = none) →
      ∃ a1 : Array α, ensureAllocatedSpace tr a minNumElements = .done a1) := by
  constructor
  · intro a1 h
    have hg := growthSize_eq minNumElements hmin hfit
    rcases (ensureAllocatedSpace_counts tr a a1 minNumElements h).2 with ⟨h1, h2⟩ | ⟨_, h2, _⟩
    · exact ⟨by omega, fun hne => absurd h2 hne⟩
    · rw [h2, hg]
      exact ⟨by omega, fun _ => ⟨by omega, by omega⟩⟩
  · intro S hS hrel
    obtain ⟨a1, h, _⟩ := ensureAllocatedSpace_holds tr a S minNumElements hS (fun _ => hfit)
      (fun hlt => by
        rcases hrel with h | h | h
        · omega
        · exact Or.inl h
        · exact Or.inr h)
    exact ⟨a1, h⟩

/-- C39 at `[a, b, c]` with capacity 8 and `min = 9`, trivially copyable elements: the call
completes, and the capacity 16 it leaves is a multiple of 8 above 9. -/
theorem ensureAllocatedSpace_at_least_witness :
    ensureAllocatedSpace ⟨true, true⟩ abc 9 = .done abcWide ∧
    (9 : Int) ≤ abcWide.allocatedSpace ∧
    (abcWide.allocatedSpace ≠ abc.allocatedSpace →
      abcWide.allocatedSpace % 8 = 0 ∧ (9 : Int) < abcWide.allocatedSpace) :=
  ⟨by decide,
    (ensureAllocatedSpace_at_least ⟨true, true⟩ abc 9 (by decide) (by decide)).1 abcWide
      (by decide)⟩

end Array

end hosa

namespace hosa

namespace Array

variable {α : Type}

open DynamicMemoryBlock

/-! ## Searching, adding several values, copying -/

theorem indexOfLoop_first [BEq α] (a : Array α) (item e : α) (Q : List α) (P : List α) :
    ∀ (A R : List (Option α)) (i : Int),
      a.elements = ⟨some (A ++ ((P ++ e :: Q).map some ++ R))⟩ →
      i = (A.length : Int) → (∀ x ∈ P, (item == x) = false) → (item == e) = true →
      indexOfLoop a item (P ++ e :: Q).length i = some (i + (P.length : Int)) := by
  induction P with
  | nil =>
    intro A R i hel hi _ he
    have r : a.elements.read i = some e := by
      rw [hel]
      exact read_at A (Q.map some ++ R) (some e) hi
    simp [indexOfLoop, r, he]
  | cons x P ih =>
    intro A R i hel hi hP he
    have r : a.elements.read i = some x := by
      rw [hel]
      exact read_at A ((P ++ e :: Q).map some ++ R) (some x) hi
    have hx : (item == x) = false := hP x (by simp)
    have e1 : (x :: P ++ e :: Q).length = (P ++ e :: Q).length + 1 := rfl
    rw [e1]
    simp only [indexOfLoop, r, hx, Bool.false_eq_true, if_false]
    rw [ih (A ++ [some x]) R (i + 1) (by simp [hel]) (by simp [hi])
      (fun y hy => hP y (by simp [hy])) he]
    congr 1
    simp only [List.length_cons]
    push_cast
    omega

theorem holds_block {a : Array α} {S : List α} (hS : a.Holds S) (hne : S ≠ []) :
    ∃ rest : List (Option α), a.elements = ⟨some ([] ++ (S.map some ++ rest))⟩ := by
  obtain ⟨_, rest, hslots, _⟩ := hS
  refine ⟨rest, ?_⟩
  apply eq_mk_of_data
  apply data_of_slots (by simpa using hslots)
  cases S with
  | nil => exact absurd rfl hne
  | cons x X => simp

theorem containsLoop_spec [BEq α] (a : Array α) (item : α) (L : List α) :
    ∀ (A R : List (Option α)) (i : Int), a.elements = ⟨some (A ++ (L.map some ++ R))⟩ →
      i = (A.length : Int) →
      containsLoop a item L.length i = some (L.any fun e => e == item) := by
  induction L with
  | nil => intro A R i _ _; rfl
  | cons e L ih =>
    intro A R i hel hi
    have r : a.elements.read i = some e := by
      rw [hel]
      exact read_at A (L.map some ++ R) (some e) hi
    simp only [List.length_cons, containsLoop, r, List.any_cons]
    by_cases he : (e == item) = true
    · simp [he]
    · have he' : (e == item) = false := by simpa using he
      simp only [he', Bool.false_eq_true, if_false, Bool.false_or]
      exact ih (A ++ [some e]) R (i + 1) (by simp [hel]) (by simp [hi])

theorem contains_any [BEq α] (a : Array α) (S : List α) (item : α) (hS : a.Holds S) :
    contains a item = some (S.any fun e => e == item) := by
  unfold contains
  rw [hS.1, Int.toNat_natCast]
  cases S with
  | nil => rfl
  | cons x X =>
    obtain ⟨rest, hel⟩ := holds_block hS (by simp)
    exact containsLoop_spec a item (x :: X) [] rest 0 hel (by simp)

/-- C33: for a well-formed sequence holding `S` and an equality `==` that does not depend on
the order of its operands, `indexOf (v)` is the index of the first element equal to `v` (no
element before it is equal to `v`), and it is -1 exactly when no element is equal to `v`;
`contains (v)` is true exactly when `indexOf (v)` is not -1.  Both are `const` methods that
return a value only. -/
theorem indexOf_first_match [BEq α] (a : Array α) (S : List α) (v : α) (hS : a.Holds S)
    (hsymm : ∀ x y : α, (x == y) = (y == x)) :
    (∀ (P Q : List α) (e : α), S = P ++ e :: Q → (e == v) = true →
      (∀ x ∈ P, (x == v) = false) → indexOf a v = some (P.length : Int)) ∧
    (indexOf a v = some (-1) ↔ ∀ e ∈ S, (e == v) = false) ∧
    (∃ (r : Int) (b : Bool), indexOf a v = some r ∧ contains a v = some b ∧
      (b = true ↔ r ≠ -1) ∧ (r = -1 ∨ (0 ≤ r ∧ r < a.numElements))) := by
  have hfound : (∃ e ∈ S, (e == v) = true) →
      ∃ k : Int, indexOf a v = some k ∧ 0 ≤ k ∧ k < (S.length : Int) := by
    rintro ⟨e, he, hev⟩
    exact indexOf_found a S v hS ⟨e, he, by rw [hsymm]; exact hev⟩
  have habsent : (∀ e ∈ S, (e == v) = false) → indexOf a v = some (-1) := by
    intro h
    exact indexOf_absent a S v hS (fun e he => by rw [hsymm]; exact h e he)
  refine ⟨?_, ?_, ?_⟩
  · intro P Q e hsplit hev hP
    subst hsplit
    obtain ⟨rest, hel⟩ := holds_block hS (by simp)
    have := indexOfLoop_first a v e Q P [] rest 0 hel (by simp)
      (fun x hx => by rw [hsymm]; exact hP x hx) (by rw [hsymm]; exact hev)
    unfold indexOf
    rw [hS.1, Int.toNat_natCast, this]
    simp
  · constructor
    · intro h e he
      by_contra hne
      obtain ⟨k, hk, hk0, _⟩ := hfound ⟨e, he, by simpa using hne⟩
      rw [h] at hk
      cases hk
      omega
    · exact habsent
  · by_cases hany : (S.any fun e => e == v) = true
    · obtain ⟨e, he, hev⟩ := List.any_eq_true.mp hany
      obtain ⟨k, hk, hk0, hkn⟩ := hfound ⟨e, he, hev⟩
      have hc : contains a v = some true := by rw [contains_any a S v hS, hany]
      have hkn1 : k < a.numElements := by rw [hS.1]; exact hkn
      have hiff : (true = true ↔ k ≠ -1) := ⟨fun _ => by omega, fun _ => rfl⟩
      exact ⟨k, true, hk, hc, hiff, Or.inr ⟨hk0, hkn1⟩⟩
    · have hnone : ∀ e ∈ S, (e == v) = false := by
        intro e he
        by_contra hne
        exact hany (List.any_eq_true.mpr ⟨e, he, by simpa using hne⟩)
      have hc : contains a v = some false := by
        rw [contains_any a S v hS, Bool.eq_false_iff.mpr hany]
      have hiff : (false = true ↔ (-1 : Int) ≠ -1) :=
        ⟨fun h => Bool.noConfusion h, fun h => absurd rfl h⟩
      exact ⟨-1, false, habsent hnone, hc, hiff, Or.inl rfl⟩

/-- C33 at `[a, b, c]`: `indexOf (b)` is 1, behind the one element `a` that differs
from `b`. -/
theorem indexOf_first_match_witness : indexOf abc 'b' = some ((['a'].length : Nat) : Int) :=
  (indexOf_first_match abc ['a', 'b', 'c'] 'b' ⟨rfl, [none, none, none, none, none], rfl, rfl⟩
    (fun _ _ => BEq.comm)).1 ['a'] ['c'] 'b' rfl (by decide)
    (by decide)

theorem addAssumingMemoryAllocatedAll_holds (L : List α) :
    ∀ (a : Array α) (S : List α), a.Holds S →
      (S.length : Int) + (L.length : Int) ≤ a.allocatedSpace →
      ∃ a1 : Array α, addAssumingMemoryAllocatedAll a L = .done a1 ∧ a1.Holds (S ++ L) ∧
        a1.allocatedSpace = a.allocatedSpace := by
  induction L with
  | nil =>
    intro a S hS _
    exact ⟨a, rfl, by simpa using hS, rfl⟩
  | cons v L ih =>
    intro a S hS hroom
    simp only [List.length_cons, Nat.cast_add, Nat.cast_one] at hroom
    obtain ⟨a1, h1, hh1, hc1⟩ := addAssumingMemoryAllocated_holds a S v hS (by omega)
    obtain ⟨a2, h2, hh2, hc2⟩ := ih a1 (S ++ [v]) hh1 (by
      rw [hc1]
      simp only [List.length_append, List.length_singleton, Nat.cast_add, Nat.cast_one]
      omega)
    refine ⟨a2, ?_, by simpa using hh2, by rw [hc2, hc1]⟩
    simp only [addAssumingMemoryAllocatedAll, h1, Outcome.bind, h2]

/-- C34 fails on the code.  On the `Array<String>` of eight texts in a block of eight slots,
`add ("i", "j")` asks once for 10 slots, for which the claim has the ten texts in a block of
`growthSize 10 = 16` slots; the call has no result, because the one growth step runs the
element-wise `setAllocatedSizeInternal`, which releases the old block, returned by `malloc`,
with `delete[]`.  From the empty array, without a block to release, the variadic `add` of
nine texts completes with capacity 16. -/
theorem addAll_releases_block_with_delete :
    growthSize (eightTexts.numElements + 1 + (([cstr "j"] : List CString).length : Int)) = 16 ∧
    addAll String.elemTraits eightTexts (cstr "i") [cstr "j"] = .undefined ∧
    addAll String.elemTraits empty (cstr "a") [cstr "b", cstr "c", cstr "d", cstr "e",
      cstr "f", cstr "g", cstr "h", cstr "i"] = .done nineTexts := by
  decide

theorem getD_map_append (P L : List α) (R : List (Option α)) (v : α) :
    ((P ++ v :: L).map some ++ R).getD P.length none = some v := by
  induction P with
  | nil => rfl
  | cons x P ih => simpa using ih

theorem addFromBufferLoop_holds (R : List (Option α)) (L : List α) :
    ∀ (P : List α) (a : Array α) (S : List α), a.Holds S →
      (S.length : Int) + (L.length : Int) ≤ a.allocatedSpace →
      ∃ a1 : Array α,
        addFromBufferLoop ((P ++ L).map some ++ R) L.length P.length a = .done a1 ∧
        a1.Holds (S ++ L) ∧ a1.allocatedSpace = a.allocatedSpace := by
  induction L with
  | nil =>
    intro P a S hS _
    exact ⟨a, rfl, by simpa using hS, rfl⟩
  | cons v L ih =>
    intro P a S hS hroom
    simp only [List.length_cons, Nat.cast_add, Nat.cast_one] at hroom
    obtain ⟨a1, h1, hh1, hc1⟩ := addAssumingMemoryAllocated_holds a S v hS (by omega)
    obtain ⟨a2, h2, hh2, hc2⟩ := ih (P ++ [v]) a1 (S ++ [v]) hh1 (by
      rw [hc1]
      simp only [List.length_append, List.length_singleton, Nat.cast_add, Nat.cast_one]
      omega)
    have hread := getD_map_append P L R v
    have e : (P ++ [v] ++ L) = P ++ v :: L := by simp
    rw [e] at h2
    have e2 : (P ++ [v]).length = P.length + 1 := by simp
    rw [e2] at h2
    refine ⟨a2, ?_, by simpa using hh2, by rw [hc2, hc1]⟩
    simp only [List.length_cons, addFromBufferLoop, hread, h1, Outcome.bind, h2]

/-- On a well-formed sequence `addFromBuffer` appends the values of the buffer, provided a
growth of the block is one by `realloc` or from no block. -/
theorem addFromBuffer_holds (tr : ElemTraits) (a : Array α) (S L : List α)
    (R : List (Option α)) (hS : a.Holds S)
    (hfit : a.allocatedSpace < (S.length : Int) + (L.length : Int) →
      ((S.length : Int) + (L.length : Int))
        + ((S.length : Int) + (L.length : Int)) / 2 + 8 < 2147483648)
    (hrel : a.allocatedSpace < (S.length : Int) + (L.length : Int) →
      tr.triviallyCopyable = true ∨ a.elements.data = none) :
    ∃ a1 : Array α, addFromBuffer tr a (L.map some ++ R) (L.length : Int) = .done a1 ∧
      a1.Holds (S ++ L) := by
  obtain ⟨a0, hrun, hholds, _, hge⟩ :=
    ensureAllocatedSpace_holds tr a S ((S.length : Int) + (L.length : Int)) hS hfit hrel
  obtain ⟨a1, hrun1, hholds1, _⟩ := addFromBufferLoop_holds R L [] a0 S hholds hge
  refine ⟨a1, ?_, hholds1⟩
  unfold addFromBuffer
  rw [hS.1, hrun, Int.toNat_natCast]
  simpa using hrun1

/-- C35 fails on the code.  `A` is the `Array<String>` of the one text `x`, in the block of
8 slots that its `add` allocated, and `B` the one of the nine texts `a` to `i`, as the
variadic `add` leaves the empty array.  The copy assignment `A = B` clears `A` and asks for
9 slots; the element-wise `setAllocatedSizeInternal` releases the block of `A`, which
`malloc` returned, with `delete[]`: the assignment has no result, where the claim has the
nine texts in `A`.  The copy constructor, which starts without a block, completes with the
texts of `B`. -/
theorem copyAssign_releases_block_with_delete :
    add String.elemTraits empty (cstr "x") = .done oneText ∧
    addAll String.elemTraits empty (cstr "a") [cstr "b", cstr "c", cstr "d", cstr "e",
      cstr "f", cstr "g", cstr "h", cstr "i"] = .done nineTexts ∧
    copyAssign String.elemTraits oneText nineTexts = .undefined ∧
    copyConstruct String.elemTraits nineTexts = .done nineTexts := by
  decide

end Array

end hosa

namespace hosa

namespace Array

variable {α : Type}

open DynamicMemoryBlock

/-! ## The recorded capacity after copy assignment, removal of nothing -/

/-- C37 fails on the code.  `abcWide` is `[a, b, c]` after `setAllocatedSize (16)`.  The copy
assignment to an empty sequence allocates 8 slots for the three elements and then records
the capacity 16 of the source: the recorded capacity exceeds the block.  Five more elements
fill the 8 slots, and the next `add`, for which `ensureAllocatedSpace (9)` sees room,
writes `elements[8]`, behind the block.  From the empty source `emptyWide` of capacity 8 the
copy records capacity 8 with no block at all, and the next `add` fails its assertion. -/
theorem copyAssign_records_capacity_beyond_block :
    setAllocatedSize ⟨true, true⟩ abc 16 = .done abcWide ∧
      copyAssign ⟨true, true⟩ empty abcWide
        = .done ⟨3, 16, ⟨some [some 'a', some 'b', some 'c', none, none, none, none,
            none]⟩⟩ ∧
      copyAssign ⟨false, true⟩ empty abcWide
        = .done ⟨3, 16, ⟨some [some 'a', some 'b', some 'c', none, none, none, none,
            none]⟩⟩ ∧
      addAll ⟨true, true⟩ ⟨3, 16, ⟨some [some 'a', some 'b', some 'c', none, none, none,
          none, none]⟩⟩ 'd' ['e', 'f', 'g', 'h']
        = .done ⟨8, 16, ⟨some [some 'a', some 'b', some 'c', some 'd', some 'e', some 'f',
            some 'g', some 'h']⟩⟩ ∧
      add ⟨true, true⟩ ⟨8, 16, ⟨some [some 'a', some 'b', some 'c', some 'd', some 'e',
          some 'f', some 'g', some 'h']⟩⟩ 'i' = .undefined ∧
      setAllocatedSize ⟨true, true⟩ (empty : Array Char) 8 = .done emptyWide ∧
      copyAssign ⟨true, true⟩ empty emptyWide = .done ⟨0, 8, ⟨none⟩⟩ ∧
      add ⟨true, true⟩ (⟨0, 8, ⟨none⟩⟩ : Array Char) 'a' = .fatal ⟨0, 8, ⟨none⟩⟩ := by
  refine ⟨by decide, by decide, by decide, by decide, by decide, by decide, by decide,
    by decide⟩

theorem take_take_drop (s : List (Option α)) (i k : Nat) :
    s.take i ++ (s.drop i).take k ++ s.drop (i + k) = s := by
  rw [← List.take_add, List.take_append_drop]

theorem remove_nothing (tr : ElemTraits) (a : Array α) (S : List α) (index : Int)
    (hS : a.Holds S) (h1 : 1 ≤ index) (hn : index ≤ a.numElements)
    (hstrat : tr.triviallyCopyable = true ∨ index = a.numElements) :
    remove tr a index 0 = .done a := by
  have hassert : isPositiveAndBelow (index + 0 - 1) a.numElements = true := by
    rw [isPositiveAndBelow_iff]
    omega
  have hne : S ≠ [] := by
    intro h0
    have := hS.1
    rw [h0] at this
    simp at this
    omega
  obtain ⟨rest, hel⟩ := holds_block hS hne
  have hlen : a.numElements ≤ ((S.map some ++ rest).length : Int) := by
    rw [hS.1]
    simp
  have hfin : ∀ m : DynamicMemoryBlock α, m = a.elements →
      (Outcome.done { ({ a with elements := m } : Array α) with
        numElements := a.numElements - 0 } : Outcome (Array α) (Array α)) = .done a := by
    intro m hm
    subst hm
    cases a
    simp
  unfold remove
  simp only [hassert, not_true_eq_false, if_false]
  unfold removeElementsInternal
  by_cases hlast : index = a.numElements
  · have hz : a.numElements - (index + 0) = 0 := by omega
    by_cases htc : tr.triviallyCopyable = true
    · simp only [htc, if_true, hz, memmove]
      exact hfin _ rfl
    · simp only [htc, Bool.false_eq_true, if_false, hz, Int.toNat_zero, moveAssignLoop,
        destroyLoop]
      exact hfin _ rfl
  · have htc : tr.triviallyCopyable = true := by
      rcases hstrat with h | h
      · exact h
      · exact absurd h hlast
    lift index to ℕ using (by omega) with i
    have hk0 : 0 ≤ a.numElements - ((i : Int) + 0) := by omega
    obtain ⟨k, hk⟩ := Int.eq_ofNat_of_zero_le hk0
    have hkne : ¬ ((k : Int) = 0) := by omega
    have hb : 0 < (k : Int) ∧ 0 ≤ (i : Int) + 0 ∧
        (i : Int) + 0 + (k : Int) ≤ (([] ++ (S.map some ++ rest)).length : Int) ∧
        0 ≤ (i : Int) ∧
        (i : Int) + (k : Int) ≤ (([] ++ (S.map some ++ rest)).length : Int) := by
      simp only [List.nil_append]
      omega
    have e1 : ((i : Int) + 0).toNat = i := by omega
    have e2 : ((i : Int) + (k : Int)).toNat = i + k := by omega
    simp only [htc, if_true, hk, memmove, hkne, if_false, hel, hb, and_self, e1, e2,
      Int.toNat_natCast, take_take_drop]
    exact hfin _ hel.symm

/-- C31, amended.  For a well-formed sequence and an index from 1 up to the
count, `remove (index, 0)` completes and leaves the elements, the count and the capacity as
they were, when the elements are moved by `memmove` (a trivially copyable type) or the index
is the count. -/
theorem remove_zero_length (tr : ElemTraits) (a : Array α) (S : List α) (index : Int)
    (hS : a.Holds S) (h1 : 1 ≤ index) (hn : index ≤ a.numElements)
    (hstrat : tr.triviallyCopyable = true ∨ index = a.numElements) :
    remove tr a index 0 = .done a ∧ a.Holds S :=
  ⟨remove_nothing tr a S index hS h1 hn hstrat, hS⟩

/-- C31, amended, at `[a, b, c]`: `remove (1, 0)` on the bulk strategy leaves `[a, b, c]`. -/
theorem remove_zero_length_witness :
    remove ⟨true, true⟩ abc 1 0 = .done abc ∧ abc.Holds ['a', 'b', 'c'] :=
  remove_zero_length ⟨true, true⟩ abc ['a', 'b', 'c'] 1
    ⟨rfl, [none, none, none, none, none], rfl, rfl⟩ (by decide) (by decide) (Or.inl rfl)

/-- C31 as stated fails at index 0 and on the element-wise strategy.  `remove (0, 0)`
asserts that `0 + 0 - 1 = -1` lies in `[0, count)` and ends fatally, on `[a, b, c]` as on
the empty sequence.  On the element-wise strategy `remove (1, 0)` on `[a, b, c]`
move-assigns the elements at the indices 1 and 2 each onto itself, which leaves them
moved-from, or, without move assignment, destroys each before it is moved from. -/
theorem remove_zero_length_fails :
    remove ⟨true, true⟩ abc 0 0 = .fatal abc ∧ remove ⟨false, true⟩ abc 0 0 = .fatal abc ∧
      remove ⟨true, true⟩ (empty : Array Char) 0 0 = .fatal empty ∧
      remove ⟨false, true⟩ abc 1 0
        = .done { abc with elements := ⟨some [some 'a', none, none, none, none, none, none,
            none]⟩ } ∧
      remove ⟨false, false⟩ abc 1 0 = .undefined := by
  refine ⟨by decide, by decide, by decide, by decide, by decide⟩

end Array

end hosa

namespace hosa

namespace String

open StringHelpers

/-! ## The loop of `split`: termination, the ninth piece -/

theorem splitLoop_fuel (T D : CString) (clip : Bool) (hD : 0 < D.length) (n : Nat) :
    ∀ (fuel1 fuel2 : Nat) (i l : Int) (res : Array CString),
      ((T.length : Int) - i).toNat < n → n ≤ fuel1 → n ≤ fuel2 →
      splitLoop T D clip (T.length : Int) (D.length : Int) fuel1 i l res
        = splitLoop T D clip (T.length : Int) (D.length : Int) fuel2 i l res ∧
      (splitLoop T D clip (T.length : Int) (D.length : Int) fuel1 i l res).isSome = true := by
  induction n with
  | zero => intro _ _ _ _ _ h; omega
  | succ n ih =>
    intro fuel1 fuel2 i l res hm h1 h2
    obtain ⟨f1, rfl⟩ : ∃ f, fuel1 = f + 1 := ⟨fuel1 - 1, by omega⟩
    obtain ⟨f2, rfl⟩ : ∃ f, fuel2 = f + 1 := ⟨fuel2 - 1, by omega⟩
    unfold splitLoop
    by_cases hcond : i + (D.length : Int) ≤ (T.length : Int)
    · simp only [hcond, if_true]
      by_cases hmatch : containsStartingAt T i D = true
      · simp only [hmatch, if_true]
        cases hsub : substring T l (i - l) clip with
        | none => constructor <;> trivial
        | some piece =>
          dsimp only
          cases hadd : Array.add elemTraits res piece with
          | fatal s => constructor <;> trivial
          | undefined => constructor <;> trivial
          | done res1 =>
            dsimp only
            exact ih f1 f2 (i + (D.length : Int)) (i + (D.length : Int)) res1 (by omega)
              (by omega) (by omega)
      · simp only [hmatch, Bool.false_eq_true, if_false]
        exact ih f1 f2 (i + 1) l res (by omega) (by omega) (by omega)
    · simp only [hcond, if_false]
      constructor <;> trivial

/-- C40: for a text `T` and a non-empty separator `D`, `T.split (D, flag)` terminates: every
iteration of the scan moves the index forward, by `len (D) ≥ 1` at an occurrence and by 1
elsewhere, so `len (T) + 1` evaluations of the loop condition reach the end of the loop, and
with any larger number allowed the result is the same. -/
theorem split_terminates (T D : CString) (clip : Bool) (fuel : Nat) (hT : IsText T)
    (hD : IsText D) (hne : D ≠ []) (hfuel : T.length + 1 ≤ fuel) :
    (split fuel T D clip).isSome = true ∧
      split fuel T D clip = split (T.length + 1) T D clip := by
  have hDpos : 0 < D.length := List.length_pos.mpr hne
  have hlenT : length T = (T.length : Int) := stringLength_of_isText T hT
  have hlenD : length D = (D.length : Int) := stringLength_of_isText D hD
  obtain ⟨heq, hsome⟩ := splitLoop_fuel T D clip hDpos (T.length + 1) fuel (T.length + 1) 0 0
    Array.empty (by omega) hfuel (le_refl _)
  unfold split
  by_cases hc : contains T D = true
  · simp only [hc, not_true_eq_false, if_false, hlenT, hlenD]
    rw [← heq]
    cases hrun : splitLoop T D clip (T.length : Int) (D.length : Int) fuel 0 0 Array.empty with
    | none => rw [hrun] at hsome; cases hsome
    | some o =>
      cases o with
      | fatal s => constructor <;> trivial
      | undefined => constructor <;> trivial
      | done r =>
        obtain ⟨result, lastIndex⟩ := r
        dsimp only
        cases substring T lastIndex (T.length : Int) clip <;> constructor <;> trivial
  · have hc' : contains T D = false := by simpa using hc
    simp only [hc', Bool.false_eq_true, not_false_eq_true, if_true]
    constructor <;> trivial

/-- C40 at `"a,b,,c"` split at `","` with trimming: 7 evaluations of the loop condition
suffice, and 100 give the same result. -/
theorem split_terminates_witness :
    (split 100 (cstr "a,b,,c") (cstr ",") true).isSome = true ∧
      split 100 (cstr "a,b,,c") (cstr ",") true
        = split ((cstr "a,b,,c").length + 1) (cstr "a,b,,c") (cstr ",") true :=
  split_terminates (cstr "a,b,,c") (cstr ",") true 100 (by decide) (by decide) (by decide)
    (by decide)

/-- C38 fails on the code.  In `1;2;3;4;5;6;7;8;9` the scan from left to right finds the
separator `;` eight times, so the claim has nine pieces; `split` has no result, because
adding the ninth piece grows the block of eight slots of its `Array<String>` and the
element-wise `setAllocatedSizeInternal` releases the old block, which `malloc` returned, with
`delete[]`.  For `1;2;3;4;5;6;7;8`, with seven occurrences, `split` returns the eight
pieces. -/
theorem split_ninth_piece_releases_block_with_delete :
    greedyCount (cstr ";") 0 (cstr "1;2;3;4;5;6;7;8;9") = 8 ∧
    split 18 (cstr "1;2;3;4;5;6;7;8;9") (cstr ";") false = some .undefined ∧
    greedyCount (cstr ";") 0 (cstr "1;2;3;4;5;6;7;8") = 7 ∧
    split 16 (cstr "1;2;3;4;5;6;7;8") (cstr ";") false = some (.done ⟨8, 8, ⟨some
      ([cstr "1", cstr "2", cstr "3", cstr "4", cstr "5", cstr "6", cstr "7", cstr "8"].map
        some)⟩⟩) := by
  decide

end String

end hosa
